import Mathlib

/-!
# Verification of the Jieqi engine core (rust-ai)

A shallow embedding of the engine's core data model and operations,
translated from the Rust sources:

* `src/types.rs`    — colors, piece types, positions, moves
* `src/board.rs`    — mailbox board, make/undo, attack detection, legal moves
* `src/fen.rs`      — FEN parse/emit
* `src/ai/it2/mod.rs`, `src/ai/it3/mod.rs`, `src/ai/it3/eval.rs`
                    — hidden-pool model, evaluation, expectimax search

Modelling conventions:
* Rust `i8` coordinates are modelled as `Int` (all in-scope arithmetic stays
  far from the i8 range, so wraparound never occurs on reachable values).
* Rust `f64` scores are modelled as exact rationals `ℚ`; `f64::NEG_INFINITY`
  and `f64::INFINITY` appear only as search-window sentinels and are modelled
  by a dedicated three-case type `Xval`.
* Rust strings are modelled as `List Char`.
* The board's 90-cell array is a `List (Option Piece)`; out-of-range writes
  via `List.set` are no-ops, matching the fact that the Rust code only
  indexes with valid positions on the paths modelled here.
-/

set_option maxRecDepth 10000

namespace Jieqi

/-- `Color` from `types.rs`. -/
inductive Color where
  | Red
  | Black
deriving DecidableEq, Repr

namespace Color

/-- `Color::opposite`. -/
def opposite : Color → Color
  | Red => Black
  | Black => Red

@[simp] theorem opposite_opposite (c : Color) : c.opposite.opposite = c := by
  cases c <;> rfl

/-- `Color::from_fen_char`. -/
def from_fen_char (c : Char) : Option Color :=
  if c = 'r' then some Red else if c = 'b' then some Black else none

/-- `Color::to_fen_char`. -/
def to_fen_char : Color → Char
  | Red => 'r'
  | Black => 'b'

end Color

/-- `PieceType` from `types.rs`. -/
inductive PieceType where
  | King
  | Advisor
  | Elephant
  | Horse
  | Rook
  | Cannon
  | Pawn
deriving DecidableEq, Repr

namespace PieceType

/-- `PieceType::from_fen_char` (accepts both cases via `to_ascii_lowercase`). -/
def from_fen_char (c : Char) : Option PieceType :=
  match c.toLower with
  | 'k' => some King
  | 'a' => some Advisor
  | 'e' => some Elephant
  | 'h' => some Horse
  | 'r' => some Rook
  | 'c' => some Cannon
  | 'p' => some Pawn
  | _ => none

/-- `PieceType::to_fen_char` (lowercase). -/
def to_fen_char : PieceType → Char
  | King => 'k'
  | Advisor => 'a'
  | Elephant => 'e'
  | Horse => 'h'
  | Rook => 'r'
  | Cannon => 'c'
  | Pawn => 'p'

/-- `PieceType::value`. -/
def value : PieceType → Int
  | King => 100000
  | Rook => 900
  | Cannon => 450
  | Horse => 400
  | Elephant => 200
  | Advisor => 200
  | Pawn => 100

end PieceType

/-- `Position` from `types.rs`: `row: 0-9` (row 0 the Red back rank), `col: 0-8`. -/
structure Position where
  row : Int
  col : Int
deriving DecidableEq, Repr

namespace Position

/-- `Position::new`. -/
def new (row col : Int) : Position := ⟨row, col⟩

/-- `Position::is_valid`. -/
def is_valid (p : Position) : Bool :=
  0 ≤ p.row && p.row ≤ 9 && 0 ≤ p.col && p.col ≤ 8

/-- `Position::is_in_palace`. -/
def is_in_palace (p : Position) (c : Color) : Bool :=
  if ¬ (3 ≤ p.col && p.col ≤ 5) then false
  else match c with
    | Color.Red => 0 ≤ p.row && p.row ≤ 2
    | Color.Black => 7 ≤ p.row && p.row ≤ 9

/-- `Position::is_on_own_side`. -/
def is_on_own_side (p : Position) (c : Color) : Bool :=
  match c with
  | Color.Red => 0 ≤ p.row && p.row ≤ 4
  | Color.Black => 5 ≤ p.row && p.row ≤ 9

/-- `Position::offset`. -/
def offset (p : Position) (row_delta col_delta : Int) : Position :=
  ⟨p.row + row_delta, p.col + col_delta⟩

/-- Modelled from the spec: `Position::to_index` is referenced throughout
`board.rs` but its definition is not among the provided sources.  §3 of the
spec requires "a reversible mapping to a single 0..89 square index", and
`Board::to_fen` indexes the same `squares` array with `row * 9 + col`, fixing
the mapping as `row * 9 + col`. -/
def to_index (p : Position) : Nat :=
  (p.row * 9 + p.col).toNat

/-- Modelled from the spec: inverse of `to_index` (see `to_index`). -/
def from_index (i : Nat) : Position :=
  ⟨(i / 9 : Nat), (i % 9 : Nat)⟩

end Position

/-- `ActionType` from `types.rs`. -/
inductive ActionType where
  | RevealAndMove
  | Move
deriving DecidableEq, Repr

/-- `JieqiMove` from `types.rs`. -/
structure JieqiMove where
  action_type : ActionType
  from_pos : Position
  to_pos : Position
deriving DecidableEq, Repr

/-- `GameResult` from `types.rs`. -/
inductive GameResult where
  | Ongoing
  | RedWin
  | BlackWin
  | Draw
deriving DecidableEq, Repr

/-- `get_position_piece_type` from `types.rs`: the movement type a hidden
piece gets from its starting square. -/
def get_position_piece_type (pos : Position) : Option PieceType :=
  if pos.row = 0 then
    if pos.col = 0 ∨ pos.col = 8 then some PieceType.Rook
    else if pos.col = 1 ∨ pos.col = 7 then some PieceType.Horse
    else if pos.col = 2 ∨ pos.col = 6 then some PieceType.Elephant
    else if pos.col = 3 ∨ pos.col = 5 then some PieceType.Advisor
    else if pos.col = 4 then some PieceType.King
    else none
  else if pos.row = 2 ∧ (pos.col = 1 ∨ pos.col = 7) then some PieceType.Cannon
  else if pos.row = 3 ∧ pos.col % 2 = 0 then some PieceType.Pawn
  else if pos.row = 9 then
    if pos.col = 0 ∨ pos.col = 8 then some PieceType.Rook
    else if pos.col = 1 ∨ pos.col = 7 then some PieceType.Horse
    else if pos.col = 2 ∨ pos.col = 6 then some PieceType.Elephant
    else if pos.col = 3 ∨ pos.col = 5 then some PieceType.Advisor
    else if pos.col = 4 then some PieceType.King
    else none
  else if pos.row = 7 ∧ (pos.col = 1 ∨ pos.col = 7) then some PieceType.Cannon
  else if pos.row = 6 ∧ pos.col % 2 = 0 then some PieceType.Pawn
  else none

/-- `Piece` from `board.rs`. -/
structure Piece where
  color : Color
  position : Position
  is_hidden : Bool
  actual_type : Option PieceType
  movement_type : Option PieceType
deriving DecidableEq, Repr

namespace Piece

/-- `Piece::get_movement_type`.  The Rust code `expect`s the piece invariants;
on invariant-violating pieces (never reachable in scope) we default to
`King`. -/
def get_movement_type (p : Piece) : PieceType :=
  if p.is_hidden then p.movement_type.getD PieceType.King
  else p.actual_type.getD PieceType.King

end Piece

/-- `Board` from `board.rs`: a 90-cell mailbox plus side-to-move, viewer and
cached king positions. -/
structure Board where
  squares : List (Option Piece)
  viewer : Color
  current_turn : Color
  red_king_pos : Option Position
  black_king_pos : Option Position
deriving DecidableEq, Repr

namespace Board

/-- `Board::get_piece`. -/
def get_piece (b : Board) (pos : Position) : Option Piece :=
  if pos.is_valid then (b.squares.getD pos.to_index none) else none

/-- `Board::has_piece`. -/
def has_piece (b : Board) (pos : Position) : Bool :=
  pos.is_valid && (b.squares.getD pos.to_index none).isSome

/-- `Board::get_all_pieces` (in square-index order, as the array iteration). -/
def get_all_pieces (b : Board) (color : Option Color) : List Piece :=
  (b.squares.filterMap id).filter (fun p => match color with
    | none => true
    | some c => p.color = c)

/-- `Board::find_king` (cached king positions). -/
def find_king (b : Board) (color : Color) : Option Position :=
  match color with
  | Color.Red => b.red_king_pos
  | Color.Black => b.black_king_pos

/-- `Board::simulate_reveal`: temporarily reveal a hidden piece as
`piece_type`, returning the new board together with the saved
`(original actual_type, original is_hidden)` token (or `none` when there is
no hidden piece at `pos`, in which case the board is unchanged). -/
def simulate_reveal (b : Board) (pos : Position) (piece_type : PieceType) :
    Board × Option (Option PieceType × Bool) :=
  let idx := pos.to_index
  match b.squares.getD idx none with
  | none => (b, none)
  | some piece =>
    if ¬ piece.is_hidden then (b, none)
    else
      let state := (piece.actual_type, piece.is_hidden)
      let piece' := { piece with is_hidden := false, actual_type := some piece_type }
      ({ b with squares := b.squares.set idx (some piece') }, some state)

/-- `Board::restore_simulated_reveal`. -/
def restore_simulated_reveal (b : Board) (pos : Position)
    (state : Option PieceType × Bool) : Board :=
  let idx := pos.to_index
  match b.squares.getD idx none with
  | none => b
  | some piece =>
    let piece' := { piece with actual_type := state.1, is_hidden := state.2 }
    { b with squares := b.squares.set idx (some piece') }

/-- `Board::make_move`: returns the updated board and the captured piece.
When `from_pos` is empty the Rust code returns `None` early with the board
unchanged. -/
def make_move (b : Board) (mv : JieqiMove) : Board × Option Piece :=
  let from_idx := mv.from_pos.to_index
  let to_idx := mv.to_pos.to_index
  match b.squares.getD from_idx none with
  | none => (b, none)
  | some piece0 =>
    let squares1 := b.squares.set from_idx none
    -- 揭子走法：标记为明子
    let piece1 :=
      if mv.action_type = ActionType.RevealAndMove then
        { piece0 with is_hidden := false, actual_type := piece0.movement_type }
      else piece0
    -- 记录被吃的棋子
    let captured := squares1.getD to_idx none
    let squares2 := squares1.set to_idx none
    -- 更新将的位置缓存（两个缓存字段逐一给出）
    let rk1 :=
      if piece1.get_movement_type = PieceType.King && piece1.color = Color.Red
      then some mv.to_pos else b.red_king_pos
    let bk1 :=
      if piece1.get_movement_type = PieceType.King && piece1.color = Color.Black
      then some mv.to_pos else b.black_king_pos
    -- 如果吃掉了将，清除缓存
    let rk2 :=
      match captured with
      | some cap =>
        if cap.get_movement_type = PieceType.King && cap.color = Color.Red
        then none else rk1
      | none => rk1
    let bk2 :=
      match captured with
      | some cap =>
        if cap.get_movement_type = PieceType.King && cap.color = Color.Black
        then none else bk1
      | none => bk1
    -- 移动棋子并切换回合
    let piece2 := { piece1 with position := mv.to_pos }
    ({ b with
        squares := squares2.set to_idx (some piece2)
        red_king_pos := rk2
        black_king_pos := bk2
        current_turn := b.current_turn.opposite },
     captured)

/-- `Board::undo_move`.  The Rust code `expect`s a piece at `to_pos`; when
that invariant fails (never in scope) the board is returned unchanged. -/
def undo_move (b : Board) (mv : JieqiMove) (captured : Option Piece)
    (was_hidden : Bool) : Board :=
  let from_idx := mv.from_pos.to_index
  let to_idx := mv.to_pos.to_index
  match b.squares.getD to_idx none with
  | none => b
  | some piece0 =>
    let squares1 := b.squares.set to_idx none
    -- 恢复暗子状态
    let piece1 :=
      if was_hidden then { piece0 with is_hidden := true, actual_type := none }
      else piece0
    -- 更新将的位置缓存（两个缓存字段逐一给出）
    let rk1 :=
      if piece1.get_movement_type = PieceType.King && piece1.color = Color.Red
      then some mv.from_pos else b.red_king_pos
    let bk1 :=
      if piece1.get_movement_type = PieceType.King && piece1.color = Color.Black
      then some mv.from_pos else b.black_king_pos
    let piece2 := { piece1 with position := mv.from_pos }
    let squares2 := squares1.set from_idx (some piece2)
    -- 恢复被吃的棋子（以及被吃将的缓存）
    let squares3 :=
      match captured with
      | some cap => squares2.set to_idx (some cap)
      | none => squares2
    let rk2 :=
      match captured with
      | some cap =>
        if cap.get_movement_type = PieceType.King && cap.color = Color.Red
        then some mv.to_pos else rk1
      | none => rk1
    let bk2 :=
      match captured with
      | some cap =>
        if cap.get_movement_type = PieceType.King && cap.color = Color.Black
        then some mv.to_pos else bk1
      | none => bk1
    { b with
        squares := squares3
        red_king_pos := rk2
        black_king_pos := bk2
        current_turn := b.current_turn.opposite }

/-- `Board::can_move_to`. -/
def can_move_to (b : Board) (piece : Piece) (pos : Position) : Bool :=
  if ¬ pos.is_valid then false
  else match b.get_piece pos with
    | none => true
    | some target => target.color ≠ piece.color

/-- The successive positions `pos + d, pos + 2d, …` visited by a
`while new_pos.is_valid()` ray walk.  Along the four unit directions validity
is prefix-closed, and at most 9 steps stay on the board, so taking the valid
prefix of the first 10 offsets is exactly the set of loop iterations. -/
def rayPositions (pos : Position) (dr dc : Int) : List Position :=
  (((List.range 10).map (fun k => pos.offset ((k + 1 : Nat) * dr) ((k + 1 : Nat) * dc))).takeWhile
    (·.is_valid))

/-- The integer range `lo..hi` (exclusive upper bound), as iterated by Rust
`for` loops. -/
def intRange (lo hi : Int) : List Int :=
  (List.range (hi - lo).toNat).map (fun k => lo + k)

/-- The body of the rook ray loop in `Board::get_rook_moves`: walk the valid
positions of one ray, collecting empty squares and the first occupied square
when it holds an enemy piece. -/
def rookScan (b : Board) (c : Color) : List Position → List Position
  | [] => []
  | q :: rest =>
    match b.get_piece q with
    | none => q :: rookScan b c rest
    | some target => if target.color ≠ c then [q] else []

/-- The body of the cannon ray loop in `Board::get_cannon_moves`:
`platform` is the `found_platform` flag. -/
def cannonScan (b : Board) (c : Color) (platform : Bool) :
    List Position → List Position
  | [] => []
  | q :: rest =>
    match b.get_piece q with
    | none =>
      if ¬ platform then q :: cannonScan b c platform rest
      else cannonScan b c platform rest
    | some target =>
      if ¬ platform then cannonScan b c true rest
      else if target.color ≠ c then [q] else []

/-- `Board::get_king_moves` (one orthogonal step in the palace, plus the
flying-general capture). -/
def get_king_moves (b : Board) (piece : Piece) : List Position :=
  let pos := piece.position
  let step :=
    ([(1, 0), (-1, 0), (0, 1), (0, -1)] : List (Int × Int)).filterMap fun d =>
      let new_pos := pos.offset d.1 d.2
      if new_pos.is_in_palace piece.color && b.can_move_to piece new_pos then
        some new_pos
      else none
  let fly :=
    match b.find_king piece.color.opposite with
    | none => []
    | some enemy_king_pos =>
      if enemy_king_pos.col = pos.col then
        let min_row := min pos.row enemy_king_pos.row
        let max_row := max pos.row enemy_king_pos.row
        let blocked := (intRange (min_row + 1) max_row).any
          (fun r => b.has_piece ⟨r, pos.col⟩)
        if ¬ blocked then [enemy_king_pos] else []
      else []
  step ++ fly

/-- `Board::get_advisor_moves`. -/
def get_advisor_moves (b : Board) (piece : Piece) : List Position :=
  let pos := piece.position
  ([(1, 1), (1, -1), (-1, 1), (-1, -1)] : List (Int × Int)).filterMap fun d =>
    let new_pos := pos.offset d.1 d.2
    if ¬ new_pos.is_in_palace piece.color then none
    else if b.can_move_to piece new_pos then some new_pos
    else none

/-- `Board::get_elephant_moves`. -/
def get_elephant_moves (b : Board) (piece : Piece) : List Position :=
  let pos := piece.position
  ([((2, 2), (1, 1)), ((2, -2), (1, -1)), ((-2, 2), (-1, 1)), ((-2, -2), (-1, -1))] :
      List ((Int × Int) × (Int × Int))).filterMap fun dd =>
    let new_pos := pos.offset dd.1.1 dd.1.2
    let eye_pos := pos.offset dd.2.1 dd.2.2
    if ¬ new_pos.is_on_own_side piece.color then none
    else if b.has_piece eye_pos then none
    else if new_pos.is_valid && b.can_move_to piece new_pos then some new_pos
    else none

/-- The eight horse directions with their leg offsets, from
`Board::get_horse_moves`. -/
def horseDirections : List ((Int × Int) × (Int × Int)) :=
  [((2, 1), (1, 0)), ((2, -1), (1, 0)), ((-2, 1), (-1, 0)), ((-2, -1), (-1, 0)),
   ((1, 2), (0, 1)), ((1, -2), (0, -1)), ((-1, 2), (0, 1)), ((-1, -2), (0, -1))]

/-- `Board::get_horse_moves`. -/
def get_horse_moves (b : Board) (piece : Piece) : List Position :=
  let pos := piece.position
  horseDirections.filterMap fun dd =>
    let new_pos := pos.offset dd.1.1 dd.1.2
    let leg_pos := pos.offset dd.2.1 dd.2.2
    if b.has_piece leg_pos then none
    else if new_pos.is_valid && b.can_move_to piece new_pos then some new_pos
    else none

/-- `Board::get_rook_moves`. -/
def get_rook_moves (b : Board) (piece : Piece) : List Position :=
  ([(1, 0), (-1, 0), (0, 1), (0, -1)] : List (Int × Int)).flatMap fun d =>
    rookScan b piece.color (rayPositions piece.position d.1 d.2)

/-- `Board::get_cannon_moves`. -/
def get_cannon_moves (b : Board) (piece : Piece) : List Position :=
  ([(1, 0), (-1, 0), (0, 1), (0, -1)] : List (Int × Int)).flatMap fun d =>
    cannonScan b piece.color false (rayPositions piece.position d.1 d.2)

/-- `Board::get_pawn_moves`. -/
def get_pawn_moves (b : Board) (piece : Piece) : List Position :=
  let pos := piece.position
  let is_red := piece.color = Color.Red
  let forward : Int := if is_red then 1 else -1
  let crossed_river := if is_red then 5 ≤ pos.row else pos.row ≤ 4
  let forward_pos := pos.offset forward 0
  let fwd :=
    if forward_pos.is_valid && b.can_move_to piece forward_pos then [forward_pos]
    else []
  let side :=
    if crossed_river then
      ([-1, 1] : List Int).filterMap fun dc =>
        let side_pos := pos.offset 0 dc
        if side_pos.is_valid && b.can_move_to piece side_pos then some side_pos
        else none
    else []
  fwd ++ side

/-- `Board::get_potential_moves`. -/
def get_potential_moves (b : Board) (piece : Piece) : List Position :=
  match piece.get_movement_type with
  | PieceType.King => get_king_moves b piece
  | PieceType.Advisor => get_advisor_moves b piece
  | PieceType.Elephant => get_elephant_moves b piece
  | PieceType.Horse => get_horse_moves b piece
  | PieceType.Rook => get_rook_moves b piece
  | PieceType.Cannon => get_cannon_moves b piece
  | PieceType.Pawn => get_pawn_moves b piece

/-- One orthogonal ray of the rook/cannon/flying-general sweep in
`Board::is_position_attacked`: walk the valid positions of the ray keeping
the `screen_count`, returning `true` when an attacking piece is found and
aborting once two intervening pieces have been passed. -/
def attackScan (b : Board) (attacker_color : Color) :
    List Position → Nat → Bool
  | [], _ => false
  | q :: rest, screen_count =>
    match b.get_piece q with
    | none => attackScan b attacker_color rest screen_count
    | some piece =>
      if piece.color = attacker_color &&
          ((screen_count = 0 && piece.get_movement_type = PieceType.Rook) ||
           (screen_count = 1 && piece.get_movement_type = PieceType.Cannon) ||
           (screen_count = 0 && piece.get_movement_type = PieceType.King)) then
        true
      else if 2 ≤ screen_count + 1 then false
      else attackScan b attacker_color rest (screen_count + 1)

/-- `Board::is_position_attacked`. -/
def is_position_attacked (b : Board) (target_pos : Position)
    (attacker_color : Color) : Bool :=
  -- 检查车/炮攻击（直线），含飞将
  (([(1, 0), (-1, 0), (0, 1), (0, -1)] : List (Int × Int)).any fun d =>
    attackScan b attacker_color (rayPositions target_pos d.1 d.2) 0) ||
  -- 检查马攻击（马腿从马的位置计算）
  (horseDirections.any fun dd =>
    let horse_pos := target_pos.offset dd.1.1 dd.1.2
    let leg_pos := horse_pos.offset (-dd.2.1) (-dd.2.2)
    match b.get_piece horse_pos with
    | none => false
    | some piece =>
      piece.color = attacker_color &&
      piece.get_movement_type = PieceType.Horse &&
      ¬ b.has_piece leg_pos) ||
  -- 检查兵攻击
  ((if attacker_color = Color.Red then
      ([(-1, 0), (0, -1), (0, 1)] : List (Int × Int))
    else
      ([(1, 0), (0, -1), (0, 1)] : List (Int × Int))).any fun d =>
    let pawn_pos := target_pos.offset d.1 d.2
    match b.get_piece pawn_pos with
    | none => false
    | some piece =>
      if piece.color = attacker_color && piece.get_movement_type = PieceType.Pawn then
        let is_red := piece.color = Color.Red
        let crossed := if is_red then 5 ≤ piece.position.row else piece.position.row ≤ 4
        let forward : Int := if is_red then 1 else -1
        if d.1 = -forward then true
        else if crossed && d.2 ≠ 0 then true
        else false
      else false)

/-- `Board::is_in_check`. -/
def is_in_check (b : Board) (color : Color) : Bool :=
  match b.find_king color with
  | some king_pos => b.is_position_attacked king_pos color.opposite
  | none => true

/-- The per-piece data collected by `Board::get_legal_moves_mut` before the
trial loop: `(position, is_hidden, movement type)` of the side's pieces in
square order. -/
def myPieces (b : Board) (color : Color) : List (Position × Bool × PieceType) :=
  ((b.squares.filterMap id).filter (fun p => p.color = color)).map
    (fun p => (p.position, p.is_hidden, p.get_movement_type))

/-- `Board::get_legal_moves` (via `get_legal_moves_mut`).  The Rust code
tries each pseudo-legal move on the single mutable board with
`make_move`/`undo_move`; since the undo restores the board exactly (proved
as `undo_make_move` below), each trial is modelled by applying `make_move`
to the unchanged input board. -/
def get_legal_moves (b : Board) (color : Color) : List JieqiMove :=
  match b.find_king color with
  | none => []
  | some king_pos =>
    (myPieces b color).flatMap fun info =>
      let from_pos := info.1
      let is_hidden := info.2.1
      let movement_type := info.2.2
      let action_type :=
        if is_hidden then ActionType.RevealAndMove else ActionType.Move
      let is_king := movement_type = PieceType.King
      match b.get_piece from_pos with
      | none => []
      | some p =>
        (get_potential_moves b p).filterMap fun to_pos =>
          let mv : JieqiMove := ⟨action_type, from_pos, to_pos⟩
          let b' := (b.make_move mv).1
          let check_king_pos :=
            if is_king then to_pos else (b'.find_king color).getD king_pos
          let in_check := b'.is_position_attacked check_king_pos color.opposite
          if in_check then none else some mv

/-- `Board::get_game_result`. -/
def get_game_result (b : Board) (legal_moves : Option (List JieqiMove)) :
    GameResult :=
  match b.find_king Color.Red, b.find_king Color.Black with
  | none, _ => GameResult.BlackWin
  | some _, none => GameResult.RedWin
  | some _, some _ =>
    let moves :=
      match legal_moves with
      | some m => m
      | none => b.get_legal_moves b.current_turn
    if moves.isEmpty then
      if b.is_in_check b.current_turn then
        match b.current_turn with
        | Color.Red => GameResult.BlackWin
        | Color.Black => GameResult.RedWin
      else GameResult.Draw
    else GameResult.Ongoing

end Board

/-- The number of occupied squares strictly between the target and the
candidate attacker at index `i` of a ray: the occupied squares among the
first `i` positions walked by `Board.is_position_attacked`. -/
def screensBefore (b : Board) (l : List Position) (i : Nat) : Nat :=
  (l.take i).countP (fun q => (b.get_piece q).isSome)

/-- Well-formedness of a board, following the data-model invariants of §3 of
the spec: 90 squares; each stored piece's `position` field names its own
square; hidden pieces have no `actual_type` but a `movement_type`; revealed
pieces have an `actual_type`; and the two king-position caches are exactly
the squares of the pieces whose movement type is `King`. -/
def Board.wf (b : Board) : Bool :=
  (b.squares.length = 90 : Bool) &&
  ((List.range 90).all fun i =>
    match b.squares.getD i none with
    | none => true
    | some p =>
      (p.position = Position.from_index i : Bool) &&
      (if p.is_hidden then p.actual_type = none && p.movement_type.isSome
       else (p.actual_type.isSome : Bool)) &&
      (if p.get_movement_type = PieceType.King then
        (b.find_king p.color = some p.position : Bool)
       else true)) &&
  ((([Color.Red, Color.Black] : List Color)).all fun c =>
    match b.find_king c with
    | none => true
    | some kp =>
      kp.is_valid &&
      (match b.get_piece kp with
       | none => false
       | some p =>
         (p.color = c : Bool) && (p.get_movement_type = PieceType.King : Bool)))

/-! ## FEN codec (`fen.rs`) -/

/-- `FenPiece` from `fen.rs`. -/
structure FenPiece where
  position : Position
  color : Color
  is_hidden : Bool
  piece_type : Option PieceType
deriving DecidableEq, Repr

/-- `CapturedPieceInfo` from `fen.rs`. -/
structure CapturedPieceInfo where
  piece_type : Option PieceType
  was_hidden : Bool
deriving DecidableEq, Repr

/-- `CapturedInfo` from `fen.rs`. -/
structure CapturedInfo where
  red_captured : List CapturedPieceInfo
  black_captured : List CapturedPieceInfo
deriving DecidableEq, Repr

/-- `FenState` from `fen.rs`. -/
structure FenState where
  pieces : List FenPiece
  captured : CapturedInfo
  turn : Color
  viewer : Color
deriving DecidableEq, Repr

/-- One step of `splitWs` (right fold): whitespace closes the token being
accumulated, any other character extends it. -/
def splitWsStep (c : Char) (acc : List (List Char) × List Char) :
    List (List Char) × List Char :=
  if c.isWhitespace then
    if acc.2.isEmpty then acc else (acc.2 :: acc.1, [])
  else (acc.1, c :: acc.2)

/-- Rust `str::split_whitespace`: the maximal runs of non-whitespace
characters, in order. -/
def splitWs (l : List Char) : List (List Char) :=
  let r := l.foldr splitWsStep ([], [])
  if r.2.isEmpty then r.1 else r.2 :: r.1

/-- One row of `parse_board` in `fen.rs`: walk the row's characters keeping
the current column, stopping (and ignoring the rest) once `col ≥ 9`, and
requiring the row to end exactly at column 9. -/
def parseRowChars (row : Int) : List Char → Int → Option (List FenPiece)
  | [], col => if col = 9 then some [] else none
  | c :: rest, col =>
    if 9 ≤ col then (if col = 9 then some [] else none)
    else if c.isDigit then
      parseRowChars row rest (col + ((c.toNat : Int) - ('0'.toNat : Int)))
    else if c = 'X' then
      (parseRowChars row rest (col + 1)).map
        (fun ps => ⟨Position.new row col, Color.Red, true, none⟩ :: ps)
    else if c = 'x' then
      (parseRowChars row rest (col + 1)).map
        (fun ps => ⟨Position.new row col, Color.Black, true, none⟩ :: ps)
    else if c.isAlpha then
      match PieceType.from_fen_char c with
      | none => none
      | some piece_type =>
        let color := if c.isUpper then Color.Red else Color.Black
        (parseRowChars row rest (col + 1)).map
          (fun ps => ⟨Position.new row col, color, false, some piece_type⟩ :: ps)
    else none

/-- The row loop of `parse_board`, rows top-to-bottom (`row_idx` 0 ↦ row 9). -/
def parseBoardRows : List (List Char) → Nat → Option (List FenPiece)
  | [], _ => some []
  | r :: rest, row_idx => do
    let ps ← parseRowChars (9 - (row_idx : Int)) r 0
    let rest' ← parseBoardRows rest (row_idx + 1)
    return ps ++ rest'

/-- `parse_board` from `fen.rs`. -/
def parse_board (board_str : List Char) : Option (List FenPiece) :=
  let rows := board_str.splitOn '/'
  if rows.length ≠ 10 then none
  else parseBoardRows rows 0

/-- One side of `parse_captured`: `'?'` parses as an unknown hidden capture,
a letter as a typed capture whose `was_hidden` flag is its lowercase-ness. -/
def parseCapturedSide (s : List Char) : Option (List CapturedPieceInfo) :=
  if s = ['-'] then some []
  else
    s.foldr (fun c acc => do
      let rest ← acc
      if c = '?' then
        return ⟨none, true⟩ :: rest
      else
        match PieceType.from_fen_char c with
        | none => none
        | some piece_type =>
          return ⟨some piece_type, c.isLower⟩ :: rest) (some [])

/-- `parse_captured` from `fen.rs`. -/
def parse_captured (captured_str : List Char) : Option CapturedInfo := do
  match captured_str.splitOn ':' with
  | [red_str, black_str] =>
    let red ← parseCapturedSide red_str
    let black ← parseCapturedSide black_str
    return ⟨red, black⟩
  | _ => none

/-- `parse_fen` from `fen.rs`. -/
def parse_fen (fen : List Char) : Option FenState := do
  match splitWs fen with
  | [board_str, captured_str, turn_str, viewer_str] =>
    let pieces ← parse_board board_str
    let captured ← parse_captured captured_str
    let turn ← Color.from_fen_char (turn_str.headD 'r')
    let viewer ← Color.from_fen_char (viewer_str.headD 'r')
    return ⟨pieces, captured, turn, viewer⟩
  | _ => none

/-- The characters emitted for one cell by `pieces_to_fen`: hidden pieces
print `X`/`x`; revealed pieces print their type letter (uppercase for Red);
a revealed piece without a type prints nothing (the Rust `if let` silently
skips it). -/
def fenPieceChars (p : FenPiece) : List Char :=
  if p.is_hidden then
    [match p.color with | Color.Red => 'X' | Color.Black => 'x']
  else
    match p.piece_type with
    | some pt =>
      [match p.color with
       | Color.Red => pt.to_fen_char.toUpper
       | Color.Black => pt.to_fen_char]
    | none => []

/-- The cell loop of one emitted row in `pieces_to_fen`, carrying the
`empty_count` accumulator.  Runs of empty cells print their length, which is
at most 9 and hence a single digit. -/
def emitRowGo : List (Option FenPiece) → Nat → List Char
  | [], empty_count =>
    if 0 < empty_count then [Nat.digitChar empty_count] else []
  | none :: rest, empty_count => emitRowGo rest (empty_count + 1)
  | some p :: rest, empty_count =>
    (if 0 < empty_count then [Nat.digitChar empty_count] else []) ++
      fenPieceChars p ++ emitRowGo rest 0

/-- The 10×9 board matrix built by `pieces_to_fen` (flat, index
`row * 9 + col`); later pieces overwrite earlier ones, and positions outside
the 10×9 range are skipped by the bounds guard. -/
def fenMatrix (pieces : List FenPiece) : List (Option FenPiece) :=
  pieces.foldl (fun m p =>
    if 0 ≤ p.position.row ∧ p.position.row < 10 ∧ 0 ≤ p.position.col ∧ p.position.col < 9 then
      m.set (p.position.row * 9 + p.position.col).toNat (some p)
    else m) (List.replicate 90 none)

/-- The cells of row `row` (columns 0..8) of a flat 90-cell matrix. -/
def matrixRow (m : List (Option FenPiece)) (row : Nat) : List (Option FenPiece) :=
  (List.range 9).map (fun col => m.getD (row * 9 + col) none)

/-- The emitted board field of `pieces_to_fen`: rows 9 down to 0 joined
by `/`. -/
def emitBoard (pieces : List FenPiece) : List Char :=
  let m := fenMatrix pieces
  List.intercalate ['/']
    (((List.range 10).reverse).map (fun row => emitRowGo (matrixRow m row) 0))

/-- One side of the captured field emitted by `pieces_to_fen`:
`upper := true` for the red side (red pieces always print uppercase),
`false` for black (always lowercase); unknown entries print `?`.  The
`was_hidden` flag is not consulted. -/
def emitCapturedSide (upper : Bool) (l : List CapturedPieceInfo) : List Char :=
  if l.isEmpty then ['-']
  else l.map (fun c =>
    match c.piece_type with
    | some pt => if upper then pt.to_fen_char.toUpper else pt.to_fen_char
    | none => '?')

/-- `pieces_to_fen` from `fen.rs`. -/
def pieces_to_fen (pieces : List FenPiece) (captured : CapturedInfo)
    (turn : Color) (viewer : Color) : List Char :=
  emitBoard pieces ++ [' '] ++
    emitCapturedSide true captured.red_captured ++ [':'] ++
    emitCapturedSide false captured.black_captured ++ [' '] ++
    [turn.to_fen_char] ++ [' '] ++ [viewer.to_fen_char]

/-- Canonical-FEN predicate (for the amended round-trip claim): one board
row, walked with the running column and a no-adjacent-digits flag.  Each
character is either a digit `1`-`9` (an empty run that keeps the running
column within 9 and may not follow another digit) or a piece character; the
row must end exactly at column 9. -/
def canonicalRowAux : List Char → Nat → Bool → Bool
  | [], col, _ => col == 9
  | c :: rest, col, prev =>
    (decide (c ∈ ['1', '2', '3', '4', '5', '6', '7', '8', '9']) && !prev &&
      decide (col + (c.toNat - 48) ≤ 9) &&
      canonicalRowAux rest (col + (c.toNat - 48)) true) ||
    (decide (c ∈ ['K', 'A', 'E', 'H', 'R', 'C', 'P', 'k', 'a', 'e', 'h',
        'r', 'c', 'p', 'X', 'x']) &&
      decide (col + 1 ≤ 9) && canonicalRowAux rest (col + 1) false)

/-- A canonical board row starts at column 0 with no pending digit. -/
def canonicalRow (rs : List Char) : Bool := canonicalRowAux rs 0 false

/-- One canonical captured side: `-`, or a non-empty run of `?` and piece
letters in the case the emitter uses for that side (upper for red, lower for
black). -/
def canonicalCapSide (upper : Bool) (cs : List Char) : Bool :=
  cs == ['-'] ||
  (!cs.isEmpty && cs.all (fun c =>
    decide (c ∈ ('?' :: (if upper then ['K', 'A', 'E', 'H', 'R', 'C', 'P']
      else ['k', 'a', 'e', 'h', 'r', 'c', 'p'])))))

/-- Canonical FEN string: four single-space-separated fields, a 10-row
canonical board, a two-sided canonical captured record, and single-letter
`r`/`b` turn and viewer fields. -/
def canonicalFen (s : List Char) : Bool :=
  match s.splitOn ' ' with
  | [bo, cap, tu, vw] =>
    (let rows := bo.splitOn '/'
     rows.length == 10 && rows.all canonicalRow) &&
    (match cap.splitOn ':' with
     | [rc, bc] => canonicalCapSide true rc && canonicalCapSide false bc
     | _ => false) &&
    (tu == ['r'] || tu == ['b']) && (vw == ['r'] || vw == ['b'])
  | _ => false

/-- The cells of one board row from column `col` on, read off a parsed
piece list by column lookup. -/
def cellsFrom (ps : List FenPiece) (col : Nat) : List (Option FenPiece) :=
  (List.range (9 - col)).map
    (fun k => ps.find? (fun p => p.position.col == (col + k : Nat)))

/-- The `FenPiece` that `parse_board` creates for one (non-digit) board
character. -/
def pieceOfChar (c : Char) (row colI : Int) : FenPiece :=
  if c = 'X' then ⟨⟨row, colI⟩, Color.Red, true, none⟩
  else if c = 'x' then ⟨⟨row, colI⟩, Color.Black, true, none⟩
  else ⟨⟨row, colI⟩, if c.isUpper then Color.Red else Color.Black, false,
    PieceType.from_fen_char c⟩

/-- `Board::from_fen` from `board.rs`. -/
def Board.from_fen (fen : List Char) : Option Board := do
  let state ← parse_fen fen
  let init : List (Option Piece) × Option Position × Option Position :=
    (List.replicate 90 none, none, none)
  let (squares, red_king_pos, black_king_pos) :=
    state.pieces.foldl (fun acc fp =>
      let (squares, rk, bk) := acc
      let movement_type :=
        if fp.is_hidden then get_position_piece_type fp.position
        else fp.piece_type
      let piece : Piece :=
        ⟨fp.color, fp.position, fp.is_hidden, fp.piece_type, movement_type⟩
      let (rk', bk') :=
        if movement_type = some PieceType.King ∨ fp.piece_type = some PieceType.King then
          match fp.color with
          | Color.Red => (some fp.position, bk)
          | Color.Black => (rk, some fp.position)
        else (rk, bk)
      (squares.set fp.position.to_index (some piece), rk', bk')) init
  return ⟨squares, state.viewer, state.turn, red_king_pos, black_king_pos⟩

/-! ## Search values

`f64` search scores.  All concretely computed scores are finite and are
modelled as exact rationals; `f64::NEG_INFINITY` / `f64::INFINITY` occur
only as the initial accumulator and window sentinels of the search loops,
giving the three-case type below.  (`NaN` never arises on the modelled
paths.) -/

inductive Xval where
  | negInf
  | val (q : ℚ)
  | posInf
deriving DecidableEq, Repr

namespace Xval

/-- Negation (`f64` unary minus). -/
def neg : Xval → Xval
  | negInf => posInf
  | val q => val (-q)
  | posInf => negInf

/-- Order (`f64` comparison on the modelled values). -/
def ble : Xval → Xval → Bool
  | negInf, _ => true
  | _, posInf => true
  | val a, val b => a ≤ b
  | posInf, val _ => false
  | posInf, negInf => false
  | val _, negInf => false

/-- `f64::max`. -/
def max (a b : Xval) : Xval := if ble a b then b else a

/-- `f64::min`. -/
def min (a b : Xval) : Xval := if ble a b then a else b

/-- Addition; mixed infinities never arise on the modelled paths (they would
be `NaN` in `f64`); the first operand's infinity wins here. -/
def add : Xval → Xval → Xval
  | val a, val b => val (a + b)
  | negInf, _ => negInf
  | posInf, _ => posInf
  | val _, negInf => negInf
  | val _, posInf => posInf

/-- Scalar multiple `q * x` for a probability `q`; all in-scope factors are
positive. -/
def smul (q : ℚ) : Xval → Xval
  | val a => val (q * a)
  | negInf => negInf
  | posInf => posInf

@[simp] theorem neg_neg (x : Xval) : x.neg.neg = x := by
  cases x <;> simp [neg]

end Xval

/-! ## Constants and the hidden-pool distribution

The constants below are defined identically in `ai/it2/mod.rs` and
`ai/it3/eval.rs`. -/

/-- `PIECE_TYPE_COUNT`. -/
def PIECE_TYPE_COUNT : Nat := 7

/-- `INITIAL_COUNT`: King, Advisor, Elephant, Horse, Rook, Cannon, Pawn. -/
def INITIAL_COUNT : List Nat := [1, 2, 2, 2, 2, 2, 5]

/-- `PIECE_VALUES` (same order). -/
def PIECE_VALUES : List Int := [100000, 200, 200, 400, 900, 450, 100]

/-- `MATE_SCORE`. -/
def MATE_SCORE : ℚ := 100000

/-- `PLY_PENALTY`. -/
def PLY_PENALTY : Int := 10

/-- `ALL_PIECE_TYPES`. -/
def ALL_PIECE_TYPES : List PieceType :=
  [PieceType.King, PieceType.Advisor, PieceType.Elephant, PieceType.Horse,
   PieceType.Rook, PieceType.Cannon, PieceType.Pawn]

/-- `piece_type_to_index`. -/
def piece_type_to_index : PieceType → Nat
  | PieceType.King => 0
  | PieceType.Advisor => 1
  | PieceType.Elephant => 2
  | PieceType.Horse => 3
  | PieceType.Rook => 4
  | PieceType.Cannon => 5
  | PieceType.Pawn => 6

/-- `HiddenPieceDistribution` (same shape in it2 and it3). -/
structure HiddenPieceDistribution where
  remaining : List Nat
  total : Nat
deriving DecidableEq, Repr

namespace HiddenPieceDistribution

/-- The per-color revealed-survivor counts and hidden-piece count scanned
from the board (the common first loop of both `from_board`s). -/
def boardCounts (b : Board) (color : Color) : List Nat × Nat :=
  (b.get_all_pieces (some color)).foldl (fun acc p =>
    if p.is_hidden then (acc.1, acc.2 + 1)
    else match p.actual_type with
      | some pt =>
        let idx := piece_type_to_index pt
        (acc.1.set idx (acc.1.getD idx 0 + 1), acc.2)
      | none => acc) (List.replicate PIECE_TYPE_COUNT 0, 0)

/-- `HiddenPieceDistribution::from_board` of `ai/it2/mod.rs`:
`remaining = initial − revealed` (saturating); the captured record is not
consulted (the it2 `Board` does not retain one). -/
def from_board_it2 (b : Board) (color : Color) : HiddenPieceDistribution :=
  let bc := boardCounts b color
  let remaining := (List.range PIECE_TYPE_COUNT).map
    (fun i => INITIAL_COUNT.getD i 0 - bc.1.getD i 0)
  ⟨remaining, bc.2⟩

/-- `HiddenPieceDistribution::possible_types` (identical in it2 and it3). -/
def possible_types (d : HiddenPieceDistribution) : List (PieceType × ℚ) :=
  if d.total = 0 then []
  else
    let total_remaining := d.remaining.sum
    if total_remaining = 0 then []
    else
      (List.range PIECE_TYPE_COUNT).filterMap fun i =>
        if 0 < d.remaining.getD i 0 then
          some (ALL_PIECE_TYPES.getD i PieceType.King,
                (d.remaining.getD i 0 : ℚ) / (total_remaining : ℚ))
        else none

/-- `HiddenPieceDistribution::expected_value` of `ai/it2/mod.rs`: Rook and
Cannon keep their base value, every other type is scaled by `7/10`
(integer division); the result is the integer mean over the pool. -/
def expected_value_it2 (d : HiddenPieceDistribution) : Int :=
  let total_remaining := d.remaining.sum
  if total_remaining = 0 then 300
  else
    let sum := ((List.range PIECE_TYPE_COUNT).map fun i =>
      let base_value := PIECE_VALUES.getD i 0
      let value := if i = 4 ∨ i = 5 then base_value else base_value * 7 / 10
      (d.remaining.getD i 0 : Int) * value).sum
    sum / (total_remaining : Int)

/-- `HiddenPieceDistribution::expected_value` of `ai/it3/eval.rs`: every
type's value is scaled by `8/10` (integer division). -/
def expected_value_it3 (d : HiddenPieceDistribution) : Int :=
  let total_remaining := d.remaining.sum
  if total_remaining = 0 then 300
  else
    let sum := ((List.range PIECE_TYPE_COUNT).map fun i =>
      let discounted_value := PIECE_VALUES.getD i 0 * 8 / 10
      (d.remaining.getD i 0 : Int) * discounted_value).sum
    sum / (total_remaining : Int)

/-- Modelled from the spec: `Board::get_captured` is called by
`HiddenPieceDistribution::from_board` in `ai/it3/eval.rs` but is not among
the provided sources (the `Board` in `board.rs` does not retain the captured
record).  Per §3/§4.D the board carries a per-color captured record of
`CapturedPieceInfo`s; `get_captured(color)` yields the per-type counts of
the entries whose type is known, together with the number of
unknown-identity entries. -/
def get_captured (cap : CapturedInfo) (color : Color) : List Nat × Nat :=
  let record := match color with
    | Color.Red => cap.red_captured
    | Color.Black => cap.black_captured
  ((List.range PIECE_TYPE_COUNT).map fun i =>
    (record.filter (fun e =>
      e.piece_type = some (ALL_PIECE_TYPES.getD i PieceType.King))).length,
   (record.filter (fun e => e.piece_type = none)).length)

/-- The pre-adjustment pool of the it3 `from_board`:
`initial − revealed − known-captured` per type (saturating). -/
def rawRemaining (revealed captured : List Nat) : List Nat :=
  (List.range PIECE_TYPE_COUNT).map
    (fun i => INITIAL_COUNT.getD i 0 - revealed.getD i 0 - captured.getD i 0)

/-- The unknown-capture adjustment of the it3 `from_board`: when unknown
captures exist and the pool exceeds the on-board hidden count, the pool is
rescaled proportionally (floor; the `f64` products are modelled exactly on
the rationals) and the leftover slots are assigned by descending piece
value. -/
def adjustForUnknown (remaining : List Nat) (effective_hidden captured_hidden : Nat) :
    List Nat :=
  let sum_remaining := remaining.sum
  if 0 < captured_hidden ∧ effective_hidden < sum_remaining then
    let target_total := Min.min effective_hidden sum_remaining
    if 0 < target_total ∧ target_total < sum_remaining then
      let new_remaining := (List.range PIECE_TYPE_COUNT).map
        (fun i => ((remaining.getD i 0 * target_total : ℚ) / (sum_remaining : ℚ)).floor.toNat)
      let total_assigned := new_remaining.sum
      let priority_order : List Nat := [4, 5, 3, 2, 1, 6]
      (priority_order.foldl (fun acc idx =>
        let (nr, to_assign) := acc
        if to_assign = 0 then acc
        else
          let can_add := remaining.getD idx 0 - nr.getD idx 0
          let add := Min.min can_add to_assign
          (nr.set idx (nr.getD idx 0 + add), to_assign - add))
        (new_remaining, target_total - total_assigned)).1
    else remaining
  else remaining

/-- `HiddenPieceDistribution::from_board` of `ai/it3/eval.rs`, with the
board's captured record supplied explicitly (see `get_captured`):
`rawRemaining` adjusted by `adjustForUnknown`. -/
def from_board_it3 (b : Board) (cap : CapturedInfo) (color : Color) :
    HiddenPieceDistribution :=
  let bc := boardCounts b color
  let gc := get_captured cap color
  ⟨adjustForUnknown (rawRemaining bc.1 gc.1) bc.2 gc.2, bc.2⟩

end HiddenPieceDistribution

/-! ## Piece-square tables

`PST_KING`, `PST_HORSE`, `PST_ROOK` and `PST_CANNON` are identical in
`ai/it2/mod.rs` and `ai/it3/eval.rs` and are defined once; the advisor,
elephant and pawn tables differ between the two files. -/

def PstTable := List (List Int)

/-- `PST_KING`. -/
def PST_KING : PstTable :=
  [[0, 0, 0, 5, 10, 5, 0, 0, 0],
   [0, 0, 0, 5, 10, 5, 0, 0, 0],
   [0, 0, 0, 5, 5, 5, 0, 0, 0],
   [0, 0, 0, 0, 0, 0, 0, 0, 0],
   [0, 0, 0, 0, 0, 0, 0, 0, 0],
   [0, 0, 0, 0, 0, 0, 0, 0, 0],
   [0, 0, 0, 0, 0, 0, 0, 0, 0],
   [0, 0, 0, 0, 0, 0, 0, 0, 0],
   [0, 0, 0, 0, 0, 0, 0, 0, 0],
   [0, 0, 0, 0, 0, 0, 0, 0, 0]]

/-- `PST_HORSE`. -/
def PST_HORSE : PstTable :=
  [[0, 0, 5, 10, 10, 10, 5, 0, 0],
   [0, 5, 10, 15, 15, 15, 10, 5, 0],
   [5, 10, 15, 20, 20, 20, 15, 10, 5],
   [5, 10, 15, 20, 25, 20, 15, 10, 5],
   [5, 10, 15, 20, 25, 20, 15, 10, 5],
   [5, 10, 15, 20, 25, 20, 15, 10, 5],
   [10, 15, 20, 25, 30, 25, 20, 15, 10],
   [10, 15, 20, 25, 30, 25, 20, 15, 10],
   [5, 10, 15, 20, 25, 20, 15, 10, 5],
   [0, 5, 10, 15, 20, 15, 10, 5, 0]]

/-- `PST_ROOK`. -/
def PST_ROOK : PstTable :=
  [[10, 10, 10, 15, 15, 15, 10, 10, 10],
   [10, 15, 15, 20, 20, 20, 15, 15, 10],
   [10, 15, 15, 20, 20, 20, 15, 15, 10],
   [10, 15, 15, 20, 20, 20, 15, 15, 10],
   [10, 15, 15, 20, 20, 20, 15, 15, 10],
   [15, 20, 20, 25, 25, 25, 20, 20, 15],
   [15, 20, 20, 25, 25, 25, 20, 20, 15],
   [20, 25, 25, 30, 30, 30, 25, 25, 20],
   [20, 25, 25, 30, 30, 30, 25, 25, 20],
   [15, 20, 20, 25, 25, 25, 20, 20, 15]]

/-- `PST_CANNON`. -/
def PST_CANNON : PstTable :=
  [[10, 10, 10, 15, 15, 15, 10, 10, 10],
   [10, 15, 15, 20, 20, 20, 15, 15, 10],
   [15, 20, 20, 25, 25, 25, 20, 20, 15],
   [15, 20, 20, 25, 25, 25, 20, 20, 15],
   [15, 20, 20, 25, 25, 25, 20, 20, 15],
   [15, 20, 20, 25, 25, 25, 20, 20, 15],
   [15, 20, 20, 25, 25, 25, 20, 20, 15],
   [15, 20, 20, 25, 25, 25, 20, 20, 15],
   [10, 15, 15, 20, 20, 20, 15, 15, 10],
   [5, 10, 10, 15, 15, 15, 10, 10, 5]]

/-- Look up a PST cell (rows mirrored for Black). -/
def pstLookup (table : PstTable) (row col : Nat) (is_red : Bool) : Int :=
  let r := if is_red then row else 9 - row
  (table.getD r []).getD col 0

namespace IT2

/-- `PST_ADVISOR` of `ai/it2/mod.rs`. -/
def PST_ADVISOR : PstTable :=
  [[0, 0, 0, 10, 0, 10, 0, 0, 0],
   [0, 0, 0, 0, 15, 0, 0, 0, 0],
   [0, 0, 0, 10, 0, 10, 0, 0, 0],
   [0, 0, 0, 0, 0, 0, 0, 0, 0],
   [0, 0, 0, 0, 0, 0, 0, 0, 0],
   [0, 0, 0, 0, 0, 0, 0, 0, 0],
   [0, 0, 0, 0, 0, 0, 0, 0, 0],
   [0, 0, 0, 0, 0, 0, 0, 0, 0],
   [0, 0, 0, 0, 0, 0, 0, 0, 0],
   [0, 0, 0, 0, 0, 0, 0, 0, 0]]

/-- `PST_ELEPHANT` of `ai/it2/mod.rs`. -/
def PST_ELEPHANT : PstTable :=
  [[0, 0, 10, 0, 0, 0, 10, 0, 0],
   [0, 0, 0, 0, 0, 0, 0, 0, 0],
   [5, 0, 0, 0, 15, 0, 0, 0, 5],
   [0, 0, 0, 0, 0, 0, 0, 0, 0],
   [0, 0, 10, 0, 0, 0, 10, 0, 0],
   [0, 0, 0, 0, 0, 0, 0, 0, 0],
   [0, 0, 0, 0, 0, 0, 0, 0, 0],
   [0, 0, 0, 0, 0, 0, 0, 0, 0],
   [0, 0, 0, 0, 0, 0, 0, 0, 0],
   [0, 0, 0, 0, 0, 0, 0, 0, 0]]

/-- `PST_PAWN` of `ai/it2/mod.rs`. -/
def PST_PAWN : PstTable :=
  [[0, 0, 0, 0, 0, 0, 0, 0, 0],
   [0, 0, 0, 0, 0, 0, 0, 0, 0],
   [0, 0, 0, 0, 0, 0, 0, 0, 0],
   [5, 0, 10, 0, 15, 0, 10, 0, 5],
   [10, 0, 15, 0, 20, 0, 15, 0, 10],
   [15, 20, 25, 30, 35, 30, 25, 20, 15],
   [20, 25, 30, 35, 40, 35, 30, 25, 20],
   [25, 30, 35, 40, 45, 40, 35, 30, 25],
   [30, 35, 40, 45, 50, 45, 40, 35, 30],
   [35, 40, 45, 50, 55, 50, 45, 40, 35]]

/-- `get_pst_score` of `ai/it2/mod.rs`. -/
def get_pst_score (piece_type : PieceType) (row col : Nat) (is_red : Bool) : Int :=
  match piece_type with
  | PieceType.King => pstLookup PST_KING row col is_red
  | PieceType.Advisor => pstLookup PST_ADVISOR row col is_red
  | PieceType.Elephant => pstLookup PST_ELEPHANT row col is_red
  | PieceType.Horse => pstLookup PST_HORSE row col is_red
  | PieceType.Rook => pstLookup PST_ROOK row col is_red
  | PieceType.Cannon => pstLookup PST_CANNON row col is_red
  | PieceType.Pawn => pstLookup PST_PAWN row col is_red

end IT2

namespace IT3

/-- `PST_ADVISOR` of `ai/it3/eval.rs`. -/
def PST_ADVISOR : PstTable :=
  [[0, 0, 0, 5, 0, 5, 0, 0, 0],
   [0, 0, 0, 0, 5, 0, 0, 0, 0],
   [0, 0, 0, 5, 0, 5, 0, 0, 0],
   [0, 0, 5, 5, 5, 5, 5, 0, 0],
   [0, 5, 5, 10, 10, 10, 5, 5, 0],
   [5, 5, 10, 10, 15, 10, 10, 5, 5],
   [5, 10, 10, 15, 15, 15, 10, 10, 5],
   [5, 10, 15, 15, 20, 15, 15, 10, 5],
   [5, 10, 15, 20, 20, 20, 15, 10, 5],
   [0, 5, 10, 15, 25, 15, 10, 5, 0]]

/-- `PST_ELEPHANT` of `ai/it3/eval.rs`. -/
def PST_ELEPHANT : PstTable :=
  [[0, 0, 5, 0, 0, 0, 5, 0, 0],
   [0, 0, 0, 0, 0, 0, 0, 0, 0],
   [5, 0, 0, 0, 10, 0, 0, 0, 5],
   [0, 0, 0, 0, 0, 0, 0, 0, 0],
   [0, 0, 5, 0, 0, 0, 5, 0, 0],
   [5, 5, 10, 10, 15, 10, 10, 5, 5],
   [5, 10, 10, 15, 15, 15, 10, 10, 5],
   [5, 10, 15, 15, 20, 15, 15, 10, 5],
   [5, 10, 15, 20, 20, 20, 15, 10, 5],
   [0, 5, 10, 15, 25, 15, 10, 5, 0]]

/-- `PST_PAWN` of `ai/it3/eval.rs`. -/
def PST_PAWN : PstTable :=
  [[0, 0, 0, 0, 0, 0, 0, 0, 0],
   [0, 0, 0, 0, 0, 0, 0, 0, 0],
   [0, 0, 0, 0, 0, 0, 0, 0, 0],
   [5, 0, 10, 0, 15, 0, 10, 0, 5],
   [10, 0, 15, 0, 20, 0, 15, 0, 10],
   [15, 20, 25, 30, 35, 30, 25, 20, 15],
   [20, 25, 30, 35, 40, 35, 30, 25, 20],
   [25, 30, 35, 40, 45, 40, 35, 30, 25],
   [30, 35, 40, 45, 50, 45, 40, 35, 30],
   [15, 20, 25, 30, 30, 30, 25, 20, 15]]

/-- `get_pst_score` of `ai/it3/eval.rs`. -/
def get_pst_score (piece_type : PieceType) (row col : Nat) (is_red : Bool) : Int :=
  match piece_type with
  | PieceType.King => pstLookup PST_KING row col is_red
  | PieceType.Advisor => pstLookup PST_ADVISOR row col is_red
  | PieceType.Elephant => pstLookup PST_ELEPHANT row col is_red
  | PieceType.Horse => pstLookup PST_HORSE row col is_red
  | PieceType.Rook => pstLookup PST_ROOK row col is_red
  | PieceType.Cannon => pstLookup PST_CANNON row col is_red
  | PieceType.Pawn => pstLookup PST_PAWN row col is_red

/-- `hidden_position_bonus` of `ai/it3/eval.rs`. -/
def hidden_position_bonus (movement_type : PieceType) (col : Int) : Int :=
  match movement_type with
  | PieceType.King => 0
  | PieceType.Advisor => -10
  | PieceType.Elephant => -30
  | PieceType.Horse => -30
  | PieceType.Rook => 50
  | PieceType.Cannon => 20
  | PieceType.Pawn => if col = 0 ∨ col = 8 then -30 else -50

end IT3

/-! ## Static evaluation -/

namespace IT2

/-- `IT2AI::best_capture_value`: the best one-ply capture value available to
`attacker` (hidden victims valued at `victim_hidden_ev`, kings excluded). -/
def best_capture_value (b : Board) (attacker : Color) (victim_hidden_ev : ℚ) : ℚ :=
  (b.get_legal_moves attacker).foldl (fun best_gain mv =>
    match b.get_piece mv.to_pos with
    | none => best_gain
    | some victim =>
      let victim_value : ℚ :=
        if victim.is_hidden then victim_hidden_ev
        else match victim.actual_type with
          | some pt => (pt.value : ℚ)
          | none => 0
      if victim.actual_type = some PieceType.King then best_gain
      else if best_gain < victim_value then victim_value
      else best_gain) 0

/-- `IT2AI::evaluate`: a raw red-minus-black score, sign-flipped for the
Black perspective. -/
def evaluate (b : Board) (color : Color) : ℚ :=
  let red_hidden_ev : ℚ :=
    ((HiddenPieceDistribution.from_board_it2 b Color.Red).expected_value_it2 : ℚ)
  let black_hidden_ev : ℚ :=
    ((HiddenPieceDistribution.from_board_it2 b Color.Black).expected_value_it2 : ℚ)
  let raw_score := (b.get_all_pieces none).foldl (fun raw piece =>
    let vp : ℚ × ℚ :=
      if piece.is_hidden then
        (if piece.color = Color.Red then red_hidden_ev else black_hidden_ev, 0)
      else match piece.actual_type with
        | some pt =>
          ((pt.value : ℚ),
           (get_pst_score pt piece.position.row.toNat piece.position.col.toNat
             (piece.color = Color.Red) : ℚ))
        | none => (0, 0)
    if piece.color = Color.Red then raw + vp.1 + vp.2 else raw - (vp.1 + vp.2)) 0
  let capture_weight : ℚ := 3 / 10
  let red_capture := best_capture_value b Color.Red black_hidden_ev
  let black_capture := best_capture_value b Color.Black red_hidden_ev
  let raw_score := raw_score + capture_weight * (red_capture - black_capture)
  if color = Color.Red then raw_score else -raw_score

/-- `IT2AI::terminal_eval`. -/
def terminal_eval (b : Board) (color : Color) (ply : Nat) : ℚ :=
  let result := b.get_game_result none
  let ply_bonus : ℚ := ((ply : Int) * PLY_PENALTY : Int)
  match result with
  | GameResult.RedWin =>
    if color = Color.Red then MATE_SCORE - ply_bonus else -MATE_SCORE + ply_bonus
  | GameResult.BlackWin =>
    if color = Color.Black then MATE_SCORE - ply_bonus else -MATE_SCORE + ply_bonus
  | GameResult.Draw => 0
  | GameResult.Ongoing => evaluate b color

end IT2

namespace IT3

/-- `IT3AI::best_capture_value` (identical to the it2 version). -/
def best_capture_value (b : Board) (attacker : Color) (victim_hidden_ev : ℚ) : ℚ :=
  (b.get_legal_moves attacker).foldl (fun best_gain mv =>
    match b.get_piece mv.to_pos with
    | none => best_gain
    | some victim =>
      let victim_value : ℚ :=
        if victim.is_hidden then victim_hidden_ev
        else match victim.actual_type with
          | some pt => (pt.value : ℚ)
          | none => 0
      if victim.actual_type = some PieceType.King then best_gain
      else if best_gain < victim_value then victim_value
      else best_gain) 0

/-- `IT3AI::evaluate`, with the board's captured record (used by the it3
hidden-pool model, see `HiddenPieceDistribution.get_captured`) supplied
explicitly.  Hidden pieces additionally receive `hidden_position_bonus`. -/
def evaluate (b : Board) (cap : CapturedInfo) (color : Color) : ℚ :=
  let red_hidden_ev : ℚ :=
    ((HiddenPieceDistribution.from_board_it3 b cap Color.Red).expected_value_it3 : ℚ)
  let black_hidden_ev : ℚ :=
    ((HiddenPieceDistribution.from_board_it3 b cap Color.Black).expected_value_it3 : ℚ)
  let raw_score := (b.get_all_pieces none).foldl (fun raw piece =>
    let vp : ℚ × ℚ :=
      if piece.is_hidden then
        let ev := if piece.color = Color.Red then red_hidden_ev else black_hidden_ev
        let position_bonus : ℚ :=
          match piece.movement_type with
          | some mt => (hidden_position_bonus mt piece.position.col : ℚ)
          | none => 0
        (ev + position_bonus, 0)
      else match piece.actual_type with
        | some pt =>
          ((pt.value : ℚ),
           (get_pst_score pt piece.position.row.toNat piece.position.col.toNat
             (piece.color = Color.Red) : ℚ))
        | none => (0, 0)
    if piece.color = Color.Red then raw + vp.1 + vp.2 else raw - (vp.1 + vp.2)) 0
  let capture_weight : ℚ := 3 / 10
  let red_capture := best_capture_value b Color.Red black_hidden_ev
  let black_capture := best_capture_value b Color.Black red_hidden_ev
  let raw_score := raw_score + capture_weight * (red_capture - black_capture)
  if color = Color.Red then raw_score else -raw_score

/-- `IT3AI::terminal_eval`. -/
def terminal_eval (b : Board) (cap : CapturedInfo) (color : Color) (ply : Nat) : ℚ :=
  let result := b.get_game_result none
  let ply_bonus : ℚ := ((ply : Int) * PLY_PENALTY : Int)
  match result with
  | GameResult.RedWin =>
    if color = Color.Red then MATE_SCORE - ply_bonus else -MATE_SCORE + ply_bonus
  | GameResult.BlackWin =>
    if color = Color.Black then MATE_SCORE - ply_bonus else -MATE_SCORE + ply_bonus
  | GameResult.Draw => 0
  | GameResult.Ongoing => evaluate b cap color

end IT3

/-! ## Expectimax search

The searches are modelled functionally: the Rust code mutates one board with
`make_move`/`undo_move` (and `simulate_reveal`/`restore_simulated_reveal`)
around each recursive call, and the undo restores the board exactly (proved
as `undo_make_move` below), so each child is modelled by applying the move
to the unchanged board.  The structural `fuel` argument equals the remaining
search depth `ctx.depth` at every reachable call; the Rust recursion
terminates for the same reason (the depth decreases by one per ply).

Time is modelled by an oracle `oracle : ℕ → Bool` giving the result of the
`n`-th elapsed-time check (`start_time.elapsed() >= limit`); a counter of
checks made so far is threaded wherever the code consults the clock.
Diagnostics (`NODE_COUNT`, `DEPTH_REACHED`) do not affect results and are
not modelled. -/

/-- Ranked root moves are sorted by descending score with Rust's stable
`sort_by` (ties keep generation order); `partial_cmp` never sees a `NaN` on
the modelled values. -/
def sortDescByScore (l : List (JieqiMove × Xval)) : List (JieqiMove × Xval) :=
  l.mergeSort (fun a b => Xval.ble b.2 a.2)

namespace IT2

/-- `SearchContext` of `ai/it2/mod.rs` (`depth` is an `i32` that never goes
negative on reachable calls and is modelled as `ℕ`). -/
structure SearchContext where
  depth : Nat
  ply : Nat
  alpha : Xval
  beta : Xval
deriving DecidableEq, Repr

/-- `SearchContext::new`. -/
def SearchContext.new (depth : Nat) : SearchContext :=
  ⟨depth, 0, Xval.negInf, Xval.posInf⟩

/-- `SearchContext::next_ply` (negamax: the window is negated and swapped). -/
def SearchContext.next_ply (ctx : SearchContext) : SearchContext :=
  ⟨ctx.depth - 1, ctx.ply + 1, ctx.beta.neg, ctx.alpha.neg⟩

/-- The board searched in a chance-node child of `IT2AI::chance_node`:
`simulate_reveal(from_pos, t)` followed by `make_move` **of the original
`RevealAndMove`** (steps 1–2 of the loop; the undo steps 4–5 restore the
input board and need no model in the functional setting). -/
def chanceChild (b : Board) (mv : JieqiMove) (piece_type : PieceType) : Board :=
  let (b1, _reveal_state) := b.simulate_reveal mv.from_pos piece_type
  (b1.make_move mv).1

mutual

/-- `IT2AI::expectimax` (negamax with alpha-beta). -/
def expectimax : Nat → Board → SearchContext → Xval
  | 0, b, ctx => Xval.val (terminal_eval b b.current_turn ctx.ply)
  | fuel + 1, b, ctx =>
    let current_color := b.current_turn
    let legal_moves := b.get_legal_moves current_color
    if legal_moves.isEmpty then
      Xval.val (terminal_eval b current_color ctx.ply)
    else searchLoop fuel b ctx current_color legal_moves Xval.negInf ctx.alpha
termination_by fuel => (fuel, 0, 0)

/-- The move loop of `IT2AI::expectimax`, carrying `max_eval` and `alpha`
and breaking on `alpha ≥ beta`. -/
def searchLoop : Nat → Board → SearchContext → Color → List JieqiMove →
    Xval → Xval → Xval
  | _, _, _, _, [], max_eval, _ => max_eval
  | fuel, b, ctx, c, mv :: rest, max_eval, alpha =>
    let eval :=
      if mv.action_type = ActionType.RevealAndMove then
        chance_node fuel b mv ctx c
      else
        apply_move_and_recurse fuel b mv ctx
    let max_eval := max_eval.max eval
    let alpha := alpha.max eval
    if ctx.beta.ble alpha then max_eval
    else searchLoop fuel b ctx c rest max_eval alpha
termination_by fuel _ _ _ l _ _ => (fuel, 3, l.length)

/-- `IT2AI::chance_node`: the probability-weighted expectation over the
hidden pool, each child board built by `chanceChild`.  `fuel` is the depth
remaining below this node (`ctx.depth - 1`). -/
def chance_node (fuel : Nat) (b : Board) (mv : JieqiMove) (ctx : SearchContext)
    (color : Color) : Xval :=
  let distribution := HiddenPieceDistribution.from_board_it2 b color
  let possible_types := distribution.possible_types
  if possible_types.isEmpty then apply_move_and_recurse fuel b mv ctx
  else
    let next_ctx := ctx.next_ply
    possible_types.foldl (fun expected pt =>
      let child_board := chanceChild b mv pt.1
      let child_value := (expectimax fuel child_board next_ctx).neg
      expected.add (Xval.smul pt.2 child_value)) (Xval.val 0)
termination_by (fuel, 2, 0)

/-- `IT2AI::apply_move_and_recurse`. -/
def apply_move_and_recurse (fuel : Nat) (b : Board) (mv : JieqiMove)
    (ctx : SearchContext) : Xval :=
  ((expectimax fuel (b.make_move mv).1 ctx.next_ply)).neg
termination_by (fuel, 1, 0)

end

/-- The score of one root move at one depth in
`IT2AI::iterative_deepening`: reveal moves go through `chance_node`, plain
moves through make-then-search. -/
def rootScore (b : Board) (depth : Nat) (mv : JieqiMove) : Xval :=
  let root_ctx := SearchContext.new depth
  if mv.action_type = ActionType.RevealAndMove then
    chance_node (depth - 1) b mv root_ctx b.current_turn
  else
    apply_move_and_recurse (depth - 1) b mv root_ctx

/-- The root-move loop of one depth of `IT2AI::iterative_deepening`: each
move is preceded by a time check; on expiry the loop breaks, leaving the
scores collected so far.  Returns the scores and the updated check
counter. -/
def depthLoop (b : Board) (depth : Nat) (oracle : Nat → Bool) :
    List JieqiMove → Nat → List (JieqiMove × Xval) × Nat
  | [], t => ([], t)
  | mv :: rest, t =>
    if oracle t then ([], t + 1)
    else
      let score := rootScore b depth mv
      let (restScores, t') := depthLoop b depth oracle rest (t + 1)
      ((mv, score) :: restScores, t')

/-- The depth loop of `IT2AI::iterative_deepening`: each depth is preceded
by a time check; a depth's ranking replaces `best_moves` only when every
root move was scored. -/
def deepen (b : Board) (moves : List JieqiMove) (oracle : Nat → Bool) :
    Nat → Nat → List (JieqiMove × Xval) → Nat → List (JieqiMove × Xval)
  | _, 0, best_moves, _ => best_moves
  | depth, rem + 1, best_moves, t =>
    if oracle t then best_moves
    else
      let (current_scores, t') := depthLoop b depth oracle moves (t + 1)
      let best_moves' :=
        if current_scores.length = moves.length then sortDescByScore current_scores
        else best_moves
      deepen b moves oracle (depth + 1) rem best_moves' t'

/-- `IT2AI::iterative_deepening`: when there are no legal moves the result
is empty, otherwise depths `1..=max_depth` are searched starting from the
all-zero ranking. -/
def iterative_deepening (max_depth : Nat) (b : Board) (oracle : Nat → Bool) :
    List (JieqiMove × Xval) :=
  let moves := b.get_legal_moves b.current_turn
  if moves.isEmpty then []
  else
    let best_moves := moves.map (fun mv => (mv, Xval.val 0))
    deepen b moves oracle 1 max_depth best_moves 0

/-- `IT2AI::select_moves` (`AIStrategy` impl): per-move noise is
`rng * randomness * 100` when `randomness > 0` and `0` otherwise (`rng` is
the stream of `rng.gen::<f64>()` draws), then `sort_and_truncate`. -/
def select_moves (max_depth : Nat) (randomness : ℚ) (rng : Nat → ℚ)
    (b : Board) (n : Nat) (oracle : Nat → Bool) : List (JieqiMove × Xval) :=
  let results := iterative_deepening max_depth b oracle
  let scored := (results.enum).map (fun r =>
    let noise : ℚ := if 0 < randomness then rng r.1 * randomness * 100 else 0
    (r.2.1, r.2.2.add (Xval.val noise)))
  (sortDescByScore scored).take n

end IT2

namespace IT3

/-- `SearchContext` of `ai/it3/mod.rs` (fixed point of view). -/
structure SearchContext where
  depth : Nat
  ply : Nat
  alpha : Xval
  beta : Xval
  pov_color : Color
deriving DecidableEq, Repr

/-- `SearchContext::new`. -/
def SearchContext.new (depth : Nat) (pov_color : Color) : SearchContext :=
  ⟨depth, 0, Xval.negInf, Xval.posInf, pov_color⟩

/-- `SearchContext::next_ply` (window and POV unchanged). -/
def SearchContext.next_ply (ctx : SearchContext) : SearchContext :=
  ⟨ctx.depth - 1, ctx.ply + 1, ctx.alpha, ctx.beta, ctx.pov_color⟩

/-- The board searched in a chance-node child of `IT3AI::chance_node`:
`simulate_reveal(from_pos, t)` followed by `make_move` of the
**stipulated plain `Move`** (`virtual_move`), so the simulated identity is
not overwritten. -/
def chanceChild (b : Board) (mv : JieqiMove) (piece_type : PieceType) : Board :=
  let (b1, _reveal_state) := b.simulate_reveal mv.from_pos piece_type
  let virtual_move : JieqiMove := { mv with action_type := ActionType.Move }
  (b1.make_move virtual_move).1

mutual

/-- `IT3AI::expectimax` (minimax with fixed POV): consults the clock on
entry and returns the static evaluation when the budget has expired.
Returns the value together with the updated check counter. -/
def expectimax : Nat → Board → CapturedInfo → SearchContext → (Nat → Bool) →
    Nat → Xval × Nat
  | fuel, b, cap, ctx, oracle, t =>
    if oracle t then (Xval.val (evaluate b cap ctx.pov_color), t + 1)
    else
      let t := t + 1
      let current_color := b.current_turn
      let legal_moves := b.get_legal_moves current_color
      let is_max_node := current_color = ctx.pov_color
      match fuel with
      | 0 => (Xval.val (terminal_eval b cap ctx.pov_color ctx.ply), t)
      | fuel + 1 =>
        if legal_moves.isEmpty then
          (Xval.val (terminal_eval b cap ctx.pov_color ctx.ply), t)
        else if is_max_node then
          maxLoop fuel b cap ctx oracle legal_moves Xval.negInf t
        else
          minLoop fuel b cap ctx oracle legal_moves Xval.posInf t
termination_by fuel => (fuel, 0, 0)

/-- The MAX-node move loop of `IT3AI::expectimax` (break on
`max_eval ≥ beta`). -/
def maxLoop (fuel : Nat) (b : Board) (cap : CapturedInfo)
    (ctx : SearchContext) (oracle : Nat → Bool) :
    List JieqiMove → Xval → Nat → Xval × Nat
  | [], max_eval, t => (max_eval, t)
  | mv :: rest, max_eval, t =>
    let (eval, t') :=
      if mv.action_type = ActionType.RevealAndMove then
        chance_node fuel b cap mv ctx b.current_turn oracle t
      else
        apply_move_and_recurse fuel b cap mv ctx oracle t
    let max_eval := max_eval.max eval
    if ctx.beta.ble max_eval then (max_eval, t')
    else maxLoop fuel b cap ctx oracle rest max_eval t'
termination_by l _ _ => (fuel, 3, l.length)

/-- The MIN-node move loop of `IT3AI::expectimax` (break on
`min_eval ≤ alpha`). -/
def minLoop (fuel : Nat) (b : Board) (cap : CapturedInfo)
    (ctx : SearchContext) (oracle : Nat → Bool) :
    List JieqiMove → Xval → Nat → Xval × Nat
  | [], min_eval, t => (min_eval, t)
  | mv :: rest, min_eval, t =>
    let (eval, t') :=
      if mv.action_type = ActionType.RevealAndMove then
        chance_node fuel b cap mv ctx b.current_turn oracle t
      else
        apply_move_and_recurse fuel b cap mv ctx oracle t
    let min_eval := min_eval.min eval
    if min_eval.ble ctx.alpha then (min_eval, t')
    else minLoop fuel b cap ctx oracle rest min_eval t'
termination_by l _ _ => (fuel, 3, l.length)

/-- `IT3AI::chance_node`: expectation over the it3 hidden pool, each child
board built by `chanceChild` (the stipulated plain move).  `fuel` is the
depth remaining below this node (`ctx.depth - 1`). -/
def chance_node (fuel : Nat) (b : Board) (cap : CapturedInfo) (mv : JieqiMove)
    (ctx : SearchContext) (color : Color) (oracle : Nat → Bool) (t : Nat) :
    Xval × Nat :=
  let distribution := HiddenPieceDistribution.from_board_it3 b cap color
  let possible_types := distribution.possible_types
  if possible_types.isEmpty then
    apply_move_and_recurse fuel b cap mv ctx oracle t
  else
    let next_ctx := ctx.next_ply
    possible_types.foldl (fun acc pt =>
      let (expected, t) := acc
      let child_board := chanceChild b mv pt.1
      let (child_value, t') := expectimax fuel child_board cap next_ctx oracle t
      (expected.add (Xval.smul pt.2 child_value), t')) (Xval.val 0, t)
termination_by (fuel, 2, 0)

/-- `IT3AI::apply_move_and_recurse` (no negation: the POV is fixed). -/
def apply_move_and_recurse (fuel : Nat) (b : Board) (cap : CapturedInfo)
    (mv : JieqiMove) (ctx : SearchContext) (oracle : Nat → Bool) (t : Nat) :
    Xval × Nat :=
  expectimax fuel (b.make_move mv).1 cap ctx.next_ply oracle t
termination_by (fuel, 1, 0)

end

/-- The score of one root move at one depth in
`IT3AI::iterative_deepening`. -/
def rootScore (b : Board) (cap : CapturedInfo) (depth : Nat) (mv : JieqiMove)
    (oracle : Nat → Bool) (t : Nat) : Xval × Nat :=
  let pov_color := b.current_turn
  let root_ctx := SearchContext.new depth pov_color
  if mv.action_type = ActionType.RevealAndMove then
    chance_node (depth - 1) b cap mv root_ctx pov_color oracle t
  else
    apply_move_and_recurse (depth - 1) b cap mv root_ctx oracle t

/-- The root-move loop of one depth of `IT3AI::iterative_deepening`. -/
def depthLoop (b : Board) (cap : CapturedInfo) (depth : Nat)
    (oracle : Nat → Bool) :
    List JieqiMove → Nat → List (JieqiMove × Xval) × Nat
  | [], t => ([], t)
  | mv :: rest, t =>
    if oracle t then ([], t + 1)
    else
      let (score, t') := rootScore b cap depth mv oracle (t + 1)
      let (restScores, t'') := depthLoop b cap depth oracle rest t'
      ((mv, score) :: restScores, t'')

/-- The depth loop of `IT3AI::iterative_deepening`. -/
def deepen (b : Board) (cap : CapturedInfo) (moves : List JieqiMove)
    (oracle : Nat → Bool) :
    Nat → Nat → List (JieqiMove × Xval) → Nat → List (JieqiMove × Xval)
  | _, 0, best_moves, _ => best_moves
  | depth, rem + 1, best_moves, t =>
    if oracle t then best_moves
    else
      let (current_scores, t') := depthLoop b cap depth oracle moves (t + 1)
      let best_moves' :=
        if current_scores.length = moves.length then sortDescByScore current_scores
        else best_moves
      deepen b cap moves oracle (depth + 1) rem best_moves' t'

/-- `IT3AI::iterative_deepening`. -/
def iterative_deepening (max_depth : Nat) (b : Board) (cap : CapturedInfo)
    (oracle : Nat → Bool) : List (JieqiMove × Xval) :=
  let moves := b.get_legal_moves b.current_turn
  if moves.isEmpty then []
  else
    let best_moves := moves.map (fun mv => (mv, Xval.val 0))
    deepen b cap moves oracle 1 max_depth best_moves 0

/-- `IT3AI::select_moves` (`AIStrategy` impl). -/
def select_moves (max_depth : Nat) (randomness : ℚ) (rng : Nat → ℚ)
    (b : Board) (cap : CapturedInfo) (n : Nat) (oracle : Nat → Bool) :
    List (JieqiMove × Xval) :=
  let results := iterative_deepening max_depth b cap oracle
  let scored := (results.enum).map (fun r =>
    let noise : ℚ := if 0 < randomness then rng r.1 * randomness * 100 else 0
    (r.2.1, r.2.2.add (Xval.val noise)))
  (sortDescByScore scored).take n

end IT3

/-! ## Spec-side definitions and concrete inputs

Definitions in this section are written from the specification's words (for
refinement comparisons) or are concrete inputs; everything above is
translated from the sources. -/

/-- The empty board (used only as a fallback for concrete FEN literals). -/
def emptyBoard : Board := ⟨List.replicate 90 none, Color.Red, Color.Red, none, none⟩

/-- The board of a concrete FEN literal. -/
def boardOfFen (s : String) : Board := (Board.from_fen s.toList).getD emptyBoard

/-- The captured record of a concrete FEN literal. -/
def capOfFen (s : String) : CapturedInfo :=
  ((parse_fen s.toList).map (·.captured)).getD ⟨[], []⟩

/-- The canonical Jieqi starting position (kings pre-revealed). -/
def jieqiInitialBoard : Board :=
  boardOfFen "xxxxkxxxx/9/1x5x1/x1x1x1x1x/9/9/X1X1X1X1X/1X5X1/9/XXXXKXXXX -:- r r"

/-- Kings only, facing each other on file e. -/
def kingsOnlyBoard : Board := boardOfFen "4k4/9/9/9/9/9/9/9/9/4K4 -:- r r"

/-- A hidden red piece on `a0` (rook slot), kings revealed (black king on
`d9` so that the kings do not face each other). -/
def hiddenA0Board : Board := boardOfFen "3k5/9/9/9/9/9/9/9/9/X3K4 -:- r r"

/-- Like `hiddenA0Board` but with one revealed red Rook already captured
(captured record `R:-`).  `Board::from_fen` drops the captured record, so
the board itself coincides with the record-free board. -/
def capturedRookBoard : Board := boardOfFen "3k5/9/9/9/9/9/9/9/9/X3K4 R:- r r"

/-- The captured record of `capturedRookBoard`'s FEN. -/
def capturedRookCap : CapturedInfo := capOfFen "3k5/9/9/9/9/9/9/9/9/X3K4 R:- r r"

/-- A board whose side to move (Red) has no king but still a rook with
pseudo-legal moves. -/
def kinglessRookBoard : Board := boardOfFen "4k4/9/9/9/9/9/9/9/9/4R4 -:- r r"

/-- Weighted sum of the base piece values over a hidden pool. -/
def poolBaseSum (d : HiddenPieceDistribution) : Int :=
  ((List.range PIECE_TYPE_COUNT).map fun i =>
    (d.remaining.getD i 0 : Int) * PIECE_VALUES.getD i 0).sum

/-- The expected per-piece value as stated by the spec for C6: the weighted
mean of the base piece values with every hidden piece's value scaled by the
factor `0.8` (exact rational arithmetic). -/
def claimedExpectedValue (d : HiddenPieceDistribution) : ℚ :=
  (8 / 10 : ℚ) * ((poolBaseSum d : ℚ) / (d.remaining.sum : ℚ))

/-- The mean the it2 `expected_value` actually discounts by: Rook and Cannon
at full base value, every other type scaled by `0.7` (exact rational
arithmetic). -/
def it2DiscountedMean (d : HiddenPieceDistribution) : ℚ :=
  (((List.range PIECE_TYPE_COUNT).map fun i =>
    (d.remaining.getD i 0 : ℚ) *
      (if i = 4 ∨ i = 5 then (PIECE_VALUES.getD i 0 : ℚ)
       else (7 / 10 : ℚ) * (PIECE_VALUES.getD i 0 : ℚ))).sum) /
    (d.remaining.sum : ℚ)

/-- The remaining hidden pool as stated by the spec for C5:
`initial_t − revealed survivors − known captured of type t`, floored at 0
(`ℕ` subtraction saturates). -/
def claimedRemaining (b : Board) (cap : CapturedInfo) (color : Color) : List Nat :=
  (List.range PIECE_TYPE_COUNT).map fun i =>
    INITIAL_COUNT.getD i 0 - (HiddenPieceDistribution.boardCounts b color).1.getD i 0
      - (HiddenPieceDistribution.get_captured cap color).1.getD i 0

/-- The all-zero root ranking (`best_moves` before any depth completes). -/
def zeroRanking (b : Board) : List (JieqiMove × Xval) :=
  (b.get_legal_moves b.current_turn).map (fun mv => (mv, Xval.val 0))

/-- The "depth-0 static-evaluation ranking of root moves" stated by the spec
for C9: each root move paired with the static evaluation (it2 evaluator,
from the mover's perspective) of the position it produces, sorted
descending. -/
def claimedStaticRanking (b : Board) : List (JieqiMove × Xval) :=
  sortDescByScore ((b.get_legal_moves b.current_turn).map
    (fun mv => (mv, Xval.val (IT2.evaluate (b.make_move mv).1 b.current_turn))))

/-- The ranking of a fully searched depth `d` of `IT2AI::iterative_deepening`
(no clock is consulted inside the it2 search itself). -/
def it2RankingAt (b : Board) (d : Nat) : List (JieqiMove × Xval) :=
  sortDescByScore ((b.get_legal_moves b.current_turn).map
    (fun mv => (mv, IT2.rootScore b d mv)))

/-- The ranking of a fully searched depth `d` of `IT3AI::iterative_deepening`
when the clock never expires. -/
def it3RankingAt (b : Board) (cap : CapturedInfo) (d : Nat) :
    List (JieqiMove × Xval) :=
  sortDescByScore ((b.get_legal_moves b.current_turn).map
    (fun mv => (mv, (IT3.rootScore b cap d mv (fun _ => false) 0).1)))

/-! # Theorems -/

/-- C1: the code_bug, evaluated at a failing input.  On `hiddenA0Board` the
hidden red piece on `a0` (movement type `Rook`) has the legal
`RevealAndMove` `a0a1`; stipulating the drawn identity `Pawn`, the it3
chance-node child applies the stipulated plain `Move` and the moved piece is
revealed with `actual_type = Pawn` as the claim states, but the it2
chance-node child applies the original `RevealAndMove`, whose `make_move`
re-assigns `actual_type ← movement_type` and overwrites the stipulated
identity with `Rook`. -/
theorem it2_chance_node_overwrites_stipulated_identity :
    (hiddenA0Board.get_piece ⟨0, 0⟩).map (fun p => (p.is_hidden, p.movement_type))
        = some (true, some PieceType.Rook) ∧
    (⟨ActionType.RevealAndMove, ⟨0, 0⟩, ⟨1, 0⟩⟩ : JieqiMove) ∈
        hiddenA0Board.get_legal_moves Color.Red ∧
    ((IT2.chanceChild hiddenA0Board ⟨ActionType.RevealAndMove, ⟨0, 0⟩, ⟨1, 0⟩⟩
        PieceType.Pawn).get_piece ⟨1, 0⟩).map (fun p => (p.actual_type, p.is_hidden))
        = some (some PieceType.Rook, false) ∧
    ((IT3.chanceChild hiddenA0Board ⟨ActionType.RevealAndMove, ⟨0, 0⟩, ⟨1, 0⟩⟩
        PieceType.Pawn).get_piece ⟨1, 0⟩).map (fun p => (p.actual_type, p.is_hidden))
        = some (some PieceType.Pawn, false) ∧
    PieceType.Rook ≠ PieceType.Pawn := by
  decide

/-- C5 (counterexample): on `capturedRookBoard` (one revealed red Rook
already captured, record `R:-`), the it2 hidden-pool model leaves the Rook
count at 2 while the claim's formula
`initial − revealed survivors − known captured` gives 1: the it2 model never
subtracts the captured record (the `Board` does not retain one). -/
theorem hidden_pool_captured_counterexample :
    (HiddenPieceDistribution.from_board_it2 capturedRookBoard Color.Red).remaining.getD 4 0
        = 2 ∧
    (claimedRemaining capturedRookBoard capturedRookCap Color.Red).getD 4 0 = 1 ∧
    (2 : Nat) ≠ 1 := by
  decide

/-- C5 (amended): (a) the it2 pool model coincides with the captured-aware
it3 model at the empty captured record — it ignores captures; (b) the it3
model realizes the claim's formula
`initial − revealed survivors − known captured, floored at 0` whenever there
are no unknown captures; (c) `possible_types` returns each surviving type
with probability `remaining_t / Σ remaining`. -/
theorem hidden_pool_accounting (b : Board) (cap : CapturedInfo) (color : Color) :
    HiddenPieceDistribution.from_board_it2 b color
      = HiddenPieceDistribution.from_board_it3 b ⟨[], []⟩ color ∧
    ((HiddenPieceDistribution.get_captured cap color).2 = 0 →
      (HiddenPieceDistribution.from_board_it3 b cap color).remaining
        = claimedRemaining b cap color) ∧
    (∀ (d : HiddenPieceDistribution) (t : PieceType) (p : ℚ),
      (t, p) ∈ d.possible_types →
      p = (d.remaining.getD (piece_type_to_index t) 0 : ℚ) / (d.remaining.sum : ℚ)) := by
  refine ⟨?_, ?_, ?_⟩
  · have hcap : HiddenPieceDistribution.get_captured ⟨[], []⟩ color
        = ((List.range PIECE_TYPE_COUNT).map (fun _ => 0), 0) := by
      cases color <;> decide
    unfold HiddenPieceDistribution.from_board_it2 HiddenPieceDistribution.from_board_it3
    rw [hcap]
    unfold HiddenPieceDistribution.adjustForUnknown
    simp only [Nat.lt_irrefl, false_and, if_false]
    congr 1
  · intro hz
    unfold HiddenPieceDistribution.from_board_it3
    simp only
    rw [hz]
    unfold HiddenPieceDistribution.adjustForUnknown
    simp only [Nat.lt_irrefl, false_and, if_false]
    rfl
  · intro d t p hmem
    unfold HiddenPieceDistribution.possible_types at hmem
    by_cases h0 : d.total = 0
    · rw [if_pos h0] at hmem; simp at hmem
    · rw [if_neg h0] at hmem
      by_cases h1 : d.remaining.sum = 0
      · rw [if_pos h1] at hmem; simp at hmem
      · rw [if_neg h1] at hmem
        rw [List.mem_filterMap] at hmem
        obtain ⟨i, hi, hcond⟩ := hmem
        rw [List.mem_range] at hi
        by_cases hpos : 0 < d.remaining.getD i 0
        · rw [if_pos hpos] at hcond
          have ht : t = ALL_PIECE_TYPES.getD i PieceType.King :=
            (congrArg Prod.fst (Option.some.inj hcond)).symm
          have hp : p = (d.remaining.getD i 0 : ℚ) / (d.remaining.sum : ℚ) :=
            (congrArg Prod.snd (Option.some.inj hcond)).symm
          have hidx : piece_type_to_index (ALL_PIECE_TYPES.getD i PieceType.King) = i := by
            have hi7 : i < 7 := hi
            interval_cases i <;> decide
          rw [hp, ht, hidx]
        · rw [if_neg hpos] at hcond
          exact absurd hcond (by simp)

/-- C5 (witness): the amended accounting applied at the concrete
`capturedRookBoard`/`capturedRookCap` input and at the concrete pool
`⟨[1,1,0,0,0,0,0], 2⟩` (probability of `King` is `1/2`). -/
theorem hidden_pool_accounting_witness :
    (HiddenPieceDistribution.from_board_it2 capturedRookBoard Color.Red
      = HiddenPieceDistribution.from_board_it3 capturedRookBoard ⟨[], []⟩ Color.Red) ∧
    ((HiddenPieceDistribution.get_captured capturedRookCap Color.Red).2 = 0 ∧
     (HiddenPieceDistribution.from_board_it3 capturedRookBoard capturedRookCap
        Color.Red).remaining
       = claimedRemaining capturedRookBoard capturedRookCap Color.Red) ∧
    ((PieceType.King, (1 : ℚ)/2)
        ∈ (⟨[1, 1, 0, 0, 0, 0, 0], 2⟩ : HiddenPieceDistribution).possible_types ∧
     (1 : ℚ)/2 = ((⟨[1, 1, 0, 0, 0, 0, 0], 2⟩ : HiddenPieceDistribution).remaining.getD
          (piece_type_to_index PieceType.King) 0 : ℚ)
        / ((⟨[1, 1, 0, 0, 0, 0, 0], 2⟩ : HiddenPieceDistribution).remaining.sum : ℚ)) := by
  obtain ⟨hA, hB, hC⟩ :=
    hidden_pool_accounting capturedRookBoard capturedRookCap Color.Red
  have hmem : (PieceType.King, (1 : ℚ)/2)
      ∈ (⟨[1, 1, 0, 0, 0, 0, 0], 2⟩ : HiddenPieceDistribution).possible_types := by
    have he : (⟨[1, 1, 0, 0, 0, 0, 0], 2⟩ : HiddenPieceDistribution).possible_types
        = [(PieceType.King, (1 : ℚ)/2), (PieceType.Advisor, (1 : ℚ)/2)] := by
      unfold HiddenPieceDistribution.possible_types
      rw [show List.range PIECE_TYPE_COUNT = [0, 1, 2, 3, 4, 5, 6] from by decide]
      norm_num [List.filterMap_cons, ALL_PIECE_TYPES]
    rw [he]
    exact List.mem_cons_self _ _
  exact ⟨hA, ⟨by decide, hB (by decide)⟩, hmem, hC _ _ _ hmem⟩

/-- C6 (counterexample): on the pool of the initial position (it2 model,
Red), `expected_value` returns 278 while the claim's "everything × 0.8"
weighted mean is 256 — the it2 discount keeps Rook/Cannon at full value and
scales the rest by 0.7. -/
theorem expected_value_not_uniform_08 :
    (HiddenPieceDistribution.from_board_it2 jieqiInitialBoard Color.Red).remaining.sum ≠ 0 ∧
    ((HiddenPieceDistribution.from_board_it2 jieqiInitialBoard Color.Red).expected_value_it2 : ℚ)
      ≠ claimedExpectedValue
          (HiddenPieceDistribution.from_board_it2 jieqiInitialBoard Color.Red) := by
  have hd : HiddenPieceDistribution.from_board_it2 jieqiInitialBoard Color.Red
      = ⟨[0, 2, 2, 2, 2, 2, 5], 15⟩ := by decide
  rw [hd]
  refine ⟨by decide, ?_⟩
  have h1 : (⟨[0, 2, 2, 2, 2, 2, 5], 15⟩ : HiddenPieceDistribution).expected_value_it2
      = 278 := by decide
  have h2 : claimedExpectedValue ⟨[0, 2, 2, 2, 2, 2, 5], 15⟩ = 256 := by
    unfold claimedExpectedValue
    rw [show poolBaseSum ⟨[0, 2, 2, 2, 2, 2, 5], 15⟩ = 4800 from by decide,
        show ([0, 2, 2, 2, 2, 2, 5] : List Nat).sum = 15 from by decide]
    norm_num
  rw [h1, h2]
  norm_num

/-- C6 (amended): over every non-empty pool, the it3 `expected_value` is the
floor of the claim's "everything × 0.8" weighted mean, while the it2
`expected_value` is the floor of the mean that keeps Rook and Cannon at full
base value and scales every other type by 0.7. -/
theorem expected_value_discount_formulas (d : HiddenPieceDistribution)
    (h : d.remaining.sum ≠ 0) :
    d.expected_value_it3 = ⌊claimedExpectedValue d⌋ ∧
    d.expected_value_it2 = ⌊it2DiscountedMean d⌋ := by
  have hr : List.range PIECE_TYPE_COUNT = [0, 1, 2, 3, 4, 5, 6] := by decide
  constructor
  · unfold HiddenPieceDistribution.expected_value_it3 claimedExpectedValue poolBaseSum
    rw [if_neg h, hr]
    simp only [List.map_cons, List.map_nil, List.sum_cons, List.sum_nil, PIECE_VALUES]
    norm_num only
    rw [← Rat.floor_intCast_div_natCast]
    congr 1
    field_simp
    push_cast
    ring
  · unfold HiddenPieceDistribution.expected_value_it2 it2DiscountedMean
    rw [if_neg h, hr]
    simp only [List.map_cons, List.map_nil, List.sum_cons, List.sum_nil, PIECE_VALUES]
    norm_num only
    rw [← Rat.floor_intCast_div_natCast]
    congr 1
    field_simp
    push_cast
    ring

/-- C6 (witness): the discount formulas applied at the concrete pool of the
initial position. -/
theorem expected_value_discount_formulas_witness :
    ([0, 2, 2, 2, 2, 2, 5] : List Nat).sum ≠ 0 ∧
    ((⟨[0, 2, 2, 2, 2, 2, 5], 15⟩ : HiddenPieceDistribution).expected_value_it3
        = ⌊claimedExpectedValue ⟨[0, 2, 2, 2, 2, 2, 5], 15⟩⌋ ∧
     (⟨[0, 2, 2, 2, 2, 2, 5], 15⟩ : HiddenPieceDistribution).expected_value_it2
        = ⌊it2DiscountedMean ⟨[0, 2, 2, 2, 2, 2, 5], 15⟩⌋) :=
  ⟨by decide, expected_value_discount_formulas ⟨[0, 2, 2, 2, 2, 2, 5], 15⟩ (by decide)⟩

/-- C8: the static evaluation is perspective-antisymmetric for both engines:
the raw red-minus-black score does not depend on the requested perspective,
and the result is `+raw` for Red and `−raw` for Black. -/
theorem evaluate_perspective_antisymmetry (b : Board) (cap : CapturedInfo) :
    IT2.evaluate b Color.Red = - IT2.evaluate b Color.Black ∧
    IT3.evaluate b cap Color.Red = - IT3.evaluate b cap Color.Black := by
  constructor
  · unfold IT2.evaluate
    simp
  · unfold IT3.evaluate
    simp

/-- C10: a side whose king is gone has no legal moves (`get_legal_moves`
returns `[]` straight from the king-cache lookup, regardless of remaining
pieces), and consequently both engines' `select_moves` return the empty
ranking when the side to move has lost its king. -/
theorem kingless_side_has_no_moves (b : Board) (max_depth n : Nat)
    (randomness : ℚ) (rng : Nat → ℚ) (oracle : Nat → Bool) (cap : CapturedInfo)
    (h : b.find_king b.current_turn = none) :
    (∀ c, b.find_king c = none → b.get_legal_moves c = []) ∧
    IT2.select_moves max_depth randomness rng b n oracle = [] ∧
    IT3.select_moves max_depth randomness rng b cap n oracle = [] := by
  have hleg : ∀ c, b.find_king c = none → b.get_legal_moves c = [] := by
    intro c hc
    unfold Board.get_legal_moves
    rw [hc]
  refine ⟨hleg, ?_, ?_⟩
  · unfold IT2.select_moves IT2.iterative_deepening
    rw [hleg _ h]
    simp [sortDescByScore]
  · unfold IT3.select_moves IT3.iterative_deepening
    rw [hleg _ h]
    simp [sortDescByScore]

/-- C10 (witness): on `kinglessRookBoard` Red (to move) has no king but a
rook with non-empty pseudo-legal moves; the legal-move list and both
engines' rankings are empty. -/
theorem kingless_side_has_no_moves_witness :
    kinglessRookBoard.find_king kinglessRookBoard.current_turn = none ∧
    ((kinglessRookBoard.get_piece ⟨0, 4⟩).map
      (fun p => kinglessRookBoard.get_potential_moves p)).getD [] ≠ [] ∧
    kinglessRookBoard.get_legal_moves kinglessRookBoard.current_turn = [] ∧
    IT2.select_moves 3 0 (fun _ => 0) kinglessRookBoard 5 (fun _ => false) = [] ∧
    IT3.select_moves 3 0 (fun _ => 0) kinglessRookBoard ⟨[], []⟩ 5 (fun _ => false) = [] := by
  refine ⟨by decide, by decide, ?_, ?_, ?_⟩
  · exact (kingless_side_has_no_moves kinglessRookBoard 3 5 0 (fun _ => 0)
      (fun _ => false) ⟨[], []⟩ (by decide)).1 _ (by decide)
  · exact (kingless_side_has_no_moves kinglessRookBoard 3 5 0 (fun _ => 0)
      (fun _ => false) ⟨[], []⟩ (by decide)).2.1
  · exact (kingless_side_has_no_moves kinglessRookBoard 3 5 0 (fun _ => 0)
      (fun _ => false) ⟨[], []⟩ (by decide)).2.2



/-! ### Helper lemmas for the iterative-deepening timing claims -/

/-- A depth of `IT2AI::iterative_deepening` whose per-move time checks all
return `false` scores every root move, consuming one check per move. -/
theorem it2_depthLoop_complete (b : Board) (depth : Nat) (oracle : Nat → Bool)
    (moves : List JieqiMove) :
    ∀ t, (∀ i, i < moves.length → oracle (t + i) = false) →
    IT2.depthLoop b depth oracle moves t
      = (moves.map (fun mv => (mv, IT2.rootScore b depth mv)), t + moves.length) := by
  induction moves with
  | nil => intro t _; simp [IT2.depthLoop]
  | cons mv rest ih =>
    intro t h
    have h0 : oracle t = false := by simpa using h 0 (by simp)
    rw [IT2.depthLoop, h0]
    simp only [Bool.false_eq_true, if_false]
    rw [ih (t + 1) (fun i hi => by
      have := h (i + 1) (by simpa using Nat.succ_lt_succ hi)
      simpa [Nat.add_assoc, Nat.add_comm 1 i] using this)]
    simp [List.length_cons]
    omega

/-- `IT2AI::iterative_deepening` completes exactly `n` further depths when
all their time checks are unexpired and then either the depth budget or the
clock stops it; the ranking published is that of the last completed
depth. -/
theorem it2_deepen_runs (b : Board) (moves : List JieqiMove) (oracle : Nat → Bool)
    (n : Nat) :
    ∀ dep rem (best : List (JieqiMove × Xval)) t,
    n ≤ rem →
    (∀ i, i < n * (moves.length + 1) → oracle (t + i) = false) →
    (n = rem ∨ oracle (t + n * (moves.length + 1)) = true) →
    IT2.deepen b moves oracle dep rem best t
      = (if n = 0 then best
         else sortDescByScore (moves.map
           (fun mv => (mv, IT2.rootScore b (dep + n - 1) mv)))) := by
  induction n with
  | zero =>
    intro dep rem best t _ _ hstop
    simp only [if_pos rfl]
    rcases hstop with h0 | hT
    · subst h0; rfl
    · cases rem with
      | zero => rfl
      | succ rem' =>
        rw [IT2.deepen]
        have hT' : oracle t = true := by simpa using hT
        rw [hT']
        simp
  | succ n ih =>
    intro dep rem best t hle hfalse hstop
    cases rem with
    | zero => omega
    | succ rem' =>
      rw [IT2.deepen]
      have h0 : oracle t = false := by simpa using hfalse 0 (by positivity)
      rw [h0]
      simp only [Bool.false_eq_true, if_false]
      rw [it2_depthLoop_complete b dep oracle moves (t + 1) (fun i hi => by
        have := hfalse (1 + i) (by
          have hL : 1 + i < moves.length + 1 := by omega
          calc 1 + i < moves.length + 1 := hL
            _ ≤ (n + 1) * (moves.length + 1) := Nat.le_mul_of_pos_left _ (by omega)
          )
        simpa [Nat.add_assoc] using this)]
      simp only [List.length_map, if_pos rfl]
      rw [ih (dep + 1) rem' _ (t + 1 + moves.length) (by omega)
        (fun i hi => by
          have := hfalse (moves.length + 1 + i) (by
            have : (n + 1) * (moves.length + 1)
                = (moves.length + 1) + n * (moves.length + 1) := by ring
            omega)
          simpa [Nat.add_assoc, Nat.add_comm, Nat.add_left_comm] using this)
        (by
          rcases hstop with h | h
          · left; omega
          · right
            have he : t + 1 + moves.length + n * (moves.length + 1)
                = t + (n + 1) * (moves.length + 1) := by ring
            rw [he]; exact h)]
      rw [if_neg (Nat.succ_ne_zero n)]
      rcases Nat.eq_zero_or_pos n with hn | hn
      · subst hn
        simp
      · rw [if_neg (by omega)]
        have harith : dep + 1 + n - 1 = dep + (n + 1) - 1 := by omega
        rw [harith]

/-- With a never-expiring clock the it3 `apply_move_and_recurse` value is
independent of the check counter. -/
theorem it3_apply_ff (fuel : Nat)
    (hexp : ∀ b cap ctx t t', (IT3.expectimax fuel b cap ctx (fun _ => false) t).1
        = (IT3.expectimax fuel b cap ctx (fun _ => false) t').1) :
    ∀ b cap mv ctx t t',
      (IT3.apply_move_and_recurse fuel b cap mv ctx (fun _ => false) t).1
        = (IT3.apply_move_and_recurse fuel b cap mv ctx (fun _ => false) t').1 := by
  intro b cap mv ctx t t'
  rw [IT3.apply_move_and_recurse, IT3.apply_move_and_recurse]
  exact hexp _ _ _ _ _

/-- With a never-expiring clock the it3 `chance_node` value is independent
of the check counter. -/
theorem it3_chance_ff (fuel : Nat)
    (hexp : ∀ b cap ctx t t', (IT3.expectimax fuel b cap ctx (fun _ => false) t).1
        = (IT3.expectimax fuel b cap ctx (fun _ => false) t').1) :
    ∀ b cap mv ctx color t t',
      (IT3.chance_node fuel b cap mv ctx color (fun _ => false) t).1
        = (IT3.chance_node fuel b cap mv ctx color (fun _ => false) t').1 := by
  intro b cap mv ctx color t t'
  rw [IT3.chance_node, IT3.chance_node]
  by_cases hpt : (HiddenPieceDistribution.from_board_it3 b cap color).possible_types.isEmpty
  · simp only [hpt, if_true]
    exact it3_apply_ff fuel hexp _ _ _ _ _ _
  · simp only [hpt, Bool.false_eq_true, if_false]
    generalize (HiddenPieceDistribution.from_board_it3 b cap color).possible_types = pts
    have key : ∀ (pts : List (PieceType × ℚ)) (e : Xval) (t t' : Nat),
        (List.foldl (fun acc pt =>
          let child_board := IT3.chanceChild b mv pt.1
          let r := IT3.expectimax fuel child_board cap ctx.next_ply (fun _ => false) acc.2
          (acc.1.add (Xval.smul pt.2 r.1), r.2)) (e, t) pts).1
        = (List.foldl (fun acc pt =>
          let child_board := IT3.chanceChild b mv pt.1
          let r := IT3.expectimax fuel child_board cap ctx.next_ply (fun _ => false) acc.2
          (acc.1.add (Xval.smul pt.2 r.1), r.2)) (e, t') pts).1 := by
      intro pts
      induction pts with
      | nil => intro e t t'; rfl
      | cons p rest ih =>
        intro e t t'
        simp only [List.foldl_cons]
        have hc := hexp (IT3.chanceChild b mv p.1) cap ctx.next_ply t t'
        rw [hc]
        exact ih _ _ _
    exact key _ _ _ _

/-- With a never-expiring clock the it3 MAX-node loop value is independent
of the check counter. -/
theorem it3_maxLoop_ff (fuel : Nat)
    (hexp : ∀ b cap ctx t t', (IT3.expectimax fuel b cap ctx (fun _ => false) t).1
        = (IT3.expectimax fuel b cap ctx (fun _ => false) t').1) :
    ∀ b cap ctx moves acc t t',
      (IT3.maxLoop fuel b cap ctx (fun _ => false) moves acc t).1
        = (IT3.maxLoop fuel b cap ctx (fun _ => false) moves acc t').1 := by
  intro b cap ctx moves
  induction moves with
  | nil => intro acc t t'; rw [IT3.maxLoop, IT3.maxLoop]
  | cons mv rest ih =>
    intro acc t t'
    rw [IT3.maxLoop, IT3.maxLoop]
    by_cases hrv : mv.action_type = ActionType.RevealAndMove
    · simp only [hrv, if_pos]
      have hc := it3_chance_ff fuel hexp b cap mv ctx b.current_turn t t'
      rcases h1 : IT3.chance_node fuel b cap mv ctx b.current_turn (fun _ => false) t
        with ⟨v1, t1⟩
      rcases h2 : IT3.chance_node fuel b cap mv ctx b.current_turn (fun _ => false) t'
        with ⟨v2, t2⟩
      rw [h1, h2] at hc
      simp only at hc
      subst hc
      simp only
      by_cases hbr : ctx.beta.ble (acc.max v1)
      · simp only [hbr, if_pos]
      · simp only [hbr, Bool.false_eq_true, if_false]
        exact ih _ _ _
    · simp only [hrv, if_neg, Bool.false_eq_true, if_false]
      have hc := it3_apply_ff fuel hexp b cap mv ctx t t'
      rcases h1 : IT3.apply_move_and_recurse fuel b cap mv ctx (fun _ => false) t
        with ⟨v1, t1⟩
      rcases h2 : IT3.apply_move_and_recurse fuel b cap mv ctx (fun _ => false) t'
        with ⟨v2, t2⟩
      rw [h1, h2] at hc
      simp only at hc
      subst hc
      simp only
      by_cases hbr : ctx.beta.ble (acc.max v1)
      · simp only [hbr, if_pos]
      · simp only [hbr, Bool.false_eq_true, if_false]
        exact ih _ _ _

/-- With a never-expiring clock the it3 MIN-node loop value is independent
of the check counter. -/
theorem it3_minLoop_ff (fuel : Nat)
    (hexp : ∀ b cap ctx t t', (IT3.expectimax fuel b cap ctx (fun _ => false) t).1
        = (IT3.expectimax fuel b cap ctx (fun _ => false) t').1) :
    ∀ b cap ctx moves acc t t',
      (IT3.minLoop fuel b cap ctx (fun _ => false) moves acc t).1
        = (IT3.minLoop fuel b cap ctx (fun _ => false) moves acc t').1 := by
  intro b cap ctx moves
  induction moves with
  | nil => intro acc t t'; rw [IT3.minLoop, IT3.minLoop]
  | cons mv rest ih =>
    intro acc t t'
    rw [IT3.minLoop, IT3.minLoop]
    by_cases hrv : mv.action_type = ActionType.RevealAndMove
    · simp only [hrv, if_pos]
      have hc := it3_chance_ff fuel hexp b cap mv ctx b.current_turn t t'
      rcases h1 : IT3.chance_node fuel b cap mv ctx b.current_turn (fun _ => false) t
        with ⟨v1, t1⟩
      rcases h2 : IT3.chance_node fuel b cap mv ctx b.current_turn (fun _ => false) t'
        with ⟨v2, t2⟩
      rw [h1, h2] at hc
      simp only at hc
      subst hc
      simp only
      by_cases hbr : (acc.min v1).ble ctx.alpha
      · simp only [hbr, if_pos]
      · simp only [hbr, Bool.false_eq_true, if_false]
        exact ih _ _ _
    · simp only [hrv, if_neg, Bool.false_eq_true, if_false]
      have hc := it3_apply_ff fuel hexp b cap mv ctx t t'
      rcases h1 : IT3.apply_move_and_recurse fuel b cap mv ctx (fun _ => false) t
        with ⟨v1, t1⟩
      rcases h2 : IT3.apply_move_and_recurse fuel b cap mv ctx (fun _ => false) t'
        with ⟨v2, t2⟩
      rw [h1, h2] at hc
      simp only at hc
      subst hc
      simp only
      by_cases hbr : (acc.min v1).ble ctx.alpha
      · simp only [hbr, if_pos]
      · simp only [hbr, Bool.false_eq_true, if_false]
        exact ih _ _ _

/-- With a never-expiring clock the it3 `expectimax` value is independent of
the check counter. -/
theorem it3_expectimax_ff : ∀ (fuel : Nat) b cap ctx (t t' : Nat),
    (IT3.expectimax fuel b cap ctx (fun _ => false) t).1
      = (IT3.expectimax fuel b cap ctx (fun _ => false) t').1 := by
  intro fuel
  induction fuel with
  | zero =>
    intro b cap ctx t t'
    rw [IT3.expectimax, IT3.expectimax]
    simp only [Bool.false_eq_true, if_false]
  | succ f ih =>
    intro b cap ctx t t'
    rw [IT3.expectimax, IT3.expectimax]
    simp only [Bool.false_eq_true, if_false]
    by_cases hemp : (b.get_legal_moves b.current_turn).isEmpty
    · simp only [hemp, if_pos]
    · simp only [hemp, Bool.false_eq_true, if_false]
      by_cases hmax : b.current_turn = ctx.pov_color
      · simp only [hmax, if_pos]
        exact it3_maxLoop_ff f ih _ _ _ _ _ _ _
      · simp only [hmax, if_neg, Bool.false_eq_true, if_false]
        exact it3_minLoop_ff f ih _ _ _ _ _ _ _

/-- With a never-expiring clock the it3 root score is independent of the
check counter. -/
theorem it3_rootScore_ff (b : Board) (cap : CapturedInfo) (depth : Nat)
    (mv : JieqiMove) (t t' : Nat) :
    (IT3.rootScore b cap depth mv (fun _ => false) t).1
      = (IT3.rootScore b cap depth mv (fun _ => false) t').1 := by
  unfold IT3.rootScore
  by_cases hrv : mv.action_type = ActionType.RevealAndMove
  · simp only [hrv, if_pos]
    exact it3_chance_ff _ (it3_expectimax_ff _) _ _ _ _ _ _ _
  · simp only [hrv, Bool.false_eq_true, if_false, if_neg]
    exact it3_apply_ff _ (it3_expectimax_ff _) _ _ _ _ _ _

/-- With a never-expiring clock a depth of `IT3AI::iterative_deepening`
scores every root move. -/
theorem it3_depthLoop_ff (b : Board) (cap : CapturedInfo) (depth : Nat)
    (moves : List JieqiMove) :
    ∀ t, (IT3.depthLoop b cap depth (fun _ => false) moves t).1
      = moves.map (fun mv => (mv, (IT3.rootScore b cap depth mv (fun _ => false) 0).1)) := by
  induction moves with
  | nil => intro t; rw [IT3.depthLoop]; rfl
  | cons mv rest ih =>
    intro t
    rw [IT3.depthLoop]
    simp only [Bool.false_eq_true, if_false]
    rcases h1 : IT3.rootScore b cap depth mv (fun _ => false) (t + 1) with ⟨v1, t1⟩
    have hv : v1 = (IT3.rootScore b cap depth mv (fun _ => false) 0).1 := by
      have h := it3_rootScore_ff b cap depth mv (t + 1) 0
      rw [h1] at h
      exact h
    rcases h2 : IT3.depthLoop b cap depth (fun _ => false) rest t1 with ⟨rs, t2⟩
    have hr : rs = rest.map
        (fun mv => (mv, (IT3.rootScore b cap depth mv (fun _ => false) 0).1)) := by
      have h := ih t1
      rw [h2] at h
      exact h
    simp only [List.map_cons]
    rw [hv, hr]

/-- With a never-expiring clock `IT3AI::iterative_deepening` publishes the
ranking of its last depth. -/
theorem it3_deepen_ff (b : Board) (cap : CapturedInfo) (moves : List JieqiMove) :
    ∀ (rem dep : Nat) (best : List (JieqiMove × Xval)) (t : Nat),
    IT3.deepen b cap moves (fun _ => false) dep rem best t
      = (if rem = 0 then best
         else sortDescByScore (moves.map
           (fun mv => (mv, (IT3.rootScore b cap (dep + rem - 1) mv (fun _ => false) 0).1)))) := by
  intro rem
  induction rem with
  | zero => intro dep best t; rfl
  | succ rem' ih =>
    intro dep best t
    rw [IT3.deepen]
    simp only [Bool.false_eq_true, if_false]
    rcases h1 : IT3.depthLoop b cap dep (fun _ => false) moves (t + 1) with ⟨cs, t2⟩
    have hcs : cs = moves.map
        (fun mv => (mv, (IT3.rootScore b cap dep mv (fun _ => false) 0).1)) := by
      have h := it3_depthLoop_ff b cap dep moves (t + 1)
      rw [h1] at h
      exact h
    simp only [hcs, List.length_map, if_pos rfl]
    rw [ih]
    rw [if_neg (Nat.succ_ne_zero rem')]
    rcases Nat.eq_zero_or_pos rem' with hn | hn
    · subst hn
      simp
    · rw [if_neg (by omega)]
      have harith : dep + 1 + rem' - 1 = dep + (rem' + 1) - 1 := by omega
      rw [harith]

/-- The it2 static evaluation, for Red, of the position after the flying
general capture on `kingsOnlyBoard` (a lone revealed red king). -/
theorem evaluate_after_flying_general :
    IT2.evaluate (kingsOnlyBoard.make_move ⟨ActionType.Move, ⟨0, 4⟩, ⟨9, 4⟩⟩).1
      Color.Red = 100000 := by
  unfold IT2.evaluate IT2.best_capture_value
  rw [show HiddenPieceDistribution.from_board_it2
        (kingsOnlyBoard.make_move ⟨ActionType.Move, ⟨0, 4⟩, ⟨9, 4⟩⟩).1 Color.Red
      = ⟨[0, 2, 2, 2, 2, 2, 5], 0⟩ from by decide]
  rw [show HiddenPieceDistribution.from_board_it2
        (kingsOnlyBoard.make_move ⟨ActionType.Move, ⟨0, 4⟩, ⟨9, 4⟩⟩).1 Color.Black
      = ⟨[1, 2, 2, 2, 2, 2, 5], 0⟩ from by decide]
  rw [show (kingsOnlyBoard.make_move ⟨ActionType.Move, ⟨0, 4⟩, ⟨9, 4⟩⟩).1.get_all_pieces none
      = [⟨Color.Red, ⟨9, 4⟩, false, some PieceType.King, some PieceType.King⟩] from by decide]
  rw [show (kingsOnlyBoard.make_move ⟨ActionType.Move, ⟨0, 4⟩, ⟨9, 4⟩⟩).1.get_legal_moves
        Color.Red = [] from by decide]
  rw [show (kingsOnlyBoard.make_move ⟨ActionType.Move, ⟨0, 4⟩, ⟨9, 4⟩⟩).1.get_legal_moves
        Color.Black = [] from by decide]
  rw [show (⟨[0, 2, 2, 2, 2, 2, 5], 0⟩ : HiddenPieceDistribution).expected_value_it2 = 278
      from by decide]
  rw [show (⟨[1, 2, 2, 2, 2, 2, 5], 0⟩ : HiddenPieceDistribution).expected_value_it2 = 4635
      from by decide]
  simp only [List.foldl]
  norm_num
  rw [show IT2.get_pst_score PieceType.King (9 : Int).toNat (4 : Int).toNat true = 0
      from by decide]
  norm_num [PieceType.value]

/-- C9 (counterexample): with an immediately expired clock (every check
returns `true`), both engines return every root move paired with the score
`0.0` in generation order — not the "depth-0 static-evaluation ranking"
stated by the spec, which on `kingsOnlyBoard` scores the flying-general
capture at `100000`. -/
theorem timeout_fallback_not_static_ranking :
    IT2.iterative_deepening 50 kingsOnlyBoard (fun _ => true)
      = zeroRanking kingsOnlyBoard ∧
    IT3.iterative_deepening 50 kingsOnlyBoard ⟨[], []⟩ (fun _ => true)
      = zeroRanking kingsOnlyBoard ∧
    zeroRanking kingsOnlyBoard ≠ claimedStaticRanking kingsOnlyBoard := by
  refine ⟨?_, ?_, ?_⟩
  · unfold IT2.iterative_deepening IT2.deepen zeroRanking
    decide
  · unfold IT3.iterative_deepening IT3.deepen zeroRanking
    decide
  · intro heq
    have hmv : (⟨ActionType.Move, ⟨0, 4⟩, ⟨9, 4⟩⟩ : JieqiMove)
        ∈ kingsOnlyBoard.get_legal_moves kingsOnlyBoard.current_turn := by decide
    have hmem : ((⟨ActionType.Move, ⟨0, 4⟩, ⟨9, 4⟩⟩ : JieqiMove),
        Xval.val (IT2.evaluate
          (kingsOnlyBoard.make_move ⟨ActionType.Move, ⟨0, 4⟩, ⟨9, 4⟩⟩).1
          kingsOnlyBoard.current_turn))
        ∈ claimedStaticRanking kingsOnlyBoard := by
      unfold claimedStaticRanking sortDescByScore
      rw [List.mem_mergeSort]
      exact List.mem_map_of_mem _ hmv
    rw [← heq] at hmem
    have hz : ∀ x ∈ zeroRanking kingsOnlyBoard, x.2 = Xval.val 0 := by decide
    have hx := hz _ hmem
    simp only at hx
    rw [show kingsOnlyBoard.current_turn = Color.Red from by decide,
        evaluate_after_flying_general] at hx
    have : (100000 : ℚ) = 0 := by injection hx
    norm_num at this

/-- C9 (amended): when the time budget is already expired at the very first
check, `iterative_deepening` returns every root move paired with score `0.0`
in generation order (not a static-evaluation ranking); when depths complete,
the published ranking is that of the most recently completed depth — stated
for it2 via the exact check schedule (one check per depth plus one per root
move), and for it3 for the never-expiring clock (whose last completed depth
is `max_depth`). -/
theorem iterative_deepening_publication (b : Board) (cap : CapturedInfo)
    (max_depth : Nat) (oracle : Nat → Bool) :
    (oracle 0 = true →
      IT2.iterative_deepening max_depth b oracle = zeroRanking b ∧
      IT3.iterative_deepening max_depth b cap oracle = zeroRanking b) ∧
    (∀ d, 1 ≤ d → d ≤ max_depth →
      (∀ t, t < d * ((b.get_legal_moves b.current_turn).length + 1) → oracle t = false) →
      (d = max_depth
        ∨ oracle (d * ((b.get_legal_moves b.current_turn).length + 1)) = true) →
      IT2.iterative_deepening max_depth b oracle = it2RankingAt b d) ∧
    (oracle = (fun _ => false) → 1 ≤ max_depth →
      IT3.iterative_deepening max_depth b cap oracle = it3RankingAt b cap max_depth) := by
  refine ⟨?_, ?_, ?_⟩
  · intro h0
    constructor
    · unfold IT2.iterative_deepening zeroRanking
      by_cases hemp : (b.get_legal_moves b.current_turn).isEmpty
      · simp only [hemp, if_pos]
        rw [List.isEmpty_iff] at hemp
        rw [hemp]
        rfl
      · simp only [hemp, Bool.false_eq_true, if_false]
        cases max_depth with
        | zero => rfl
        | succ md => rw [IT2.deepen, h0]; simp
    · unfold IT3.iterative_deepening zeroRanking
      by_cases hemp : (b.get_legal_moves b.current_turn).isEmpty
      · simp only [hemp, if_pos]
        rw [List.isEmpty_iff] at hemp
        rw [hemp]
        rfl
      · simp only [hemp, Bool.false_eq_true, if_false]
        cases max_depth with
        | zero => rfl
        | succ md => rw [IT3.deepen, h0]; simp
  · intro d hd1 hdm hfalse hstop
    unfold IT2.iterative_deepening it2RankingAt
    by_cases hemp : (b.get_legal_moves b.current_turn).isEmpty
    · simp only [hemp, if_pos]
      rw [List.isEmpty_iff] at hemp
      rw [hemp]
      simp [sortDescByScore]
    · simp only [hemp, Bool.false_eq_true, if_false]
      rw [it2_deepen_runs b (b.get_legal_moves b.current_turn) oracle d 1 max_depth _ 0
        hdm (fun i hi => by simpa using hfalse i hi)
        (by
          rcases hstop with h | h
          · left; exact h
          · right; simpa using h)]
      rw [if_neg (by omega)]
      have h1d : 1 + d - 1 = d := by omega
      rw [h1d]
  · intro hff hmd
    subst hff
    unfold IT3.iterative_deepening it3RankingAt
    by_cases hemp : (b.get_legal_moves b.current_turn).isEmpty
    · simp only [hemp, if_pos]
      rw [List.isEmpty_iff] at hemp
      rw [hemp]
      simp [sortDescByScore]
    · simp only [hemp, Bool.false_eq_true, if_false]
      rw [it3_deepen_ff b cap (b.get_legal_moves b.current_turn) max_depth 1 _ 0]
      rw [if_neg (by omega)]
      have h1d : 1 + max_depth - 1 = max_depth := by omega
      rw [h1d]

/-- C9 (witness): the publication behavior applied concretely on
`kingsOnlyBoard` with an immediately expired clock and with a
never-expiring clock at depth budget 1. -/
theorem iterative_deepening_publication_witness :
    (IT2.iterative_deepening 1 kingsOnlyBoard (fun _ => true)
        = zeroRanking kingsOnlyBoard ∧
     IT3.iterative_deepening 1 kingsOnlyBoard ⟨[], []⟩ (fun _ => true)
        = zeroRanking kingsOnlyBoard) ∧
    IT2.iterative_deepening 1 kingsOnlyBoard (fun _ => false)
        = it2RankingAt kingsOnlyBoard 1 ∧
    IT3.iterative_deepening 1 kingsOnlyBoard ⟨[], []⟩ (fun _ => false)
        = it3RankingAt kingsOnlyBoard ⟨[], []⟩ 1 := by
  refine ⟨(iterative_deepening_publication kingsOnlyBoard ⟨[], []⟩ 1
      (fun _ => true)).1 rfl, ?_, ?_⟩
  · exact (iterative_deepening_publication kingsOnlyBoard ⟨[], []⟩ 1
      (fun _ => false)).2.1 1 le_rfl le_rfl (fun t _ => rfl) (Or.inl rfl)
  · exact (iterative_deepening_publication kingsOnlyBoard ⟨[], []⟩ 1
      (fun _ => false)).2.2 rfl le_rfl

theorem attackScan_iff (b : Board) (c : Color) :
    ∀ (l : List Position) (s : Nat),
    Board.attackScan b c l s = true ↔
    ∃ i, ∃ h : i < l.length, ∃ piece, b.get_piece (l.get ⟨i, h⟩) = some piece ∧
      piece.color = c ∧
      (((piece.get_movement_type = PieceType.Rook
          ∨ piece.get_movement_type = PieceType.King) ∧
         s + (l.take i).countP (fun q => (b.get_piece q).isSome) = 0) ∨
       (piece.get_movement_type = PieceType.Cannon ∧
         s + (l.take i).countP (fun q => (b.get_piece q).isSome) = 1)) := by
  intro l
  induction l with
  | nil =>
    intro s
    simp [Board.attackScan]
  | cons q rest ih =>
    intro s
    rw [Board.attackScan]
    rcases hq : b.get_piece q with _ | piece
    · rw [ih s]
      constructor
      · rintro ⟨i, h, piece, hp, hc, hcond⟩
        refine ⟨i + 1, by simpa using Nat.succ_lt_succ h, piece, ?_, hc, ?_⟩
        · simpa using hp
        · simpa [List.take_succ_cons, List.countP_cons, hq] using hcond
      · rintro ⟨i, h, piece, hp, hc, hcond⟩
        cases i with
        | zero =>
          exfalso
          simp only [List.get] at hp
          rw [hq] at hp
          exact Option.noConfusion hp
        | succ j =>
          refine ⟨j, by simpa using Nat.lt_of_succ_lt_succ h, piece, by simpa using hp, hc, ?_⟩
          simpa [List.take_succ_cons, List.countP_cons, hq] using hcond
    · by_cases hhit : piece.color = c ∧
          ((s = 0 ∧ piece.get_movement_type = PieceType.Rook)
            ∨ (s = 1 ∧ piece.get_movement_type = PieceType.Cannon)
            ∨ (s = 0 ∧ piece.get_movement_type = PieceType.King))
      · have hcondtrue : (decide (piece.color = c) &&
            ((decide (s = 0) && decide (piece.get_movement_type = PieceType.Rook)) ||
             (decide (s = 1) && decide (piece.get_movement_type = PieceType.Cannon)) ||
             (decide (s = 0) && decide (piece.get_movement_type = PieceType.King)))) = true := by
          rcases hhit with ⟨h1, h2⟩
          rcases h2 with ⟨hs, hm⟩ | ⟨hs, hm⟩ | ⟨hs, hm⟩ <;> simp [h1, hs, hm]
        constructor
        · intro _
          refine ⟨0, by simp, piece, by simpa [List.get] using hq, hhit.1, ?_⟩
          rcases hhit.2 with ⟨hs, hm⟩ | ⟨hs, hm⟩ | ⟨hs, hm⟩
          · exact Or.inl ⟨Or.inl hm, by simp [hs]⟩
          · exact Or.inr ⟨hm, by simp [hs]⟩
          · exact Or.inl ⟨Or.inr hm, by simp [hs]⟩
        · intro _
          simp only [hhit.1]
          rcases hhit.2 with ⟨hs, hm⟩ | ⟨hs, hm⟩ | ⟨hs, hm⟩ <;> simp [hs, hm]
      · have hcondfalse : (decide (piece.color = c) &&
            ((decide (s = 0) && decide (piece.get_movement_type = PieceType.Rook)) ||
             (decide (s = 1) && decide (piece.get_movement_type = PieceType.Cannon)) ||
             (decide (s = 0) && decide (piece.get_movement_type = PieceType.King)))) = false := by
          cases hb : (decide (piece.color = c) &&
            ((decide (s = 0) && decide (piece.get_movement_type = PieceType.Rook)) ||
             (decide (s = 1) && decide (piece.get_movement_type = PieceType.Cannon)) ||
             (decide (s = 0) && decide (piece.get_movement_type = PieceType.King))))
          · rfl
          · exfalso
            apply hhit
            simp only [Bool.and_eq_true, Bool.or_eq_true, decide_eq_true_eq] at hb
            tauto
        simp only [hcondfalse, Bool.false_eq_true, if_false]
        by_cases hs2 : 2 ≤ s + 1
        · rw [if_pos hs2]
          constructor
          · intro hfalse
            exact absurd hfalse (by simp)
          · rintro ⟨i, h, pc, hp, hcol, hcond⟩
            exfalso
            cases i with
            | zero =>
              simp only [List.get] at hp
              rw [hq] at hp
              have hpc : pc = piece := (Option.some.inj hp).symm
              subst hpc
              apply hhit
              refine ⟨hcol, ?_⟩
              simp only [List.take_zero, List.countP_nil, Nat.add_zero] at hcond
              rcases hcond with ⟨hm | hm, hz⟩ | ⟨hm, hz⟩
              · omega
              · omega
              · right; left; exact ⟨by omega, hm⟩
            | succ j =>
              have hcnt : ((q :: rest).take (j + 1)).countP
                  (fun q => (b.get_piece q).isSome) =
                  1 + (rest.take j).countP (fun q => (b.get_piece q).isSome) := by
                simp [List.take_succ_cons, List.countP_cons, hq, Nat.add_comm]
              rw [hcnt] at hcond
              rcases hcond with ⟨_, hz⟩ | ⟨_, hz⟩ <;> omega
        · have hs0 : s = 0 := by omega
          subst hs0
          rw [if_neg hs2, ih 1]
          constructor
          · rintro ⟨j, h, pc, hp, hcol, hcond⟩
            refine ⟨j + 1, by simpa using Nat.succ_lt_succ h, pc, by simpa using hp, hcol, ?_⟩
            have hcnt : ((q :: rest).take (j + 1)).countP
                (fun q => (b.get_piece q).isSome) =
                1 + (rest.take j).countP (fun q => (b.get_piece q).isSome) := by
              simp [List.take_succ_cons, List.countP_cons, hq, Nat.add_comm]
            rw [hcnt]
            rcases hcond with ⟨hm, hz⟩ | ⟨hm, hz⟩
            · exact Or.inl ⟨hm, by omega⟩
            · exact Or.inr ⟨hm, by omega⟩
          · rintro ⟨i, h, pc, hp, hcol, hcond⟩
            cases i with
            | zero =>
              exfalso
              simp only [List.get] at hp
              rw [hq] at hp
              have hpc : pc = piece := (Option.some.inj hp).symm
              subst hpc
              apply hhit
              refine ⟨hcol, ?_⟩
              simp only [List.take_zero, List.countP_nil, Nat.add_zero] at hcond
              rcases hcond with ⟨hm | hm, hz⟩ | ⟨hm, hz⟩
              · left; exact ⟨rfl, hm⟩
              · right; right; exact ⟨rfl, hm⟩
              · omega
            | succ j =>
              refine ⟨j, by simpa using Nat.lt_of_succ_lt_succ h, pc, by simpa using hp, hcol, ?_⟩
              have hcnt : ((q :: rest).take (j + 1)).countP
                  (fun q => (b.get_piece q).isSome) =
                  1 + (rest.take j).countP (fun q => (b.get_piece q).isSome) := by
                simp [List.take_succ_cons, List.countP_cons, hq, Nat.add_comm]
              rw [hcnt] at hcond
              rcases hcond with ⟨hm, hz⟩ | ⟨hm, hz⟩
              · exact Or.inl ⟨hm, by omega⟩
              · exact Or.inr ⟨hm, by omega⟩

/-- C7: in the orthogonal ray sweep of `Board::is_position_attacked`
(`attackScan` over `Board.rayPositions target dr dc`, started with
`screen_count = 0`), the ray registers an attack iff it holds an
attacker-colored piece that either moves as a Rook or King with zero
occupied squares between it and the target, or moves as a Cannon with
exactly one occupied square (one screen) in between.  No disjunct with two
or more intervening pieces exists: the sweep aborts once two intervening
pieces have been passed, so a cannon behind two or more screens never
registers. -/
theorem attack_ray_characterization (b : Board) (c : Color)
    (target : Position) (dr dc : Int) :
    Board.attackScan b c (Board.rayPositions target dr dc) 0 = true ↔
      ∃ i, ∃ h : i < (Board.rayPositions target dr dc).length, ∃ piece,
        b.get_piece ((Board.rayPositions target dr dc).get ⟨i, h⟩) = some piece ∧
          piece.color = c ∧
          (((piece.get_movement_type = PieceType.Rook ∨
              piece.get_movement_type = PieceType.King) ∧
              screensBefore b (Board.rayPositions target dr dc) i = 0) ∨
            (piece.get_movement_type = PieceType.Cannon ∧
              screensBefore b (Board.rayPositions target dr dc) i = 1)) := by
  simpa [screensBefore] using attackScan_iff b c (Board.rayPositions target dr dc) 0

/-- C7 (witness): on the kingless-rook board the downward ray from the black
king at e9 registers the red Rook at e0 (index 8, zero screens). -/
theorem attack_ray_characterization_witness :
    Board.attackScan kinglessRookBoard Color.Red
      (Board.rayPositions ⟨9, 4⟩ (-1) 0) 0 = true := by
  refine (attack_ray_characterization kinglessRookBoard Color.Red
      ⟨9, 4⟩ (-1) 0).mpr
    ⟨8, by decide,
      ⟨Color.Red, ⟨0, 4⟩, false, some PieceType.Rook, some PieceType.Rook⟩,
      by decide, rfl, Or.inl ⟨Or.inl (by decide), by decide⟩⟩

theorem getD_set_self_none (l : List (Option Piece)) (i : Nat) (a : Option Piece)
    (h : i < l.length) : (l.set i a).getD i none = a := by
  rw [List.getD_eq_getElem?_getD, List.getElem?_set_self h]
  rfl

theorem getD_set_ne_none (l : List (Option Piece)) {i j : Nat} (h : i ≠ j)
    (a : Option Piece) : (l.set i a).getD j none = l.getD j none := by
  rw [List.getD_eq_getElem?_getD, List.getElem?_set_ne h,
    ← List.getD_eq_getElem?_getD]

theorem set_getD_self_none (l : List (Option Piece)) (i : Nat)
    (h : i < l.length) : l.set i (l.getD i none) = l := by
  apply List.ext_getElem?
  intro n
  rw [List.getElem?_set]
  by_cases hin : i = n
  · subst hin
    rw [if_pos rfl, if_pos h, List.getD_eq_getElem?_getD,
      List.getElem?_eq_getElem h]
    rfl
  · rw [if_neg hin]

theorem to_index_lt (p : Position) (h : p.is_valid = true) :
    p.to_index < 90 := by
  simp only [Position.is_valid, Bool.and_eq_true, decide_eq_true_eq] at h
  simp only [Position.to_index]
  omega

theorem to_index_inj (p q : Position) (hp : p.is_valid = true)
    (hq : q.is_valid = true) (h : p.to_index = q.to_index) : p = q := by
  simp only [Position.is_valid, Bool.and_eq_true, decide_eq_true_eq] at hp hq
  simp only [Position.to_index] at h
  have : p.row = q.row ∧ p.col = q.col := by omega
  cases p; cases q
  simp_all

theorem make_move_snd (b : Board) (mv : JieqiMove) (p : Piece)
    (hp : b.squares.getD mv.from_pos.to_index none = some p)
    (hne : mv.from_pos.to_index ≠ mv.to_pos.to_index) :
    (b.make_move mv).2 = b.squares.getD mv.to_pos.to_index none := by
  simp only [Board.make_move, hp, getD_set_ne_none _ hne]



theorem set_of_getDq (l : List (Option Piece)) (i : Nat) (a : Option Piece)
    (h : l[i]?.getD none = a) (hi : i < l.length) : l.set i a = l := by
  rw [← h, ← List.getD_eq_getElem?_getD]
  exact set_getD_self_none l i hi

theorem undo_make_move (b : Board) (mv : JieqiMove) (p : Piece)
    (hlen : b.squares.length = 90)
    (hp : b.squares.getD mv.from_pos.to_index none = some p)
    (hfrom : p.position = mv.from_pos)
    (hfromv : mv.from_pos.is_valid = true)
    (htov : mv.to_pos.is_valid = true)
    (hne : mv.from_pos.to_index ≠ mv.to_pos.to_index)
    (hhid : p.is_hidden = true → p.actual_type = none)
    (hact : mv.action_type =
      (if p.is_hidden then ActionType.RevealAndMove else ActionType.Move))
    (hkingp : p.get_movement_type = PieceType.King →
      b.find_king p.color = some p.position)
    (hkingcap : ∀ t, b.squares.getD mv.to_pos.to_index none = some t →
      t.get_movement_type = PieceType.King →
      b.find_king t.color = some mv.to_pos) :
    Board.undo_move (b.make_move mv).1 mv (b.make_move mv).2 p.is_hidden = b := by
  have hfi : mv.from_pos.to_index < 90 := to_index_lt _ hfromv
  have hti : mv.to_pos.to_index < 90 := to_index_lt _ htov
  obtain ⟨A, vw, ct, rk, bk⟩ := b
  simp only at hp hkingp hkingcap hlen
  have hp2 : A[mv.from_pos.to_index]?.getD none = some p := by
    rw [← List.getD_eq_getElem?_getD]
    exact hp
  have hlen1 : ∀ q : Option Piece,
      ((A.set mv.from_pos.to_index none).set mv.to_pos.to_index
        q)[mv.to_pos.to_index]?.getD none = q := by
    intro q
    rw [← List.getD_eq_getElem?_getD]
    exact getD_set_self_none _ _ _ (by rw [List.length_set, hlen]; exact hti)
  have hcapD : (A.set mv.from_pos.to_index
      none)[mv.to_pos.to_index]?.getD none =
      A[mv.to_pos.to_index]?.getD none := by
    rw [← List.getD_eq_getElem?_getD, ← List.getD_eq_getElem?_getD]
    exact getD_set_ne_none _ hne _
  have hsetp : A.set mv.from_pos.to_index (some p) = A :=
    set_of_getDq _ _ _ hp2 (by rw [hlen]; exact hfi)
  rcases hcap : A[mv.to_pos.to_index]?.getD none with _ | cap
  · -- no capture
    have hsetc : A.set mv.to_pos.to_index none = A :=
      set_of_getDq _ _ _ hcap (by rw [hlen]; exact hti)
    cases hh : p.is_hidden with
    | false =>
      have hact2 : mv.action_type = ActionType.Move := by
        rw [hact, hh]
        rfl
      have hP : (⟨p.color, mv.from_pos, false, p.actual_type,
          p.movement_type⟩ : Piece) = p := by
        obtain ⟨pc, pp, pih, pa, pm⟩ := p
        simp only at hfrom hh
        simp [hfrom, hh]
      simp [Board.make_move, Board.undo_move, hp2, hact2, hcapD, List.set_set,
        hlen1, hh, hcap, Board.mk.injEq, hP, Piece.get_movement_type]
      rw [List.set_comm none (some p) _ (Ne.symm hne), List.set_set, hsetp,
        hsetc]
      refine ⟨rfl, ?_, ?_⟩
      · by_cases hpk : p.actual_type.getD PieceType.King = PieceType.King
        · cases hpc : p.color with
          | Red =>
            have hk := hkingp (by simp [Piece.get_movement_type, hh, hpk])
            rw [hpc, hfrom] at hk
            simp only [Board.find_king] at hk
            simp [hpk, hpc, hk]
          | Black =>
            simp [hpk, hpc]
        · simp [hpk]
      · by_cases hpk : p.actual_type.getD PieceType.King = PieceType.King
        · cases hpc : p.color with
          | Red =>
            simp [hpk, hpc]
          | Black =>
            have hk := hkingp (by simp [Piece.get_movement_type, hh, hpk])
            rw [hpc, hfrom] at hk
            simp only [Board.find_king] at hk
            simp [hpk, hpc, hk]
        · simp [hpk]
    | true =>
      have hact2 : mv.action_type = ActionType.RevealAndMove := by
        rw [hact, hh]
        rfl
      have hP : (⟨p.color, mv.from_pos, true, none,
          p.movement_type⟩ : Piece) = p := by
        obtain ⟨pc, pp, pih, pa, pm⟩ := p
        simp only at hfrom hh hhid
        simp [hfrom, hh, hhid hh]
      simp [Board.make_move, Board.undo_move, hp2, hact2, hcapD, List.set_set,
        hlen1, hh, hcap, Board.mk.injEq, hP, Piece.get_movement_type]
      rw [List.set_comm none (some p) _ (Ne.symm hne), List.set_set, hsetp,
        hsetc]
      refine ⟨rfl, ?_, ?_⟩
      · by_cases hpk : p.movement_type.getD PieceType.King = PieceType.King
        · cases hpc : p.color with
          | Red =>
            have hk := hkingp (by simp [Piece.get_movement_type, hh, hpk])
            rw [hpc, hfrom] at hk
            simp only [Board.find_king] at hk
            simp [hpk, hpc, hk]
          | Black =>
            simp [hpk, hpc]
        · simp [hpk]
      · by_cases hpk : p.movement_type.getD PieceType.King = PieceType.King
        · cases hpc : p.color with
          | Red =>
            simp [hpk, hpc]
          | Black =>
            have hk := hkingp (by simp [Piece.get_movement_type, hh, hpk])
            rw [hpc, hfrom] at hk
            simp only [Board.find_king] at hk
            simp [hpk, hpc, hk]
        · simp [hpk]
  · -- capture
    have hcapG : A.getD mv.to_pos.to_index none = some cap := by
      rw [List.getD_eq_getElem?_getD]
      exact hcap
    have hsetc : A.set mv.to_pos.to_index (some cap) = A :=
      set_of_getDq _ _ _ hcap (by rw [hlen]; exact hti)
    cases hh : p.is_hidden with
    | false =>
      have hact2 : mv.action_type = ActionType.Move := by
        rw [hact, hh]
        rfl
      have hP : (⟨p.color, mv.from_pos, false, p.actual_type,
          p.movement_type⟩ : Piece) = p := by
        obtain ⟨pc, pp, pih, pa, pm⟩ := p
        simp only at hfrom hh
        simp [hfrom, hh]
      simp [Board.make_move, Board.undo_move, hp2, hact2, hcapD, List.set_set,
        hlen1, hh, hcap, Board.mk.injEq, hP, Piece.get_movement_type]
      rw [List.set_comm none (some p) _ (Ne.symm hne), List.set_set,
        List.set_set, hsetp, hsetc]
      refine ⟨rfl, ?_, ?_⟩
      · by_cases hck : (if cap.is_hidden = true then
            cap.movement_type.getD PieceType.King
            else cap.actual_type.getD PieceType.King) = PieceType.King ∧
            cap.color = Color.Red
        · have hk := hkingcap cap hcapG
            (by simpa [Piece.get_movement_type] using hck.1)
          rw [hck.2] at hk
          simp only [Board.find_king] at hk
          simp [hck, hk]
        · by_cases hpk : p.actual_type.getD PieceType.King = PieceType.King
          · cases hpc : p.color with
            | Red =>
              have hk := hkingp (by simp [Piece.get_movement_type, hh, hpk])
              rw [hpc, hfrom] at hk
              simp only [Board.find_king] at hk
              simp [hpk, hpc, hk, hck]
            | Black =>
              simp [hpk, hpc, hck]
          · simp [hpk, hck]
      · by_cases hck : (if cap.is_hidden = true then
            cap.movement_type.getD PieceType.King
            else cap.actual_type.getD PieceType.King) = PieceType.King ∧
            cap.color = Color.Black
        · have hk := hkingcap cap hcapG
            (by simpa [Piece.get_movement_type] using hck.1)
          rw [hck.2] at hk
          simp only [Board.find_king] at hk
          simp [hck, hk]
        · by_cases hpk : p.actual_type.getD PieceType.King = PieceType.King
          · cases hpc : p.color with
            | Red =>
              simp [hpk, hpc, hck]
            | Black =>
              have hk := hkingp (by simp [Piece.get_movement_type, hh, hpk])
              rw [hpc, hfrom] at hk
              simp only [Board.find_king] at hk
              simp [hpk, hpc, hk, hck]
          · simp [hpk, hck]
    | true =>
      have hact2 : mv.action_type = ActionType.RevealAndMove := by
        rw [hact, hh]
        rfl
      have hP : (⟨p.color, mv.from_pos, true, none,
          p.movement_type⟩ : Piece) = p := by
        obtain ⟨pc, pp, pih, pa, pm⟩ := p
        simp only at hfrom hh hhid
        simp [hfrom, hh, hhid hh]
      simp [Board.make_move, Board.undo_move, hp2, hact2, hcapD, List.set_set,
        hlen1, hh, hcap, Board.mk.injEq, hP, Piece.get_movement_type]
      rw [List.set_comm none (some p) _ (Ne.symm hne), List.set_set,
        List.set_set, hsetp, hsetc]
      refine ⟨rfl, ?_, ?_⟩
      · by_cases hck : (if cap.is_hidden = true then
            cap.movement_type.getD PieceType.King
            else cap.actual_type.getD PieceType.King) = PieceType.King ∧
            cap.color = Color.Red
        · have hk := hkingcap cap hcapG
            (by simpa [Piece.get_movement_type] using hck.1)
          rw [hck.2] at hk
          simp only [Board.find_king] at hk
          simp [hck, hk]
        · by_cases hpk : p.movement_type.getD PieceType.King = PieceType.King
          · cases hpc : p.color with
            | Red =>
              have hk := hkingp (by simp [Piece.get_movement_type, hh, hpk])
              rw [hpc, hfrom] at hk
              simp only [Board.find_king] at hk
              simp [hpk, hpc, hk, hck]
            | Black =>
              simp [hpk, hpc, hck]
          · simp [hpk, hck]
      · by_cases hck : (if cap.is_hidden = true then
            cap.movement_type.getD PieceType.King
            else cap.actual_type.getD PieceType.King) = PieceType.King ∧
            cap.color = Color.Black
        · have hk := hkingcap cap hcapG
            (by simpa [Piece.get_movement_type] using hck.1)
          rw [hck.2] at hk
          simp only [Board.find_king] at hk
          simp [hck, hk]
        · by_cases hpk : p.movement_type.getD PieceType.King = PieceType.King
          · cases hpc : p.color with
            | Red =>
              simp [hpk, hpc, hck]
            | Black =>
              have hk := hkingp (by simp [Piece.get_movement_type, hh, hpk])
              rw [hpc, hfrom] at hk
              simp only [Board.find_king] at hk
              simp [hpk, hpc, hk, hck]
          · simp [hpk, hck]



theorem from_index_valid (i : Nat) (h : i < 90) :
    (Position.from_index i).is_valid = true := by
  simp only [Position.from_index, Position.is_valid, Bool.and_eq_true,
    decide_eq_true_eq]
  omega

theorem to_from_index (i : Nat) (h : i < 90) :
    (Position.from_index i).to_index = i := by
  simp only [Position.from_index, Position.to_index]
  omega

theorem from_to_index (p : Position) (h : p.is_valid = true) :
    Position.from_index p.to_index = p := by
  simp only [Position.is_valid, Bool.and_eq_true, decide_eq_true_eq] at h
  simp only [Position.from_index, Position.to_index]
  obtain ⟨r, c⟩ := p
  simp only at h ⊢
  rw [Position.mk.injEq]
  constructor
  · omega
  · omega

theorem get_piece_valid (b : Board) (pos : Position) (p : Piece)
    (h : b.get_piece pos = some p) : pos.is_valid = true := by
  by_cases hv : pos.is_valid = true
  · exact hv
  · simp [Board.get_piece, hv] at h

theorem get_piece_getD (b : Board) (pos : Position) (p : Piece)
    (h : b.get_piece pos = some p) :
    b.squares.getD pos.to_index none = some p := by
  have hv := get_piece_valid b pos p h
  simpa [Board.get_piece, hv] using h

theorem can_move_to_valid (b : Board) (p : Piece) (q : Position)
    (h : b.can_move_to p q = true) : q.is_valid = true := by
  by_cases hv : q.is_valid = true
  · exact hv
  · simp [Board.can_move_to, hv] at h

theorem offset_ne (p : Position) (dr dc : Int) (h : dr ≠ 0 ∨ dc ≠ 0) :
    p.offset dr dc ≠ p := by
  intro he
  obtain ⟨r, c⟩ := p
  simp only [Position.offset, Position.mk.injEq] at he
  omega

theorem rookScan_subset (b : Board) (c : Color) :
    ∀ l q, q ∈ Board.rookScan b c l → q ∈ l := by
  intro l
  induction l with
  | nil => intro q hq; simp [Board.rookScan] at hq
  | cons x rest ih =>
    intro q hq
    simp only [Board.rookScan] at hq
    rcases hx : b.get_piece x with _ | t <;> simp only [hx] at hq
    · simp only [List.mem_cons] at hq ⊢
      rcases hq with hq | hq
      · exact Or.inl hq
      · exact Or.inr (ih q hq)
    · by_cases hc : t.color = c
      · simp [hc] at hq
      · simp [hc] at hq
        simp [hq]

theorem cannonScan_subset (b : Board) (c : Color) :
    ∀ l platform q, q ∈ Board.cannonScan b c platform l → q ∈ l := by
  intro l
  induction l with
  | nil => intro platform q hq; simp [Board.cannonScan] at hq
  | cons x rest ih =>
    intro platform q hq
    simp only [Board.cannonScan] at hq
    rcases hx : b.get_piece x with _ | t <;> simp only [hx] at hq
    · cases platform with
      | true =>
        simp at hq
        exact List.mem_cons_of_mem _ (ih true q hq)
      | false =>
        simp at hq
        rcases hq with hq | hq
        · simp [hq]
        · exact List.mem_cons_of_mem _ (ih false q hq)
    · cases platform with
      | true =>
        by_cases hc : t.color = c
        · simp [hc] at hq
        · simp [hc] at hq
          simp [hq]
      | false =>
        simp at hq
        exact List.mem_cons_of_mem _ (ih true q hq)

theorem rayPositions_mem (pos : Position) (dr dc : Int) (q : Position)
    (hq : q ∈ Board.rayPositions pos dr dc) :
    q.is_valid = true ∧
      ∃ k : Nat, q = pos.offset ((k + 1 : Nat) * dr) ((k + 1 : Nat) * dc) := by
  constructor
  · exact List.mem_takeWhile_imp hq
  · have hq2 := (List.takeWhile_sublist _).mem hq
    rw [List.mem_map] at hq2
    obtain ⟨k, hk, he⟩ := hq2
    exact ⟨k, he.symm⟩



theorem wf_length (b : Board) (hwf : b.wf = true) : b.squares.length = 90 := by
  simp only [Board.wf, Bool.and_eq_true, decide_eq_true_eq] at hwf
  exact hwf.1.1

theorem wf_square (b : Board) (hwf : b.wf = true) (i : Nat) (hi : i < 90)
    (p : Piece) (hp : b.squares.getD i none = some p) :
    p.position = Position.from_index i ∧
    (p.is_hidden = true → p.actual_type = none) ∧
    (p.get_movement_type = PieceType.King →
      b.find_king p.color = some p.position) := by
  simp only [Board.wf, Bool.and_eq_true, decide_eq_true_eq,
    List.all_eq_true] at hwf
  have h := hwf.1.2 i (List.mem_range.mpr hi)
  simp only [hp, Bool.and_eq_true, decide_eq_true_eq] at h
  refine ⟨h.1.1, ?_, ?_⟩
  · intro hh
    have h2 := h.1.2
    rw [hh] at h2
    simp only [if_true, ite_true, Bool.and_eq_true, decide_eq_true_eq] at h2
    exact h2.1
  · intro hk
    have h2 := h.2
    rw [if_pos hk] at h2
    simpa using h2

theorem wf_kings (b : Board) (hwf : b.wf = true) (c : Color) (kp : Position)
    (hk : b.find_king c = some kp) :
    kp.is_valid = true ∧ ∃ t, b.get_piece kp = some t ∧ t.color = c ∧
      t.get_movement_type = PieceType.King := by
  simp only [Board.wf, Bool.and_eq_true, decide_eq_true_eq,
    List.all_eq_true] at hwf
  have h := hwf.2 c (by cases c <;> simp)
  simp only [hk] at h
  rcases ht : b.get_piece kp with _ | t
  · simp [ht] at h
  · simp only [ht, Bool.and_eq_true, decide_eq_true_eq] at h
    exact ⟨h.1, t, rfl, h.2.1, h.2.2⟩



theorem opposite_ne (c : Color) : c.opposite ≠ c := by
  cases c <;> simp [Color.opposite]

theorem potential_moves_valid_ne (b : Board) (p : Piece) (q : Position)
    (hwf : b.wf = true) (hself : b.get_piece p.position = some p)
    (hq : q ∈ b.get_potential_moves p) :
    q.is_valid = true ∧ q ≠ p.position := by
  unfold Board.get_potential_moves at hq
  cases hmt : p.get_movement_type with
  | King =>
    rw [hmt] at hq
    simp only [Board.get_king_moves, List.mem_append, List.mem_filterMap] at hq
    rcases hq with ⟨d, hd, he⟩ | hfly
    · fin_cases hd <;>
      · split at he
        · rename_i hcond
          simp only [Bool.and_eq_true] at hcond
          obtain rfl := (Option.some.inj he).symm
          exact ⟨can_move_to_valid _ _ _ hcond.2, offset_ne _ _ _ (by decide)⟩
        · exact absurd he (by simp)
    · rcases hek : b.find_king p.color.opposite with _ | ekp <;>
        simp only [hek] at hfly
      · simp at hfly
      · obtain ⟨hv, t, htp, htc, htk⟩ := wf_kings b hwf _ _ hek
        by_cases hcol : ekp.col = p.position.col
        · rw [if_pos hcol] at hfly
          split at hfly
          · simp only [List.mem_singleton] at hfly
            subst hfly
            refine ⟨hv, ?_⟩
            intro heq
            rw [heq, hself] at htp
            have ht : t = p := (Option.some.inj htp).symm
            rw [ht] at htc
            exact opposite_ne p.color htc.symm
          · simp at hfly
        · rw [if_neg hcol] at hfly
          simp at hfly
  | Advisor =>
    rw [hmt] at hq
    simp only [Board.get_advisor_moves, List.mem_filterMap] at hq
    obtain ⟨d, hd, he⟩ := hq
    fin_cases hd <;>
    · split at he
      · exact absurd he (by simp)
      · split at he
        · rename_i hcm
          obtain rfl := (Option.some.inj he).symm
          exact ⟨can_move_to_valid _ _ _ hcm, offset_ne _ _ _ (by decide)⟩
        · exact absurd he (by simp)
  | Elephant =>
    rw [hmt] at hq
    simp only [Board.get_elephant_moves, List.mem_filterMap] at hq
    obtain ⟨d, hd, he⟩ := hq
    fin_cases hd <;>
    · split at he
      · exact absurd he (by simp)
      · split at he
        · exact absurd he (by simp)
        · split at he
          · rename_i hcm
            simp only [Bool.and_eq_true] at hcm
            obtain rfl := (Option.some.inj he).symm
            exact ⟨hcm.1, offset_ne _ _ _ (by decide)⟩
          · exact absurd he (by simp)
  | Horse =>
    rw [hmt] at hq
    simp only [Board.get_horse_moves, Board.horseDirections,
      List.mem_filterMap] at hq
    obtain ⟨d, hd, he⟩ := hq
    fin_cases hd <;>
    · split at he
      · exact absurd he (by simp)
      · split at he
        · rename_i hcm
          simp only [Bool.and_eq_true] at hcm
          obtain rfl := (Option.some.inj he).symm
          exact ⟨hcm.1, offset_ne _ _ _ (by decide)⟩
        · exact absurd he (by simp)
  | Rook =>
    rw [hmt] at hq
    simp only [Board.get_rook_moves, List.mem_flatMap] at hq
    obtain ⟨d, hd, hscan⟩ := hq
    have hray := rookScan_subset b p.color _ q hscan
    obtain ⟨hv, k, hk⟩ := rayPositions_mem _ _ _ _ hray
    subst hk
    refine ⟨hv, ?_⟩
    fin_cases hd <;>
    · apply offset_ne
      push_cast
      omega
  | Cannon =>
    rw [hmt] at hq
    simp only [Board.get_cannon_moves, List.mem_flatMap] at hq
    obtain ⟨d, hd, hscan⟩ := hq
    have hray := cannonScan_subset b p.color _ false q hscan
    obtain ⟨hv, k, hk⟩ := rayPositions_mem _ _ _ _ hray
    subst hk
    refine ⟨hv, ?_⟩
    fin_cases hd <;>
    · apply offset_ne
      push_cast
      omega
  | Pawn =>
    rw [hmt] at hq
    simp only [Board.get_pawn_moves, List.mem_append] at hq
    rcases hq with hfwd | hside
    · by_cases hr : p.color = Color.Red <;> simp [hr] at hfwd <;>
        obtain ⟨⟨hv, -⟩, rfl⟩ := hfwd <;>
        exact ⟨hv, offset_ne _ _ _ (by decide)⟩
    · by_cases hr : p.color = Color.Red <;> simp [hr] at hside <;>
        obtain ⟨-, ⟨⟨hv, -⟩, rfl⟩ | ⟨⟨hv, -⟩, rfl⟩⟩ := hside <;>
        exact ⟨hv, offset_ne _ _ _ (by decide)⟩



theorem myPieces_self (b : Board) (c : Color) (info : Position × Bool × PieceType)
    (hwf : b.wf = true) (hinfo : info ∈ Board.myPieces b c) :
    ∃ pp : Piece, b.get_piece info.1 = some pp ∧ info.1 = pp.position ∧
      info.2.1 = pp.is_hidden ∧ info.2.2 = pp.get_movement_type ∧
      pp.color = c := by
  simp only [Board.myPieces, List.mem_map, List.mem_filter,
    List.mem_filterMap] at hinfo
  obtain ⟨pp, ⟨⟨oq, hoq, hoqe⟩, hcol⟩, hie⟩ := hinfo
  have hoq2 : oq = some pp := by simpa using hoqe
  subst hoq2
  subst hie
  rw [List.mem_iff_getElem?] at hoq
  obtain ⟨i, hi⟩ := hoq
  obtain ⟨hilt, hget⟩ := List.getElem?_eq_some_iff.mp hi
  have hi90 : i < 90 := by
    rw [wf_length b hwf] at hilt
    exact hilt
  have hgetD : b.squares.getD i none = some pp := by
    rw [List.getD_eq_getElem?_getD, hi]
    rfl
  have hw := wf_square b hwf i hi90 pp hgetD
  have hgp : b.get_piece pp.position = some pp := by
    rw [Board.get_piece, hw.1, if_pos (from_index_valid i hi90),
      to_from_index i hi90]
    exact hgetD
  exact ⟨pp, hgp, rfl, rfl, rfl, by simpa using hcol⟩

theorem legal_move_data (b : Board) (c : Color) (mv : JieqiMove)
    (hwf : b.wf = true) (hmem : mv ∈ b.get_legal_moves c) :
    ∃ p king_pos, b.find_king c = some king_pos ∧
      b.get_piece mv.from_pos = some p ∧ p.color = c ∧
      mv.to_pos ∈ b.get_potential_moves p ∧
      mv.action_type = (if p.is_hidden then ActionType.RevealAndMove
        else ActionType.Move) ∧ p.position = mv.from_pos ∧
      (b.make_move mv).1.is_position_attacked
        (if p.get_movement_type = PieceType.King then mv.to_pos
         else ((b.make_move mv).1.find_king c).getD king_pos)
        c.opposite = false := by
  rw [Board.get_legal_moves] at hmem
  rcases hk : b.find_king c with _ | king_pos <;> simp only [hk] at hmem
  · simp at hmem
  · rw [List.mem_flatMap] at hmem
    obtain ⟨info, hinfo, hmv⟩ := hmem
    obtain ⟨pp, hgp, hpos, hhid, hmt, hcol⟩ := myPieces_self b c info hwf hinfo
    simp only [hgp, List.mem_filterMap] at hmv
    obtain ⟨to_pos, hto, he⟩ := hmv
    rw [hhid, hmt] at he
    cases hb : pp.is_hidden with
    | false =>
      simp only [hb] at he
      simp at he
      obtain ⟨hchk, he2⟩ := he
      subst he2
      exact ⟨pp, king_pos, rfl, hgp, hcol, hto, by simp [hb], hpos.symm,
        by simpa using hchk⟩
    | true =>
      simp only [hb] at he
      simp at he
      obtain ⟨hchk, he2⟩ := he
      subst he2
      exact ⟨pp, king_pos, rfl, hgp, hcol, hto, by simp [hb], hpos.symm,
        by simpa using hchk⟩



/-- C2: for every well-formed board and every move legal in it (with `p` the
piece at the move's origin, so `p.is_hidden` is the prior hidden flag),
`make_move` followed by `undo_move` with the returned capture restores the
board exactly: all 90 squares (every stored field of every piece), both
king-position caches, and the side-to-move. -/
theorem make_move_undo_move_roundtrip (b : Board) (c : Color) (mv : JieqiMove)
    (p : Piece) (hwf : b.wf = true) (hmem : mv ∈ b.get_legal_moves c)
    (hp : b.get_piece mv.from_pos = some p) :
    Board.undo_move (b.make_move mv).1 mv (b.make_move mv).2 p.is_hidden = b := by
  obtain ⟨p2, king_pos, hkp, hp2, hpcol, hto, hact, hposeq, hchk⟩ :=
    legal_move_data b c mv hwf hmem
  have hpe : p2 = p := Option.some.inj (hp2.symm.trans hp)
  subst hpe
  have hlen := wf_length b hwf
  have hfromv : mv.from_pos.is_valid = true := get_piece_valid _ _ _ hp
  have hpD : b.squares.getD mv.from_pos.to_index none = some p2 :=
    get_piece_getD _ _ _ hp
  have hself : b.get_piece p2.position = some p2 := by
    rw [hposeq]
    exact hp
  obtain ⟨htov, hneq⟩ := potential_moves_valid_ne b p2 mv.to_pos hwf hself hto
  have hne : mv.from_pos.to_index ≠ mv.to_pos.to_index := by
    intro h
    exact hneq ((to_index_inj mv.from_pos mv.to_pos hfromv htov
      h).symm.trans hposeq.symm)
  have hw := wf_square b hwf mv.from_pos.to_index (to_index_lt _ hfromv) p2 hpD
  have hkingcap : ∀ t, b.squares.getD mv.to_pos.to_index none = some t →
      t.get_movement_type = PieceType.King →
      b.find_king t.color = some mv.to_pos := by
    intro t ht hk
    have hwt := wf_square b hwf mv.to_pos.to_index (to_index_lt _ htov) t ht
    have hfk := hwt.2.2 hk
    rw [hwt.1, from_to_index _ htov] at hfk
    exact hfk
  exact undo_make_move b mv p2 hlen hpD hposeq hfromv htov hne hw.2.1 hact
    (fun hk => hw.2.2 hk) hkingcap


/-- C2 (witness): revealing the hidden a0 piece to a1 on the two-kings board
and undoing restores the position exactly. -/
theorem make_move_undo_move_roundtrip_witness :
    Board.undo_move
      (hiddenA0Board.make_move
        ⟨ActionType.RevealAndMove, ⟨0, 0⟩, ⟨1, 0⟩⟩).1
      ⟨ActionType.RevealAndMove, ⟨0, 0⟩, ⟨1, 0⟩⟩
      (hiddenA0Board.make_move
        ⟨ActionType.RevealAndMove, ⟨0, 0⟩, ⟨1, 0⟩⟩).2
      (⟨Color.Red, ⟨0, 0⟩, true, none,
        some PieceType.Rook⟩ : Piece).is_hidden =
      hiddenA0Board :=
  make_move_undo_move_roundtrip hiddenA0Board Color.Red
    ⟨ActionType.RevealAndMove, ⟨0, 0⟩, ⟨1, 0⟩⟩
    ⟨Color.Red, ⟨0, 0⟩, true, none, some PieceType.Rook⟩
    (by decide) (by decide) (by decide)


theorem can_move_to_color (b : Board) (p : Piece) (q : Position)
    (h : b.can_move_to p q = true) :
    ∀ t, b.get_piece q = some t → t.color ≠ p.color := by
  intro t ht
  have hv := get_piece_valid b q t ht
  simp [Board.can_move_to, hv, ht] at h
  exact h

theorem rookScan_capture (b : Board) (c : Color) :
    ∀ l q, q ∈ Board.rookScan b c l →
      ∀ t, b.get_piece q = some t → t.color ≠ c := by
  intro l
  induction l with
  | nil => intro q hq; simp [Board.rookScan] at hq
  | cons x rest ih =>
    intro q hq t ht
    simp only [Board.rookScan] at hq
    rcases hx : b.get_piece x with _ | tg <;> simp only [hx] at hq
    · simp only [List.mem_cons] at hq
      rcases hq with hq | hq
      · subst hq
        rw [hx] at ht
        exact absurd ht (by simp)
      · exact ih q hq t ht
    · by_cases hc : tg.color = c
      · simp [hc] at hq
      · simp [hc] at hq
        subst hq
        rw [hx] at ht
        have htg : tg = t := Option.some.inj ht
        rw [← htg]
        exact hc
    
theorem cannonScan_capture (b : Board) (c : Color) :
    ∀ l platform q, q ∈ Board.cannonScan b c platform l →
      ∀ t, b.get_piece q = some t → t.color ≠ c := by
  intro l
  induction l with
  | nil => intro platform q hq; simp [Board.cannonScan] at hq
  | cons x rest ih =>
    intro platform q hq t ht
    simp only [Board.cannonScan] at hq
    rcases hx : b.get_piece x with _ | tg <;> simp only [hx] at hq
    · cases platform with
      | true =>
        simp at hq
        exact ih true q hq t ht
      | false =>
        simp at hq
        rcases hq with hq | hq
        · subst hq
          rw [hx] at ht
          exact absurd ht (by simp)
        · exact ih false q hq t ht
    · cases platform with
      | true =>
        by_cases hc : tg.color = c
        · simp [hc] at hq
        · simp [hc] at hq
          subst hq
          rw [hx] at ht
          have htg : tg = t := Option.some.inj ht
          rw [← htg]
          exact hc
      | false =>
        simp at hq
        exact ih true q hq t ht


theorem potential_moves_no_own_capture (b : Board) (p : Piece) (q : Position)
    (hwf : b.wf = true)
    (hq : q ∈ b.get_potential_moves p) :
    ∀ t, b.get_piece q = some t → t.color ≠ p.color := by
  intro t ht
  unfold Board.get_potential_moves at hq
  cases hmt : p.get_movement_type with
  | King =>
    rw [hmt] at hq
    simp only [Board.get_king_moves, List.mem_append, List.mem_filterMap] at hq
    rcases hq with ⟨d, hd, he⟩ | hfly
    · fin_cases hd <;>
      · split at he
        · rename_i hcond
          simp only [Bool.and_eq_true] at hcond
          obtain rfl := (Option.some.inj he).symm
          exact can_move_to_color b p _ hcond.2 t ht
        · exact absurd he (by simp)
    · rcases hek : b.find_king p.color.opposite with _ | ekp <;>
        simp only [hek] at hfly
      · simp at hfly
      · obtain ⟨hv, tk, htp, htc, htk⟩ := wf_kings b hwf _ _ hek
        by_cases hcol : ekp.col = p.position.col
        · rw [if_pos hcol] at hfly
          split at hfly
          · simp only [List.mem_singleton] at hfly
            subst hfly
            rw [htp] at ht
            have htt : tk = t := Option.some.inj ht
            rw [← htt, htc]
            exact opposite_ne p.color
          · simp at hfly
        · rw [if_neg hcol] at hfly
          simp at hfly
  | Advisor =>
    rw [hmt] at hq
    simp only [Board.get_advisor_moves, List.mem_filterMap] at hq
    obtain ⟨d, hd, he⟩ := hq
    fin_cases hd <;>
    · split at he
      · exact absurd he (by simp)
      · split at he
        · rename_i hcm
          obtain rfl := (Option.some.inj he).symm
          exact can_move_to_color b p _ hcm t ht
        · exact absurd he (by simp)
  | Elephant =>
    rw [hmt] at hq
    simp only [Board.get_elephant_moves, List.mem_filterMap] at hq
    obtain ⟨d, hd, he⟩ := hq
    fin_cases hd <;>
    · split at he
      · exact absurd he (by simp)
      · split at he
        · exact absurd he (by simp)
        · split at he
          · rename_i hcm
            simp only [Bool.and_eq_true] at hcm
            obtain rfl := (Option.some.inj he).symm
            exact can_move_to_color b p _ hcm.2 t ht
          · exact absurd he (by simp)
  | Horse =>
    rw [hmt] at hq
    simp only [Board.get_horse_moves, Board.horseDirections,
      List.mem_filterMap] at hq
    obtain ⟨d, hd, he⟩ := hq
    fin_cases hd <;>
    · split at he
      · exact absurd he (by simp)
      · split at he
        · rename_i hcm
          simp only [Bool.and_eq_true] at hcm
          obtain rfl := (Option.some.inj he).symm
          exact can_move_to_color b p _ hcm.2 t ht
        · exact absurd he (by simp)
  | Rook =>
    rw [hmt] at hq
    simp only [Board.get_rook_moves, List.mem_flatMap] at hq
    obtain ⟨d, hd, hscan⟩ := hq
    exact rookScan_capture b p.color _ q hscan t ht
  | Cannon =>
    rw [hmt] at hq
    simp only [Board.get_cannon_moves, List.mem_flatMap] at hq
    obtain ⟨d, hd, hscan⟩ := hq
    exact cannonScan_capture b p.color _ false q hscan t ht
  | Pawn =>
    rw [hmt] at hq
    simp only [Board.get_pawn_moves, List.mem_append] at hq
    rcases hq with hfwd | hside
    · by_cases hr : p.color = Color.Red <;> simp [hr] at hfwd <;>
        obtain ⟨⟨-, hcm⟩, rfl⟩ := hfwd <;>
        exact can_move_to_color b p _ hcm t ht
    · by_cases hr : p.color = Color.Red <;> simp [hr] at hside <;>
        obtain ⟨-, ⟨⟨-, hcm⟩, rfl⟩ | ⟨⟨-, hcm⟩, rfl⟩⟩ := hside <;>
        exact can_move_to_color b p _ hcm t ht


theorem make_move_find_king (b : Board) (mv : JieqiMove) (p : Piece)
    (hp : b.squares.getD mv.from_pos.to_index none = some p)
    (hne : mv.from_pos.to_index ≠ mv.to_pos.to_index)
    (hact : mv.action_type =
      (if p.is_hidden then ActionType.RevealAndMove else ActionType.Move))
    (hcapcol : ∀ t, b.squares.getD mv.to_pos.to_index none = some t →
      t.color ≠ p.color) :
    (b.make_move mv).1.find_king p.color =
      (if p.get_movement_type = PieceType.King then some mv.to_pos
       else b.find_king p.color) := by
  obtain ⟨A, vw, ct, rk, bk⟩ := b
  simp only at hp hcapcol
  have hp2 : A[mv.from_pos.to_index]?.getD none = some p := by
    rw [← List.getD_eq_getElem?_getD]
    exact hp
  have hcapD : (A.set mv.from_pos.to_index
      none)[mv.to_pos.to_index]?.getD none =
      A[mv.to_pos.to_index]?.getD none := by
    rw [← List.getD_eq_getElem?_getD, ← List.getD_eq_getElem?_getD]
    exact getD_set_ne_none _ hne _
  rcases hcap : A[mv.to_pos.to_index]?.getD none with _ | cap
  · cases hh : p.is_hidden with
    | false =>
      have hact2 : mv.action_type = ActionType.Move := by
        rw [hact, hh]
        rfl
      cases hpc : p.color with
      | Red =>
        simp [Board.make_move, hp2, hcapD, hcap, hh, hact2, hpc,
          Board.find_king, Piece.get_movement_type]
      | Black =>
        simp [Board.make_move, hp2, hcapD, hcap, hh, hact2, hpc,
          Board.find_king, Piece.get_movement_type]
    | true =>
      have hact2 : mv.action_type = ActionType.RevealAndMove := by
        rw [hact, hh]
        rfl
      cases hpc : p.color with
      | Red =>
        simp [Board.make_move, hp2, hcapD, hcap, hh, hact2, hpc,
          Board.find_king, Piece.get_movement_type]
      | Black =>
        simp [Board.make_move, hp2, hcapD, hcap, hh, hact2, hpc,
          Board.find_king, Piece.get_movement_type]
  · have hcapG : A.getD mv.to_pos.to_index none = some cap := by
      rw [List.getD_eq_getElem?_getD]
      exact hcap
    have hcc := hcapcol cap hcapG
    cases hh : p.is_hidden with
    | false =>
      have hact2 : mv.action_type = ActionType.Move := by
        rw [hact, hh]
        rfl
      cases hpc : p.color with
      | Red =>
        rw [hpc] at hcc
        simp [Board.make_move, hp2, hcapD, hcap, hh, hact2, hpc, hcc,
          Board.find_king, Piece.get_movement_type]
      | Black =>
        rw [hpc] at hcc
        simp [Board.make_move, hp2, hcapD, hcap, hh, hact2, hpc, hcc,
          Board.find_king, Piece.get_movement_type]
    | true =>
      have hact2 : mv.action_type = ActionType.RevealAndMove := by
        rw [hact, hh]
        rfl
      cases hpc : p.color with
      | Red =>
        rw [hpc] at hcc
        simp [Board.make_move, hp2, hcapD, hcap, hh, hact2, hpc, hcc,
          Board.find_king, Piece.get_movement_type]
      | Black =>
        rw [hpc] at hcc
        simp [Board.make_move, hp2, hcapD, hcap, hh, hact2, hpc, hcc,
          Board.find_king, Piece.get_movement_type]

/-- C3: every move returned by `get_legal_moves c` names the action matching
the hidden flag of the moved piece (`RevealAndMove` for hidden pieces, `Move`
for revealed ones), and applying it leaves the board with `c`'s king - as
found by the updated king cache - on a square not attacked by the opponent
according to `is_position_attacked`. -/
theorem get_legal_moves_safe (b : Board) (c : Color) (mv : JieqiMove)
    (hwf : b.wf = true) (hmem : mv ∈ b.get_legal_moves c) :
    (∀ p, b.get_piece mv.from_pos = some p →
      mv.action_type =
        (if p.is_hidden then ActionType.RevealAndMove else ActionType.Move)) ∧
    (∀ kp, (b.make_move mv).1.find_king c = some kp →
      (b.make_move mv).1.is_position_attacked kp c.opposite = false) := by
  obtain ⟨p2, king_pos, hkp, hp2, hpcol, hto, hact, hposeq, hchk⟩ :=
    legal_move_data b c mv hwf hmem
  constructor
  · intro p hp
    have hpe : p = p2 := Option.some.inj (hp.symm.trans hp2)
    subst hpe
    exact hact
  · intro kp hkpnew
    have hfromv := get_piece_valid _ _ _ hp2
    have hpD := get_piece_getD _ _ _ hp2
    have hself : b.get_piece p2.position = some p2 := by
      rw [hposeq]
      exact hp2
    obtain ⟨htov, hneq⟩ := potential_moves_valid_ne b p2 mv.to_pos hwf hself hto
    have hne : mv.from_pos.to_index ≠ mv.to_pos.to_index := by
      intro h
      exact hneq ((to_index_inj mv.from_pos mv.to_pos hfromv htov
        h).symm.trans hposeq.symm)
    have hcapcol : ∀ t, b.squares.getD mv.to_pos.to_index none = some t →
        t.color ≠ p2.color := by
      intro t htq
      have htg : b.get_piece mv.to_pos = some t := by
        rw [Board.get_piece, if_pos htov]
        exact htq
      exact potential_moves_no_own_capture b p2 mv.to_pos hwf hto t htg
    have hfind := make_move_find_king b mv p2 hpD hne hact hcapcol
    rw [hpcol] at hfind
    by_cases hk2 : p2.get_movement_type = PieceType.King
    · rw [if_pos hk2] at hfind
      rw [hfind] at hkpnew
      have hkpe : kp = mv.to_pos := (Option.some.inj hkpnew).symm
      subst hkpe
      rw [if_pos hk2] at hchk
      exact hchk
    · rw [if_neg hk2] at hfind
      rw [hfind, hkp] at hkpnew
      have hkpe : kp = king_pos := (Option.some.inj hkpnew).symm
      subst hkpe
      rw [if_neg hk2, hfind, hkp] at hchk
      simpa using hchk

/-- C3 (witness): after the legal reveal a0-a1 on the two-kings board, the
red king cache names e0 and e0 is not attacked by Black. -/
theorem get_legal_moves_safe_witness :
    (hiddenA0Board.make_move
      ⟨ActionType.RevealAndMove, ⟨0, 0⟩, ⟨1, 0⟩⟩).1.is_position_attacked
      ⟨0, 4⟩ Color.Black = false :=
  (get_legal_moves_safe hiddenA0Board Color.Red
    ⟨ActionType.RevealAndMove, ⟨0, 0⟩, ⟨1, 0⟩⟩
    (by decide) (by decide)).2 ⟨0, 4⟩ (by decide)


theorem capFold (upper : Bool) : ∀ cs : List Char,
    (∀ c ∈ cs, c ∈ ('?' :: (if upper then ['K', 'A', 'E', 'H', 'R', 'C', 'P']
      else ['k', 'a', 'e', 'h', 'r', 'c', 'p']))) →
    ∃ infos : List CapturedPieceInfo,
      cs.foldr (fun c acc => do
        let rest ← acc
        if c = '?' then
          return ⟨none, true⟩ :: rest
        else
          match PieceType.from_fen_char c with
          | none => none
          | some piece_type =>
            return ⟨some piece_type, c.isLower⟩ :: rest) (some []) = some infos ∧
      infos.map (fun ci =>
        match ci.piece_type with
        | some pt => if upper then pt.to_fen_char.toUpper else pt.to_fen_char
        | none => '?') = cs ∧
      infos.length = cs.length := by
  cases upper <;>
  · intro cs
    induction cs with
    | nil => intro _; exact ⟨[], rfl, rfl, rfl⟩
    | cons c cr ih =>
      intro hall
      obtain ⟨infos, hf, hm, hl⟩ :=
        ih (fun d hd => hall d (List.mem_cons_of_mem _ hd))
      have hc := hall c (List.mem_cons_self _ _)
      rw [List.foldr_cons, hf]
      fin_cases hc <;>
        refine ⟨_ :: infos, rfl, ?_, by simp [hl]⟩ <;>
        rw [List.map_cons, hm] <;> (congr 1 <;> decide)

theorem capSideRT (upper : Bool) (cs : List Char)
    (h : canonicalCapSide upper cs = true) :
    ∃ infos, parseCapturedSide cs = some infos ∧
      emitCapturedSide upper infos = cs := by
  simp only [canonicalCapSide, Bool.or_eq_true, beq_iff_eq, Bool.and_eq_true,
    Bool.not_eq_true', List.all_eq_true, decide_eq_true_eq] at h
  rcases h with h | ⟨hne, hall⟩
  · subst h
    exact ⟨[], rfl, rfl⟩
  · obtain ⟨infos, hf, hm, hl⟩ := capFold upper cs hall
    have hcsne : cs ≠ ['-'] := by
      intro he
      subst he
      have := hall '-' (List.mem_singleton.mpr rfl)
      cases upper <;> simp at this
    refine ⟨infos, ?_, ?_⟩
    · rw [parseCapturedSide, if_neg hcsne]
      exact hf
    · rw [emitCapturedSide]
      have hie : infos.isEmpty = false := by
        cases infos with
        | nil =>
          cases cs with
          | nil => simp at hne
          | cons a as => simp at hl
        | cons a as => rfl
      simp [hie, hm]


theorem foldr_splitWsStep_nonws : ∀ (f : List Char)
    (acc : List (List Char) × List Char),
    (∀ c ∈ f, c.isWhitespace = false) →
    f.foldr splitWsStep acc = (acc.1, f ++ acc.2) := by
  intro f
  induction f with
  | nil => intro acc _; rfl
  | cons c f2 ih =>
    intro acc hnw
    rw [List.foldr_cons, ih acc (fun d hd => hnw d (List.mem_cons_of_mem _ hd))]
    simp [splitWsStep, hnw c (List.mem_cons_self _ _)]

theorem foldr_ws_inter : ∀ (fs : List (List Char)) (f : List Char),
    (∀ g ∈ f :: fs, g ≠ [] ∧ ∀ c ∈ g, c.isWhitespace = false) →
    (List.intercalate [' '] (f :: fs)).foldr splitWsStep ([], []) = (fs, f) := by
  intro fs
  induction fs with
  | nil =>
    intro f h
    rw [show List.intercalate [' '] [f] = f from by simp [List.intercalate]]
    rw [foldr_splitWsStep_nonws f ([], [])
      (h f (List.mem_cons_self _ _)).2]
    simp
  | cons g gs ih =>
    intro f h
    rw [show List.intercalate [' '] (f :: g :: gs) =
        f ++ ' ' :: List.intercalate [' '] (g :: gs) from by
      simp [List.intercalate, List.intersperse]]
    rw [List.foldr_append, List.foldr_cons,
      ih g (fun d hd => h d (List.mem_cons_of_mem _ hd))]
    have hg := (h g (List.mem_cons_of_mem _ (List.mem_cons_self _ _))).1
    rw [show splitWsStep ' ' (gs, g) = (g :: gs, []) from by
      simp [splitWsStep, hg]]
    rw [foldr_splitWsStep_nonws f (g :: gs, [])
      (h f (List.mem_cons_self _ _)).2]
    simp

theorem splitWs_fields (fields : List (List Char))
    (h : ∀ g ∈ fields, g ≠ [] ∧ ∀ c ∈ g, c.isWhitespace = false)
    (hne : fields ≠ []) :
    splitWs (List.intercalate [' '] fields) = fields := by
  obtain ⟨f, fs, rfl⟩ : ∃ f fs, fields = f :: fs := by
    cases fields with
    | nil => exact absurd rfl hne
    | cons f fs => exact ⟨f, fs, rfl⟩
  rw [splitWs]
  rw [foldr_ws_inter fs f h]
  have hf := (h f (List.mem_cons_self _ _)).1
  simp [hf]


theorem emitRowGo_pending (cells : List (Option FenPiece)) (e : Nat)
    (h : cells = [] ∨ ∃ p cs2, cells = some p :: cs2) (he : 0 < e) :
    emitRowGo cells e = Nat.digitChar e :: emitRowGo cells 0 := by
  rcases h with rfl | ⟨p, cs2, rfl⟩ <;> simp [emitRowGo, he]

theorem cellsFrom_cons (ps : List FenPiece) (col : Nat) (hcol : col < 9) :
    cellsFrom ps col =
      ps.find? (fun p => p.position.col == (col : Int)) ::
        cellsFrom ps (col + 1) := by
  rw [cellsFrom, show 9 - col = (9 - (col + 1)) + 1 from by omega,
    List.range_succ_eq_map, List.map_cons, List.map_map]
  refine congrArg₂ _ ?_ ?_
  · simp
  · rw [cellsFrom]
    refine List.map_congr_left ?_
    intro k hk
    have hcast : ((col + Nat.succ k : Nat) : Int) = ((col + 1 + k : Nat) : Int) := by
      push_cast
      omega
    simp only [Function.comp, hcast]

theorem cellsFrom_leading_none (ps : List FenPiece) :
    ∀ (d col : Nat), col + d ≤ 9 →
    (∀ p ∈ ps, ((col + d : Nat) : Int) ≤ p.position.col) →
    cellsFrom ps col = List.replicate d none ++ cellsFrom ps (col + d) := by
  intro d
  induction d with
  | zero => intro col _ _; simp
  | succ d2 ih =>
    intro col hle hpos
    have hn : List.find? (fun p => p.position.col == (col : Int)) ps = none := by
      rw [List.find?_eq_none]
      intro p hp
      have h2 := hpos p hp
      simp only [beq_iff_eq]
      intro he
      rw [he] at h2
      push_cast at h2
      omega
    rw [cellsFrom_cons ps col (by omega), hn,
      ih (col + 1) (by omega) (fun p hp => by
        have h3 := hpos p hp
        push_cast at h3 ⊢
        omega)]
    rw [show col + 1 + d2 = col + (d2 + 1) from by omega]
    simp [List.replicate_succ]


theorem parseRow_piece_char (row : Int) (c : Char) (rest : List Char)
    (colI : Int)
    (hpc : c ∈ ['K', 'A', 'E', 'H', 'R', 'C', 'P', 'k', 'a', 'e', 'h', 'r',
      'c', 'p', 'X', 'x'])
    (h9 : ¬ (9 ≤ colI)) :
    parseRowChars row (c :: rest) colI =
      (parseRowChars row rest (colI + 1)).map
        (fun ps => pieceOfChar c row colI :: ps) := by
  fin_cases hpc <;> simp [parseRowChars, pieceOfChar, Position.new, h9] <;> rfl

theorem fenPieceChars_pieceOfChar (c : Char) (row colI : Int)
    (hpc : c ∈ ['K', 'A', 'E', 'H', 'R', 'C', 'P', 'k', 'a', 'e', 'h', 'r',
      'c', 'p', 'X', 'x']) :
    fenPieceChars (pieceOfChar c row colI) = [c] := by
  fin_cases hpc <;> simp [fenPieceChars, pieceOfChar] <;> decide

theorem cellsFrom_skip (p : FenPiece) (ps : List FenPiece) (col2 : Nat)
    (h : p.position.col < (col2 : Int)) :
    cellsFrom (p :: ps) col2 = cellsFrom ps col2 := by
  rw [cellsFrom, cellsFrom]
  refine List.map_congr_left ?_
  intro k hk
  refine List.find?_cons_of_neg _ ?_
  simp only [beq_iff_eq]
  intro he
  rw [he] at h
  push_cast at h
  omega

theorem emitRowGo_replicate : ∀ (d : Nat) (cells : List (Option FenPiece))
    (e : Nat),
    emitRowGo (List.replicate d none ++ cells) e = emitRowGo cells (e + d) := by
  intro d
  induction d with
  | zero => intro cells e; simp
  | succ d2 ih =>
    intro cells e
    rw [List.replicate_succ, List.cons_append]
    rw [show emitRowGo (none :: (List.replicate d2 none ++ cells)) e =
      emitRowGo (List.replicate d2 none ++ cells) (e + 1) from rfl]
    rw [ih cells (e + 1)]
    congr 1
    omega


theorem pieceOfChar_position (c : Char) (row colI : Int) :
    (pieceOfChar c row colI).position = ⟨row, colI⟩ := by
  rw [pieceOfChar]
  split
  · rfl
  · split <;> rfl

theorem rowRT (row : Int) : ∀ (rs : List Char) (col : Nat) (prev : Bool),
    canonicalRowAux rs col prev = true →
    ∃ ps, parseRowChars row rs (col : Int) = some ps ∧
      (∀ p ∈ ps, p.position.row = row ∧ (col : Int) ≤ p.position.col ∧
        p.position.col ≤ 8) ∧
      List.Pairwise (fun a b => a.position.col < b.position.col) ps ∧
      emitRowGo (cellsFrom ps col) 0 = rs ∧
      (prev = true → cellsFrom ps col = [] ∨
        ∃ p cs2, cellsFrom ps col = some p :: cs2) := by
  intro rs
  induction rs with
  | nil =>
    intro col prev h
    have hc : col = 9 := by simpa [canonicalRowAux] using h
    subst hc
    have hcells : cellsFrom ([] : List FenPiece) 9 = [] := by simp [cellsFrom]
    refine ⟨[], by simp [parseRowChars], by simp, by simp, ?_,
      fun _ => Or.inl hcells⟩
    rw [hcells]
    simp [emitRowGo]
  | cons c rest ih =>
    intro col prev h
    simp only [canonicalRowAux, Bool.or_eq_true, Bool.and_eq_true,
      decide_eq_true_eq, Bool.not_eq_true'] at h
    rcases h with ⟨⟨⟨hdig, hprev⟩, hle⟩, haux⟩ | ⟨⟨hpc, hle⟩, haux⟩
    · have hcd : c.isDigit = true := by fin_cases hdig <;> decide
      have hd1 : 1 ≤ c.toNat - 48 := by fin_cases hdig <;> decide
      have hdchar : Nat.digitChar (c.toNat - 48) = c := by
        fin_cases hdig <;> decide
      have hcast : (c.toNat : Int) - ('0'.toNat : Int) =
          ((c.toNat - 48 : Nat) : Int) := by
        fin_cases hdig <;> decide
      obtain ⟨ps, hparse, hbounds, hpair, hemit, hshape⟩ := ih _ _ haux
      have hsh := hshape rfl
      have h9 : ¬ (9 ≤ (col : Int)) := by omega
      refine ⟨ps, ?_, ?_, hpair, ?_, ?_⟩
      · rw [show parseRowChars row (c :: rest) (col : Int) =
            parseRowChars row rest ((col : Int) +
              ((c.toNat : Int) - ('0'.toNat : Int))) from by
          simp only [parseRowChars]
          rw [if_neg h9, if_pos hcd]]
        rw [hcast, show (col : Int) + ((c.toNat - 48 : Nat) : Int) =
          ((col + (c.toNat - 48) : Nat) : Int) from by push_cast; ring]
        exact hparse
      · intro p hp
        have hb := hbounds p hp
        refine ⟨hb.1, ?_, hb.2.2⟩
        have hb2 := hb.2.1
        push_cast at hb2 ⊢
        omega
      · have hb2 : ∀ p ∈ ps, ((col + (c.toNat - 48) : Nat) : Int) ≤
            p.position.col := fun p hp => (hbounds p hp).2.1
        rw [cellsFrom_leading_none ps (c.toNat - 48) col hle hb2,
          emitRowGo_replicate, Nat.zero_add,
          emitRowGo_pending _ _ hsh (by omega), hemit, hdchar]
      · intro hp
        rw [hp] at hprev
        simp at hprev
    · have h9 : ¬ (9 ≤ (col : Int)) := by omega
      obtain ⟨ps, hparse, hbounds, hpair, hemit, -⟩ := ih _ _ haux
      refine ⟨pieceOfChar c row col :: ps, ?_, ?_, ?_, ?_, ?_⟩
      · rw [parseRow_piece_char row c rest (col : Int) hpc h9]
        rw [show (col : Int) + 1 = ((col + 1 : Nat) : Int) from by
          push_cast; ring]
        rw [hparse]
        rfl
      · intro p hp
        rcases List.mem_cons.mp hp with rfl | hp2
        · refine ⟨by simp [pieceOfChar_position], by simp [pieceOfChar_position],
            ?_⟩
          rw [pieceOfChar_position]
          push_cast
          omega
        · have hb := hbounds p hp2
          refine ⟨hb.1, ?_, hb.2.2⟩
          have hb2 := hb.2.1
          push_cast at hb2 ⊢
          omega
      · refine List.Pairwise.cons ?_ hpair
        intro b hb
        have hb2 := (hbounds b hb).2.1
        rw [pieceOfChar_position]
        push_cast at hb2 ⊢
        omega
      · rw [cellsFrom_cons _ col (by omega),
          List.find?_cons_of_pos _ (by simp [pieceOfChar_position]),
          cellsFrom_skip _ _ _ (by rw [pieceOfChar_position]; push_cast; omega)]
        rw [show emitRowGo (some (pieceOfChar c row col) ::
            cellsFrom ps (col + 1)) 0 =
            fenPieceChars (pieceOfChar c row col) ++
              emitRowGo (cellsFrom ps (col + 1)) 0 from by
          simp [emitRowGo]]
        rw [hemit, fenPieceChars_pieceOfChar c row col hpc]
        rfl
      · intro hp2
        right
        refine ⟨pieceOfChar c row col, cellsFrom ps (col + 1), ?_⟩
        rw [cellsFrom_cons _ col (by omega),
          List.find?_cons_of_pos _ (by simp [pieceOfChar_position]),
          cellsFrom_skip _ _ _ (by rw [pieceOfChar_position]; push_cast; omega)]


theorem getD_set_ne_fp (l : List (Option FenPiece)) {i j : Nat} (h : i ≠ j)
    (a : Option FenPiece) : (l.set i a).getD j none = l.getD j none := by
  rw [List.getD_eq_getElem?_getD, List.getElem?_set_ne h,
    ← List.getD_eq_getElem?_getD]

theorem getD_set_self_fp (l : List (Option FenPiece)) (i : Nat)
    (a : Option FenPiece) (h : i < l.length) :
    (l.set i a).getD i none = a := by
  rw [List.getD_eq_getElem?_getD, List.getElem?_set_self h]
  rfl

theorem fenMatrix_step_length (init : List (Option FenPiece)) (p : FenPiece) :
    (if 0 ≤ p.position.row ∧ p.position.row < 10 ∧ 0 ≤ p.position.col ∧
        p.position.col < 9 then
      init.set (p.position.row * 9 + p.position.col).toNat (some p)
    else init).length = init.length := by
  split
  · rw [List.length_set]
  · rfl

theorem fenMatrix_fold_length : ∀ (ps : List FenPiece)
    (init : List (Option FenPiece)),
    (ps.foldl (fun m p =>
      if 0 ≤ p.position.row ∧ p.position.row < 10 ∧ 0 ≤ p.position.col ∧
          p.position.col < 9 then
        m.set (p.position.row * 9 + p.position.col).toNat (some p)
      else m) init).length = init.length := by
  intro ps
  induction ps with
  | nil => intro init; rfl
  | cons q rest ih =>
    intro init
    rw [List.foldl_cons, ih, fenMatrix_step_length]

theorem fenMatrix_fold_untouched : ∀ (ps : List FenPiece)
    (init : List (Option FenPiece)) (j : Nat),
    (∀ p ∈ ps, (p.position.row * 9 + p.position.col).toNat ≠ j) →
    (ps.foldl (fun m p =>
      if 0 ≤ p.position.row ∧ p.position.row < 10 ∧ 0 ≤ p.position.col ∧
          p.position.col < 9 then
        m.set (p.position.row * 9 + p.position.col).toNat (some p)
      else m) init).getD j none = init.getD j none := by
  intro ps
  induction ps with
  | nil => intro init j _; rfl
  | cons q rest ih =>
    intro init j hne
    rw [List.foldl_cons, ih _ j (fun p hp => hne p (List.mem_cons_of_mem _ hp))]
    split
    · exact getD_set_ne_fp _ (hne q (List.mem_cons_self _ _)) _
    · rfl

theorem fenMatrix_fold_hit : ∀ (ps : List FenPiece)
    (init : List (Option FenPiece)) (j : Nat) (p : FenPiece),
    init.length = 90 → p ∈ ps →
    (p.position.row * 9 + p.position.col).toNat = j →
    (0 ≤ p.position.row ∧ p.position.row < 10 ∧ 0 ≤ p.position.col ∧
      p.position.col < 9) →
    (∀ q ∈ ps, (q.position.row * 9 + q.position.col).toNat = j → q = p) →
    (ps.foldl (fun m p =>
      if 0 ≤ p.position.row ∧ p.position.row < 10 ∧ 0 ≤ p.position.col ∧
          p.position.col < 9 then
        m.set (p.position.row * 9 + p.position.col).toNat (some p)
      else m) init).getD j none = some p := by
  intro ps
  induction ps with
  | nil => intro init j p _ hp; simp at hp
  | cons q rest ih =>
    intro init j p hlen hp hj hb huniq
    rw [List.foldl_cons]
    by_cases hqr : p ∈ rest
    · exact ih _ j p (by rw [fenMatrix_step_length]; exact hlen) hqr hj hb
        (fun r hr hrj => huniq r (List.mem_cons_of_mem _ hr) hrj)
    · have hqp : q = p := by
        rcases List.mem_cons.mp hp with h1 | h1
        · exact h1.symm
        · exact absurd h1 hqr
      subst hqp
      rw [fenMatrix_fold_untouched rest _ j ?hrest]
      case hrest =>
        intro r hr hrj
        exact hqr ((huniq r (List.mem_cons_of_mem _ hr) hrj) ▸ hr)
      rw [if_pos hb]
      rw [hj]
      exact getD_set_self_fp _ j _ (by rw [hlen]; omega)


theorem replicate_getD_none (j n : Nat) :
    (List.replicate n (none : Option FenPiece)).getD j none = none := by
  rw [List.getD_eq_getElem?_getD, List.getElem?_replicate]
  split <;> rfl

theorem find?_congr_fp (p q : FenPiece → Bool) :
    ∀ l : List FenPiece, (∀ x ∈ l, p x = q x) → l.find? p = l.find? q := by
  intro l
  induction l with
  | nil => intro _; rfl
  | cons a as ih =>
    intro h
    rw [List.find?_cons, List.find?_cons,
      h a (List.mem_cons_self _ _), ih (fun x hx => h x (List.mem_cons_of_mem _ hx))]

theorem fenMatrix_cell (gl : List FenPiece)
    (hb : ∀ p ∈ gl, 0 ≤ p.position.row ∧ p.position.row < 10 ∧
      0 ≤ p.position.col ∧ p.position.col < 9)
    (huniq : ∀ p ∈ gl, ∀ q ∈ gl, p.position = q.position → p = q)
    (r col : Nat) (hr : r ≤ 9) (hcol : col < 9) :
    (fenMatrix gl).getD (r * 9 + col) none =
      gl.find? (fun p => p.position.row == (r : Int) &&
        p.position.col == (col : Int)) := by
  rcases hf : gl.find? (fun p => p.position.row == (r : Int) &&
      p.position.col == (col : Int)) with _ | p
  · have hun : ∀ p ∈ gl,
        (p.position.row * 9 + p.position.col).toNat ≠ r * 9 + col := by
      intro p hp hpj
      have hfn := List.find?_eq_none.mp hf p hp
      have hbp := hb p hp
      simp only [Bool.and_eq_true, beq_iff_eq] at hfn
      apply hfn
      constructor <;> omega
    rw [fenMatrix, fenMatrix_fold_untouched gl _ _ hun, hf]
    exact replicate_getD_none _ _
  · have hpm := List.mem_of_find?_eq_some hf
    have hpred : p.position.row = (r : Int) ∧
        p.position.col = (col : Int) := by
      have h0 := List.find?_some hf
      simpa using h0
    rw [fenMatrix, hf]
    refine fenMatrix_fold_hit gl _ _ p (by simp) hpm ?hj (hb p hpm) ?huq
    case hj =>
      rw [hpred.1, hpred.2]
      omega
    case huq =>
      intro q hq hqj
      refine huniq q hq p hpm ?_
      have hbq := hb q hq
      rw [show q.position = (⟨q.position.row, q.position.col⟩ : Position)
          from rfl,
        show p.position = (⟨p.position.row, p.position.col⟩ : Position)
          from rfl, Position.mk.injEq]
      rw [hpred.1, hpred.2]
      constructor <;> omega


theorem pairwise_col_uniq (ps : List FenPiece)
    (hpair : List.Pairwise (fun a b => a.position.col < b.position.col) ps) :
    ∀ p ∈ ps, ∀ q ∈ ps, p.position = q.position → p = q := by
  induction ps with
  | nil => intro p hp; simp at hp
  | cons a l ih =>
    intro p hp q hq hpq
    rcases List.pairwise_cons.mp hpair with ⟨ha, hl⟩
    rcases List.mem_cons.mp hp with rfl | hp2
    · rcases List.mem_cons.mp hq with rfl | hq2
      · rfl
      · have := ha q hq2
        rw [hpq] at this
        omega
    · rcases List.mem_cons.mp hq with rfl | hq2
      · have := ha p hp2
        rw [hpq] at this
        omega
      · exact ih hl p hp2 q hq2 hpq

theorem boardRT : ∀ (rows : List (List Char)) (idx : Nat),
    rows.length + idx = 10 →
    (∀ r ∈ rows, canonicalRow r = true) →
    ∃ pieces, parseBoardRows rows idx = some pieces ∧
      (∀ p ∈ pieces, 0 ≤ p.position.col ∧ p.position.col < 9 ∧
        ∃ k : Nat, idx ≤ k ∧ k ≤ 9 ∧
          p.position.row = ((9 - k : Nat) : Int)) ∧
      (∀ p ∈ pieces, ∀ q ∈ pieces, p.position = q.position → p = q) ∧
      (∀ j : Nat, idx ≤ j → j ≤ 9 →
        emitRowGo ((List.range 9).map (fun (col : Nat) =>
          pieces.find? (fun p => p.position.row == ((9 - j : Nat) : Int) &&
            p.position.col == (col : Int)))) 0 = rows.getD (j - idx) []) := by
  intro rows
  induction rows with
  | nil =>
    intro idx hlen _
    refine ⟨[], rfl, by simp, by simp, ?_⟩
    intro j hj1 hj2
    simp only [List.length_nil, Nat.zero_add] at hlen
    omega
  | cons r rest ih =>
    intro idx hlen hcanon
    have hidx9 : idx ≤ 9 := by
      simp only [List.length_cons] at hlen
      omega
    obtain ⟨ps, hparse, hbounds, hpair, hemit, -⟩ :=
      rowRT (9 - (idx : Int)) r 0 false
        (hcanon r (List.mem_cons_self _ _))
    obtain ⟨rest2, hparse2, hbounds2, huniq2, hEM2⟩ :=
      ih (idx + 1) (by simp only [List.length_cons] at hlen; omega)
        (fun r2 hr2 => hcanon r2 (List.mem_cons_of_mem _ hr2))
    have hcast : ((9 - idx : Nat) : Int) = 9 - (idx : Int) := by omega
    have hrowps : ∀ p ∈ ps, p.position.row = ((9 - idx : Nat) : Int) := by
      intro p hp
      rw [hcast]
      exact (hbounds p hp).1
    refine ⟨ps ++ rest2, ?_, ?_, ?_, ?_⟩
    · simp only [parseBoardRows]
      rw [show ((0 : Nat) : Int) = (0 : Int) from rfl] at hparse
      rw [hparse, hparse2]
      rfl
    · intro p hp
      rcases List.mem_append.mp hp with hp2 | hp2
      · have hb := hbounds p hp2
        refine ⟨?_, ?_, idx, le_refl _, hidx9, hrowps p hp2⟩
        · have := hb.2.1
          push_cast at this
          omega
        · have := hb.2.2
          omega
      · obtain ⟨h1, h2, k, hk1, hk2, hk3⟩ := hbounds2 p hp2
        exact ⟨h1, h2, k, by omega, hk2, hk3⟩
    · intro p hp q hq hpq
      rcases List.mem_append.mp hp with hp2 | hp2 <;>
        rcases List.mem_append.mp hq with hq2 | hq2
      · exact pairwise_col_uniq ps hpair p hp2 q hq2 hpq
      · exfalso
        obtain ⟨-, -, k, hk1, hk2, hk3⟩ := hbounds2 q hq2
        have h1 := hrowps p hp2
        rw [hpq] at h1
        rw [hk3] at h1
        omega
      · exfalso
        obtain ⟨-, -, k, hk1, hk2, hk3⟩ := hbounds2 p hp2
        have h1 := hrowps q hq2
        rw [← hpq] at h1
        rw [hk3] at h1
        omega
      · exact huniq2 p hp2 q hq2 hpq
    · intro j hj1 hj2
      rcases Nat.eq_or_lt_of_le hj1 with rfl | hlt
      · have hmap : (List.range 9).map (fun (col : Nat) =>
            (ps ++ rest2).find? (fun p =>
              p.position.row == ((9 - idx : Nat) : Int) &&
              p.position.col == (col : Int))) = cellsFrom ps 0 := by
          rw [cellsFrom]
          refine List.map_congr_left ?_
          intro col hcol
          rw [List.find?_append]
          have hnone : rest2.find? (fun p =>
              p.position.row == ((9 - idx : Nat) : Int) &&
              p.position.col == (col : Int)) = none := by
            rw [List.find?_eq_none]
            intro x hx
            obtain ⟨-, -, k, hk1, hk2, hk3⟩ := hbounds2 x hx
            simp only [Bool.and_eq_true, beq_iff_eq]
            intro hcon
            rw [hk3] at hcon
            have hcon2 := hcon.1
            omega
          rw [hnone, Option.or_none,
            find?_congr_fp _ (fun p => p.position.col == (col : Int)) ps
              (fun x hx => by rw [hrowps x hx]; simp)]
          simp
        rw [hmap, hemit, Nat.sub_self, List.getD_cons_zero]
      · have hmap : (List.range 9).map (fun (col : Nat) =>
            (ps ++ rest2).find? (fun p =>
              p.position.row == ((9 - j : Nat) : Int) &&
              p.position.col == (col : Int))) =
            (List.range 9).map (fun (col : Nat) =>
              rest2.find? (fun p =>
                p.position.row == ((9 - j : Nat) : Int) &&
                p.position.col == (col : Int))) := by
          refine List.map_congr_left ?_
          intro col hcol
          rw [List.find?_append]
          have hnone : ps.find? (fun p =>
              p.position.row == ((9 - j : Nat) : Int) &&
              p.position.col == (col : Int)) = none := by
            rw [List.find?_eq_none]
            intro x hx
            simp only [Bool.and_eq_true, beq_iff_eq]
            intro hcon
            have hx2 := hrowps x hx
            rw [hx2] at hcon
            have hcon2 := hcon.1
            omega
          rw [hnone, Option.none_or]
        rw [hmap, hEM2 j (by omega) hj2,
          show j - idx = (j - (idx + 1)) + 1 from by omega,
          List.getD_cons_succ]


theorem list_len10 {α : Type} (l : List α) (h : l.length = 10) :
    ∃ a0 a1 a2 a3 a4 a5 a6 a7 a8 a9,
      l = [a0, a1, a2, a3, a4, a5, a6, a7, a8, a9] := by
  rcases l with _|⟨a0,_|⟨a1,_|⟨a2,_|⟨a3,_|⟨a4,_|⟨a5,_|⟨a6,_|⟨a7,_|⟨a8,_|⟨a9,_|⟨a10,t⟩⟩⟩⟩⟩⟩⟩⟩⟩⟩⟩ <;>
    simp only [List.length_cons, List.length_nil] at h <;>
    first
    | omega
    | exact ⟨_, _, _, _, _, _, _, _, _, _, rfl⟩

theorem parse_emit_board (bo : List Char)
    (hlen : (bo.splitOn '/').length = 10)
    (hrows : ∀ r ∈ bo.splitOn '/', canonicalRow r = true) :
    ∃ pieces, parse_board bo = some pieces ∧ emitBoard pieces = bo := by
  obtain ⟨pieces, hparse, hb, huniq, hEM⟩ :=
    boardRT (bo.splitOn '/') 0 (by omega) hrows
  have hb2 : ∀ p ∈ pieces, 0 ≤ p.position.row ∧ p.position.row < 10 ∧
      0 ≤ p.position.col ∧ p.position.col < 9 := by
    intro p hp
    obtain ⟨h1, h2, k, hk1, hk2, hk3⟩ := hb p hp
    refine ⟨by rw [hk3]; omega, by rw [hk3]; omega, h1, h2⟩
  have hrow : ∀ j : Nat, j ≤ 9 →
      emitRowGo (matrixRow (fenMatrix pieces) (9 - j)) 0 =
        (bo.splitOn '/').getD j [] := by
    intro j hj
    have hcell : matrixRow (fenMatrix pieces) (9 - j) =
        (List.range 9).map (fun (col : Nat) =>
          pieces.find? (fun p => p.position.row == ((9 - j : Nat) : Int) &&
            p.position.col == (col : Int))) := by
      rw [matrixRow]
      refine List.map_congr_left ?_
      intro col hcol
      have hcol9 : col < 9 := List.mem_range.mp hcol
      exact fenMatrix_cell pieces hb2 huniq (9 - j) col (by omega) hcol9
    rw [hcell]
    simpa using hEM j (by omega) hj
  refine ⟨pieces, ?_, ?_⟩
  · simp only [parse_board]
    rw [if_neg (by simp [hlen])]
    exact hparse
  · rw [emitBoard]
    conv_rhs => rw [← List.intercalate_splitOn bo '/']
    congr 1
    obtain ⟨r0, r1, r2, r3, r4, r5, r6, r7, r8, r9, hr⟩ :=
      list_len10 (bo.splitOn '/') hlen
    rw [hr]
    rw [show (List.range 10).reverse = [9, 8, 7, 6, 5, 4, 3, 2, 1, 0] from rfl]
    simp only [List.map_cons, List.map_nil, List.cons.injEq, and_true]
    refine ⟨?_, ?_, ?_, ?_, ?_, ?_, ?_, ?_, ?_, ?_⟩
    · have h0 := hrow 0 (by omega); rw [hr] at h0; simpa using h0
    · have h0 := hrow 1 (by omega); rw [hr] at h0; simpa using h0
    · have h0 := hrow 2 (by omega); rw [hr] at h0; simpa using h0
    · have h0 := hrow 3 (by omega); rw [hr] at h0; simpa using h0
    · have h0 := hrow 4 (by omega); rw [hr] at h0; simpa using h0
    · have h0 := hrow 5 (by omega); rw [hr] at h0; simpa using h0
    · have h0 := hrow 6 (by omega); rw [hr] at h0; simpa using h0
    · have h0 := hrow 7 (by omega); rw [hr] at h0; simpa using h0
    · have h0 := hrow 8 (by omega); rw [hr] at h0; simpa using h0
    · have h0 := hrow 9 (by omega); rw [hr] at h0; simpa using h0


theorem canonicalRowAux_nonws : ∀ (rs : List Char) (col : Nat) (prev : Bool),
    canonicalRowAux rs col prev = true →
    ∀ c ∈ rs, c.isWhitespace = false := by
  intro rs
  induction rs with
  | nil => intro col prev _ c hc; simp at hc
  | cons c0 rest ih =>
    intro col prev h c hc
    simp only [canonicalRowAux, Bool.or_eq_true, Bool.and_eq_true,
      decide_eq_true_eq, Bool.not_eq_true'] at h
    rcases List.mem_cons.mp hc with rfl | hc2
    · rcases h with ⟨⟨⟨hdig, -⟩, -⟩, -⟩ | ⟨⟨hpc, -⟩, -⟩
      · fin_cases hdig <;> decide
      · fin_cases hpc <;> decide
    · rcases h with ⟨-, haux⟩ | ⟨-, haux⟩ <;>
        exact ih _ _ haux c hc2

theorem canonicalCapSide_nonws (upper : Bool) (cs : List Char)
    (h : canonicalCapSide upper cs = true) :
    ∀ c ∈ cs, c.isWhitespace = false := by
  simp only [canonicalCapSide, Bool.or_eq_true, beq_iff_eq, Bool.and_eq_true,
    Bool.not_eq_true', List.all_eq_true, decide_eq_true_eq] at h
  intro c hc
  rcases h with h | ⟨-, hall⟩
  · subst h
    simp only [List.mem_singleton] at hc
    subst hc
    decide
  · have := hall c hc
    cases upper <;> fin_cases this <;> decide

theorem mem_intercalate_char (sep : Char) :
    ∀ (ls : List (List Char)) (c : Char), c ∈ List.intercalate [sep] ls →
      c = sep ∨ ∃ r ∈ ls, c ∈ r := by
  intro ls
  induction ls with
  | nil => intro c hc; simp [List.intercalate] at hc
  | cons f fs ih =>
    intro c hc
    cases fs with
    | nil =>
      rw [show List.intercalate [sep] [f] = f from by simp [List.intercalate]]
        at hc
      exact Or.inr ⟨f, List.mem_singleton.mpr rfl, hc⟩
    | cons g gs =>
      rw [show List.intercalate [sep] (f :: g :: gs) =
          f ++ sep :: List.intercalate [sep] (g :: gs) from by
        simp [List.intercalate, List.intersperse]] at hc
      rcases List.mem_append.mp hc with hc2 | hc2
      · exact Or.inr ⟨f, List.mem_cons_self _ _, hc2⟩
      · rcases List.mem_cons.mp hc2 with rfl | hc3
        · exact Or.inl rfl
        · rcases ih c hc3 with h1 | ⟨r, hr, hcr⟩
          · exact Or.inl h1
          · exact Or.inr ⟨r, List.mem_cons_of_mem _ hr, hcr⟩


/-- C4 (amended): on canonical FEN strings - four single-space-separated
fields, a 10-row canonical board (digits `1`-`9` with no adjacent digits,
valid piece letters, each row summing to exactly 9 columns), captured sides
that are `-` or non-empty runs of `?` and piece letters in the emitter's
case for that side, and single-letter turn/viewer fields - `parse_fen`
succeeds and `pieces_to_fen` re-emits the input character for character. -/
theorem fen_roundtrip_canonical (s : List Char)
    (h : canonicalFen s = true) :
    ∃ st : FenState, parse_fen s = some st ∧
      pieces_to_fen st.pieces st.captured st.turn st.viewer = s := by
  rcases hsp : s.splitOn ' ' with
    _ | ⟨bo, _ | ⟨cap, _ | ⟨tu, _ | ⟨vw, _ | ⟨x5, rest⟩⟩⟩⟩⟩
  · simp only [canonicalFen, hsp] at h
    exact absurd h (by simp)
  · simp only [canonicalFen, hsp] at h
    exact absurd h (by simp)
  · simp only [canonicalFen, hsp] at h
    exact absurd h (by simp)
  · simp only [canonicalFen, hsp] at h
    exact absurd h (by simp)
  case cons.cons.cons.cons.nil =>
    simp only [canonicalFen, hsp, Bool.and_eq_true, beq_iff_eq,
      List.all_eq_true, decide_eq_true_eq, Bool.or_eq_true] at h
    obtain ⟨⟨⟨⟨hblen, hbrows⟩, hcap⟩, htu⟩, hvw⟩ := h
    rcases hcp : cap.splitOn ':' with
      _ | ⟨rc, _ | ⟨bc, _ | ⟨x3, rest2⟩⟩⟩ <;> rw [hcp] at hcap
    · simp at hcap
    · simp at hcap
    case cons.cons.cons => simp at hcap
    case cons.cons.nil =>
      simp only [Bool.and_eq_true] at hcap
      obtain ⟨pieces, hpb, hemb⟩ := parse_emit_board bo hblen hbrows
      obtain ⟨red, hprc, herc⟩ := capSideRT true rc hcap.1
      obtain ⟨black, hpbc, hebc⟩ := capSideRT false bc hcap.2
      have hcapeq : cap = rc ++ ':' :: bc := by
        have h2 := List.intercalate_splitOn cap ':'
        rw [hcp, show List.intercalate [':'] [rc, bc] = rc ++ ':' :: bc from by
          simp [List.intercalate, List.intersperse]] at h2
        exact h2.symm
      have hboeq : List.intercalate ['/'] (bo.splitOn '/') = bo :=
        List.intercalate_splitOn bo '/'
      have hfields : ∀ g ∈ [bo, cap, tu, vw], g ≠ [] ∧
          ∀ c ∈ g, c.isWhitespace = false := by
        intro g hg
        rcases List.mem_cons.mp hg with rfl | hg
        · constructor
          · intro he
            rw [he] at hblen
            simp at hblen
          · intro c hc
            rw [← hboeq] at hc
            rcases mem_intercalate_char '/' _ c hc with rfl | ⟨r, hr, hcr⟩
            · decide
            · exact canonicalRowAux_nonws r 0 false (hbrows r hr) c hcr
        rcases List.mem_cons.mp hg with rfl | hg
        · constructor
          · rw [hcapeq]
            simp
          · intro c hc
            rw [hcapeq] at hc
            rcases List.mem_append.mp hc with hc2 | hc2
            · exact canonicalCapSide_nonws true rc hcap.1 c hc2
            · rcases List.mem_cons.mp hc2 with rfl | hc3
              · decide
              · exact canonicalCapSide_nonws false bc hcap.2 c hc3
        rcases List.mem_cons.mp hg with rfl | hg
        · rcases htu with rfl | rfl <;> exact ⟨by simp, by decide⟩
        rcases List.mem_cons.mp hg with rfl | hg
        · rcases hvw with rfl | rfl <;> exact ⟨by simp, by decide⟩
        simp at hg
      have hseq : s = List.intercalate [' '] [bo, cap, tu, vw] := by
        have h2 := List.intercalate_splitOn s ' '
        rw [hsp] at h2
        exact h2.symm
      have hws : splitWs s = [bo, cap, tu, vw] := by
        rw [hseq]
        exact splitWs_fields _ hfields (by simp)
      obtain ⟨tcol, htc1, htc2⟩ : ∃ tc,
          Color.from_fen_char (tu.headD 'r') = some tc ∧
          [tc.to_fen_char] = tu := by
        rcases htu with rfl | rfl
        · exact ⟨Color.Red, by decide, by decide⟩
        · exact ⟨Color.Black, by decide, by decide⟩
      obtain ⟨vcol, hvc1, hvc2⟩ : ∃ vc,
          Color.from_fen_char (vw.headD 'r') = some vc ∧
          [vc.to_fen_char] = vw := by
        rcases hvw with rfl | rfl
        · exact ⟨Color.Red, by decide, by decide⟩
        · exact ⟨Color.Black, by decide, by decide⟩
      refine ⟨⟨pieces, ⟨red, black⟩, tcol, vcol⟩, ?_, ?_⟩
      · simp only [parse_fen, hws, hpb, parse_captured, hcp, hprc, hpbc,
          htc1, hvc1, Option.bind_some]
        rfl
      · show pieces_to_fen pieces ⟨red, black⟩ tcol vcol = s
        rw [pieces_to_fen, hemb, herc, hebc, htc2, hvc2, hseq,
          show List.intercalate [' '] [bo, cap, tu, vw] =
            bo ++ ' ' :: (cap ++ ' ' :: (tu ++ ' ' :: vw)) from by
          simp [List.intercalate, List.intersperse], hcapeq]
        simp
  case cons.cons.cons.cons.cons =>
    simp only [canonicalFen, hsp] at h
    exact absurd h (by simp)


/-- C4 (witness): a canonical 4k4/9/3R5/x1x3x1x/4X4/4x4/X1X3X1X/1C5C1/9/4K4 RP??:raHC r r with hidden pieces and a mixed captured
record round-trips exactly. -/
theorem fen_roundtrip_canonical_witness :
    canonicalFen ("3k5/9/9/9/9/9/9/9/9/X3K4 R?:ra r r").toList = true ∧
    ∃ st : FenState,
      parse_fen ("3k5/9/9/9/9/9/9/9/9/X3K4 R?:ra r r").toList = some st ∧
      pieces_to_fen st.pieces st.captured st.turn st.viewer =
        ("3k5/9/9/9/9/9/9/9/9/X3K4 R?:ra r r").toList :=
  ⟨by decide, fen_roundtrip_canonical _ (by decide)⟩

/-- C4 (counterexample): the repository's own test 4k4/9/3R5/x1x3x1x/4X4/4x4/X1X3X1X/1C5C1/9/4K4 RP??:raHC r r carries the black
captured entries `H` and `C` in uppercase (revealed-when-captured), but
`pieces_to_fen` prints every black captured letter in lowercase, so
re-emitting the accepted input does not reproduce it. -/
theorem fen_roundtrip_counterexample :
    (parse_fen ("4k4/9/3R5/x1x3x1x/4X4/4x4/X1X3X1X/1C5C1/9/4K4 RP??:raHC r r").toList).isSome = true ∧
    (parse_fen ("4k4/9/3R5/x1x3x1x/4X4/4x4/X1X3X1X/1C5C1/9/4K4 RP??:raHC r r").toList).map (fun st =>
      pieces_to_fen st.pieces st.captured st.turn st.viewer) ≠
      some ("4k4/9/3R5/x1x3x1x/4X4/4x4/X1X3X1X/1C5C1/9/4K4 RP??:raHC r r").toList := by
  constructor
  · decide
  · decide

end Jieqi
